import Mathlib

/-!
# Set-associative LRU cache simulator (`src/new.cpp`) and processor model

A shallow embedding of `CacheBlock`, `CacheSet` and `Cache` together with the
`Cache::access` operation (namespace `CacheSim`), and of `ProcessorModel` from
`src/cpp_arch_models/processor_model.cpp` (namespace `arch_models`), followed by the
properties established about them.

Modelling conventions for the cache:

* C++ `int` values are mathematical integers (`Int`); the configuration integers are
  positive, so they are carried as `Nat`, and every theorem that depends on them being
  `int`s assumes `cacheSize < 2 ^ 31`.
* `address >> n` on a signed `int` is the arithmetic (sign-extending) shift, which is
  `Int.shiftRight`.
* `x & y` is the bitwise conjunction of the 32-bit two's-complement patterns.
* `vector::operator[]` out of range and `list::front` on an empty list are undefined
  behaviour in C++; the embedding makes them explicit as the result `none`.
-/

namespace CacheSim

/-! ## Machine arithmetic -/

/-- Auxiliary recursion for `floorLog2`, structurally recursive on the fuel. -/
def floorLog2Aux : Nat → Nat → Nat
  | 0, _ => 0
  | fuel + 1, n => if 2 ≤ n then floorLog2Aux fuel (n / 2) + 1 else 0

/-- The value of `int k = log2(n)` for a positive `int n`: the double-valued base-2
logarithm truncated towards zero, that is `⌊log₂ n⌋`. -/
def floorLog2 (n : Nat) : Nat := floorLog2Aux n n

/-- Two's-complement bit pattern of a 32-bit `int`, as a natural number below `2 ^ 32`. -/
def toBits32 (x : Int) : Nat := (x % 2 ^ 32).toNat

/-- Signed value of a 32-bit pattern. -/
def ofBits32 (n : Nat) : Int :=
  if n % 2 ^ 32 < 2 ^ 31 then ((n % 2 ^ 32 : Nat) : Int) else ((n % 2 ^ 32 : Nat) : Int) - 2 ^ 32

/-- The C++ expression `x & y` on two `int`s. -/
def intAnd (x y : Int) : Int := ofBits32 (toBits32 x &&& toBits32 y)

/-- The C++ expression `(1 << k) - 1` on `int`s (`k ≤ 30`, so the shift does not overflow). -/
def lowMask (k : Nat) : Int := ((1 <<< k : Nat) : Int) - 1

/-! ## Data model -/

/-- One storage slot: `struct CacheBlock`. -/
structure CacheBlock where
  tag : Int
  valid : Bool
  deriving DecidableEq, Repr

/-- The default-constructed block: `CacheBlock() : tag(0), valid(false)`. -/
def CacheBlock.init : CacheBlock := { tag := 0, valid := false }

/-- One set: `struct CacheSet`.  The recency list `lru` holds slot indices, least recently
used first; every value ever pushed is a loop index, a list size or a previous element, so
the entries are natural numbers. -/
structure CacheSet where
  blocks : List CacheBlock
  lru : List Nat
  deriving DecidableEq, Repr

/-- The constructor `CacheSet(int associativity) : blocks(associativity)`. -/
def CacheSet.init (associativity : Nat) : CacheSet :=
  { blocks := List.replicate associativity CacheBlock.init, lru := [] }

/-- The simulator state: `class Cache`. -/
structure Cache where
  blockSize : Nat
  cacheSize : Nat
  associativity : Nat
  numSets : Nat
  sets : List CacheSet
  deriving DecidableEq, Repr

/-- The constructor `Cache(blockSize, cacheSize, associativity)`. -/
def Cache.init (blockSize cacheSize associativity : Nat) : Cache :=
  let numSets := (cacheSize / blockSize) / associativity
  { blockSize := blockSize
    cacheSize := cacheSize
    associativity := associativity
    numSets := numSets
    sets := List.replicate numSets (CacheSet.init associativity) }

/-! ## `Cache::access` -/

/-- The variable `blockOffsetBits` of `access`. -/
def Cache.blockOffsetBits (c : Cache) : Nat := floorLog2 c.blockSize

/-- The variable `indexBits` of `access`. -/
def Cache.indexBits (c : Cache) : Nat := floorLog2 c.numSets

/-- The variable `index` of `access`. -/
def Cache.index (c : Cache) (address : Int) : Int :=
  intAnd (address >>> c.blockOffsetBits) (lowMask c.indexBits)

/-- The variable `tag` of `access`. -/
def Cache.tag (c : Cache) (address : Int) : Int :=
  address >>> (c.blockOffsetBits + c.indexBits)

/-- The scan loop `for (int i = 0; i < associativity; i++)`, started at slot `i` with `n`
iterations left.  `some (some i)` is a match at slot `i`, `some none` is a completed scan
without a match, `none` is an out-of-range read of `blocks`. -/
def scanFrom (blocks : List CacheBlock) (tag : Int) : Nat → Nat → Option (Option Nat)
  | _, 0 => some none
  | i, n + 1 =>
    match blocks[i]? with
    | none => none
    | some b =>
      if b.valid && b.tag == tag then some (some i) else scanFrom blocks tag (i + 1) n

/-- The body of `access` on the selected set (`CacheSet& set = sets[index]`): the scan, the
hit branch and the two miss branches. -/
def CacheSet.access (associativity : Nat) (set : CacheSet) (tag : Int) :
    Option (Bool × CacheSet) :=
  match scanFrom set.blocks tag 0 associativity with
  | none => none
  | some (some i) =>
    some (true, { set with lru := set.lru.filter (fun j => j != i) ++ [i] })
  | some none =>
    if set.lru.length < associativity then
      let newIndex := set.lru.length
      if newIndex < set.blocks.length then
        some (false, { blocks := set.blocks.set newIndex { tag := tag, valid := true }
                       lru := set.lru ++ [newIndex] })
      else none
    else
      match set.lru with
      | [] => none
      | evictIndex :: rest =>
        if evictIndex < set.blocks.length then
          some (false, { blocks := set.blocks.set evictIndex { tag := tag, valid := true }
                         lru := rest ++ [evictIndex] })
        else none

/-- The method `bool Cache::access(int address)`. -/
def Cache.access (c : Cache) (address : Int) : Option (Bool × Cache) :=
  let index := c.index address
  let tag := c.tag address
  if index < 0 then none
  else
    match c.sets[index.toNat]? with
    | none => none
    | some set =>
      match set.access c.associativity tag with
      | none => none
      | some (r, set') => some (r, { c with sets := c.sets.set index.toNat set' })

/-- The driver loop of `main`: the accesses of `trace` in order, collecting the results. -/
def Cache.run (c : Cache) : List Int → Option (List Bool × Cache)
  | [] => some ([], c)
  | a :: rest =>
    match c.access a with
    | none => none
    | some (r, c') =>
      match Cache.run c' rest with
      | none => none
      | some (rs, c'') => some (r :: rs, c'')

/-! ## Specification-level definitions -/

/-- The tag stored in slot `i` of a set (`0` when the slot does not exist). -/
def CacheSet.slotTag (s : CacheSet) (i : Nat) : Int := (s.blocks.getD i CacheBlock.init).tag

/-- The tags of the occupied slots in recency order, least recently used first. -/
def CacheSet.tags (s : CacheSet) : List Int := s.lru.map s.slotTag

/-- The invariant maintained for every set of a cache with `assoc` ways. -/
structure SetInv (assoc : Nat) (s : CacheSet) : Prop where
  len_blocks : s.blocks.length = assoc
  nodup : s.lru.Nodup
  mem_iff : ∀ i, i ∈ s.lru ↔ ∃ b, s.blocks[i]? = some b ∧ b.valid = true
  lt_len : ∀ i ∈ s.lru, i < s.lru.length
  tags_inj : ∀ (i j : Nat) (bi bj : CacheBlock), s.blocks[i]? = some bi → s.blocks[j]? = some bj →
    bi.valid = true → bj.valid = true → bi.tag = bj.tag → i = j

/-- One step of the textbook LRU list over tags: the hit flag and the new list. -/
def lruStep (assoc : Nat) (tags : List Int) (t : Int) : Bool × List Int :=
  if t ∈ tags then (true, tags.erase t ++ [t])
  else if tags.length < assoc then (false, tags ++ [t])
  else (false, tags.tail ++ [t])

/-- Index of the set selected by an address, as a position in `sets`. -/
def Cache.setIdx (c : Cache) (address : Int) : Nat := (c.index address).toNat

/-- Well-formedness of a cache state: an `int` configuration with at least one set and one
way, `numSets` as computed by the constructor, and every set satisfying the set invariant. -/
structure Cache.WF (c : Cache) : Prop where
  assoc_pos : 0 < c.associativity
  numSets_pos : 0 < c.numSets
  cacheSize_lt : c.cacheSize < 2 ^ 31
  numSets_eq : c.numSets = c.cacheSize / c.blockSize / c.associativity
  sets_len : c.sets.length = c.numSets
  sets_inv : ∀ s ∈ c.sets, SetInv c.associativity s

/-- Two states carry the same configuration integers. -/
structure SameConfig (c c' : Cache) : Prop where
  blockSize_eq : c'.blockSize = c.blockSize
  cacheSize_eq : c'.cacheSize = c.cacheSize
  associativity_eq : c'.associativity = c.associativity
  numSets_eq : c'.numSets = c.numSets

/-- The tags held by set `s` in recency order (empty when there is no such set). -/
def Cache.tagsAt (c : Cache) (s : Nat) : List Int :=
  match c.sets[s]? with
  | some set => set.tags
  | none => []

/-- The pair (set position, tag) that identifies the block an address maps to. -/
def Cache.key (c : Cache) (address : Int) : Nat × Int := (c.setIdx address, c.tag address)

/-- The number of accesses of `trace` made after the most recent access to set `s` with tag
`t`; it is `trace.length` when `trace` has no such access.  A larger age means that the most
recent access is older. -/
def Cache.age (c : Cache) (trace : List Int) (s : Nat) (t : Int) : Nat :=
  ((trace.map c.key).reverse).findIdx (fun k => decide (k = (s, t)))

/-- The count used by the reference LRU model: the number of distinct other tags with the
same set index among the accesses of `earlier` made after the most recent access with the
(set, tag) pair of `a`. -/
def Cache.distinctOthersSince (c : Cache) (earlier : List Int) (a : Int) : Nat :=
  (((((earlier.map c.key).reverse.takeWhile (fun k => decide (k ≠ c.key a))).filter
    (fun k => decide (k.1 = (c.key a).1 ∧ k.2 ≠ (c.key a).2))).map Prod.snd).dedup).length

/-- The reference LRU model (stack distance): an access to `a` after the accesses `earlier`
is a hit exactly when some earlier access had the same (set, tag) pair and fewer than
`associativity` distinct other tags of that set were accessed since the most recent one. -/
def Cache.referenceHit (c : Cache) (earlier : List Int) (a : Int) : Bool :=
  decide (c.key a ∈ earlier.map c.key) &&
    decide (c.distinctOthersSince earlier a < c.associativity)

/-- The block in slot `j` of set `s`, when there is one. -/
def Cache.block? (c : Cache) (s j : Nat) : Option CacheBlock :=
  (c.sets[s]?).bind (fun set => set.blocks[j]?)

/-- The state `c` is reached from `c0` by the accesses of `trace`, in order. -/
inductive Cache.Reaches (c0 : Cache) : List Int → Cache → Prop
  | init : Cache.Reaches c0 [] c0
  | step {trace : List Int} {c : Cache} {a : Int} {r : Bool} {c' : Cache} :
    Cache.Reaches c0 trace c → c.access a = some (r, c') → Cache.Reaches c0 (trace ++ [a]) c'

end CacheSim

namespace arch_models

/-! ## Processor model (`src/cpp_arch_models/processor_model.cpp`)

`uint8_t`, `uint32_t` and `uint64_t` values are natural numbers, reduced modulo the width
where the C++ arithmetic wraps.  The two `std::array` members have a fixed size, so they are
total maps from positions to values; every array access checks its position against the
array size and yields the fault `out_of_bounds` (undefined behaviour in C++) when the
position is outside.  A thrown exception is the result `Except.error`; the object is then
left as it was, since every `throw` of the class precedes the first assignment.  The model
name and the console output are not modelled. -/

/-- The constant `NUM_REGISTERS`. -/
def NUM_REGISTERS : Nat := 32

/-- The constant `MEMORY_SIZE`. -/
def MEMORY_SIZE : Nat := 4096

/-- The ways a call can fail: the two exception types thrown by the class, and an array
access outside the array. -/
inductive Fault where
  | out_of_range
  | runtime_error
  | out_of_bounds
  deriving DecidableEq, Repr

/-- The data members of `ProcessorModel` and of its base `BaseModel`. -/
structure ProcessorModel where
  initialized : Bool
  cycle_count : Nat
  registers : Nat → Nat
  memory : Nat → Nat
  pc : Nat

/-- The constructor `ProcessorModel(name)`: `initialized_(false)`, `cycle_count_(0)`,
`pc_(0)`, both arrays filled with 0. -/
def ProcessorModel.new : ProcessorModel :=
  { initialized := false
    cycle_count := 0
    registers := fun _ => 0
    memory := fun _ => 0
    pc := 0 }

/-- The method `reset()`. -/
def ProcessorModel.reset (s : ProcessorModel) : ProcessorModel :=
  { s with registers := fun _ => 0, memory := fun _ => 0, pc := 0, cycle_count := 0 }

/-- The method `initialize()` of the source: nothing when already initialized, otherwise
`reset()` and `initialized_ = true`. -/
def ProcessorModel.initialise (s : ProcessorModel) : ProcessorModel :=
  if s.initialized then s else { s.reset with initialized := true }

/-- The read `registers_[i]`. -/
def ProcessorModel.loadRegister (s : ProcessorModel) (i : Nat) : Except Fault Nat :=
  if i < NUM_REGISTERS then .ok (s.registers i) else .error .out_of_bounds

/-- The assignment `registers_[i] = v`. -/
def ProcessorModel.storeRegister (s : ProcessorModel) (i v : Nat) :
    Except Fault ProcessorModel :=
  if i < NUM_REGISTERS then
    .ok { s with registers := fun j => if j = i then v else s.registers j }
  else .error .out_of_bounds

/-- The read `memory_[i]`. -/
def ProcessorModel.loadByte (s : ProcessorModel) (i : Nat) : Except Fault Nat :=
  if i < MEMORY_SIZE then .ok (s.memory i) else .error .out_of_bounds

/-- The assignment `memory_[i] = b`. -/
def ProcessorModel.storeByte (s : ProcessorModel) (i b : Nat) : Except Fault ProcessorModel :=
  if i < MEMORY_SIZE then .ok { s with memory := fun j => if j = i then b else s.memory j }
  else .error .out_of_bounds

/-- The method `read_register(reg_id)`. -/
def ProcessorModel.read_register (s : ProcessorModel) (reg_id : Nat) : Except Fault Nat :=
  if reg_id ≥ NUM_REGISTERS then .error .out_of_range
  else if reg_id = 0 then .ok 0
  else s.loadRegister reg_id

/-- The method `write_register(reg_id, value)`. -/
def ProcessorModel.write_register (s : ProcessorModel) (reg_id value : Nat) :
    Except Fault ProcessorModel :=
  if reg_id ≥ NUM_REGISTERS then .error .out_of_range
  else if reg_id = 0 then .ok s
  else s.storeRegister reg_id value

/-- The method `read_memory(addr)`: the little-endian word at `addr`. -/
def ProcessorModel.read_memory (s : ProcessorModel) (addr : Nat) : Except Fault Nat :=
  if addr ≥ MEMORY_SIZE - 3 then .error .out_of_range
  else do
    let b0 ← s.loadByte addr
    let b1 ← s.loadByte (addr + 1)
    let b2 ← s.loadByte (addr + 2)
    let b3 ← s.loadByte (addr + 3)
    pure ((b0 ||| (b1 <<< 8) ||| (b2 <<< 16) ||| (b3 <<< 24)) % 2 ^ 32)

/-- The method `write_memory(addr, value)`: the little-endian bytes of `value` at `addr`. -/
def ProcessorModel.write_memory (s : ProcessorModel) (addr value : Nat) :
    Except Fault ProcessorModel :=
  if addr ≥ MEMORY_SIZE - 3 then .error .out_of_range
  else do
    let s0 ← s.storeByte addr (value &&& 0xFF)
    let s1 ← s0.storeByte (addr + 1) ((value >>> 8) &&& 0xFF)
    let s2 ← s1.storeByte (addr + 2) ((value >>> 16) &&& 0xFF)
    s2.storeByte (addr + 3) ((value >>> 24) &&& 0xFF)

/-- The method `execute_instruction(instruction)`. -/
def ProcessorModel.execute_instruction (s : ProcessorModel) (instruction : Nat) :
    Except Fault ProcessorModel :=
  let opcode := (instruction >>> 26) &&& 0x3F
  if opcode = 0x00 then
    let rd := (instruction >>> 11) &&& 0x1F
    let rs := (instruction >>> 21) &&& 0x1F
    let rt := (instruction >>> 16) &&& 0x1F
    do
      let x ← s.read_register rs
      let y ← s.read_register rt
      s.write_register rd ((x + y) % 2 ^ 32)
  else .ok s

/-- The method `step()`. -/
def ProcessorModel.step (s : ProcessorModel) : Except Fault ProcessorModel :=
  if !s.initialized then .error .runtime_error
  else do
    let instruction ← s.read_memory s.pc
    let s1 ← s.execute_instruction instruction
    pure { s1 with pc := (s1.pc + 4) % 2 ^ 32, cycle_count := (s1.cycle_count + 1) % 2 ^ 64 }

/-- The method `set_pc(pc)`. -/
def ProcessorModel.set_pc (s : ProcessorModel) (pc : Nat) : ProcessorModel := { s with pc := pc }

/-- The states reached from a newly constructed processor by calls of the public methods
with arguments of their C++ types; a call that throws leaves the state as it was. -/
inductive ProcessorModel.Reachable : ProcessorModel → Prop
  | new : ProcessorModel.Reachable ProcessorModel.new
  | initialise {s : ProcessorModel} :
    ProcessorModel.Reachable s → ProcessorModel.Reachable s.initialise
  | reset {s : ProcessorModel} : ProcessorModel.Reachable s → ProcessorModel.Reachable s.reset
  | set_pc {s : ProcessorModel} (pc : Nat) :
    ProcessorModel.Reachable s → pc < 2 ^ 32 → ProcessorModel.Reachable (s.set_pc pc)
  | write_register {s s' : ProcessorModel} (reg_id value : Nat) :
    ProcessorModel.Reachable s → reg_id < 2 ^ 8 → value < 2 ^ 32 →
    s.write_register reg_id value = .ok s' → ProcessorModel.Reachable s'
  | write_memory {s s' : ProcessorModel} (addr value : Nat) :
    ProcessorModel.Reachable s → addr < 2 ^ 32 → value < 2 ^ 32 →
    s.write_memory addr value = .ok s' → ProcessorModel.Reachable s'
  | execute_instruction {s s' : ProcessorModel} (instruction : Nat) :
    ProcessorModel.Reachable s → instruction < 2 ^ 32 →
    s.execute_instruction instruction = .ok s' → ProcessorModel.Reachable s'
  | step {s s' : ProcessorModel} :
    ProcessorModel.Reachable s → s.step = .ok s' → ProcessorModel.Reachable s'

end arch_models

namespace CacheSim

/-! ## Machine arithmetic lemmas -/

theorem floorLog2Aux_eq_log (fuel n : Nat) (h : n ≤ fuel) : floorLog2Aux fuel n = Nat.log 2 n := by
  induction fuel generalizing n with
  | zero =>
    have : n = 0 := by omega
    subst this; simp [floorLog2Aux]
  | succ f ih =>
    unfold floorLog2Aux
    by_cases h2 : 2 ≤ n
    · rw [if_pos h2, ih (n / 2) (by omega), Nat.log_of_one_lt_of_le (by norm_num) h2]
    · rw [if_neg h2, Nat.log_of_lt (by omega)]

theorem floorLog2_eq_log (n : Nat) : floorLog2 n = Nat.log 2 n :=
  floorLog2Aux_eq_log n n le_rfl

theorem two_pow_floorLog2_le (n : Nat) (h : 1 ≤ n) : 2 ^ floorLog2 n ≤ n := by
  rw [floorLog2_eq_log]; exact Nat.pow_log_le_self 2 (by omega)

theorem lt_two_pow_floorLog2_succ (n : Nat) : n < 2 ^ (floorLog2 n + 1) := by
  rw [floorLog2_eq_log]; exact Nat.lt_pow_succ_log_self (by norm_num) n

theorem toBits32_lowMask (k : Nat) (hk : k ≤ 31) : toBits32 (lowMask k) = 2 ^ k - 1 := by
  unfold toBits32 lowMask
  have h1 : (1 : Nat) ≤ 2 ^ k := Nat.one_le_two_pow
  have h2 : 2 ^ k ≤ 2 ^ 31 := Nat.pow_le_pow_right (by norm_num) hk
  rw [Nat.shiftLeft_eq, one_mul]
  have : (((2 ^ k : Nat) : Int) - 1) = ((2 ^ k - 1 : Nat) : Int) := by omega
  rw [this]
  have h3 : (((2 ^ k - 1 : Nat) : Int) % 2 ^ 32) = ((2 ^ k - 1 : Nat) : Int) := by
    apply Int.emod_eq_of_lt <;> omega
  rw [h3]; exact Int.toNat_natCast _

theorem intAnd_lowMask (x : Int) (k : Nat) (hk : k ≤ 31) : intAnd x (lowMask k) = x % 2 ^ k := by
  unfold intAnd
  rw [toBits32_lowMask k hk, Nat.and_pow_two_sub_one_eq_mod]
  have h2 : 2 ^ k ≤ 2 ^ 31 := Nat.pow_le_pow_right (by norm_num) hk
  have hpos : 0 < 2 ^ k := Nat.two_pow_pos k
  have hlt : toBits32 x % 2 ^ k < 2 ^ k := Nat.mod_lt _ hpos
  unfold ofBits32
  have e1 : (toBits32 x % 2 ^ k) % 2 ^ 32 = toBits32 x % 2 ^ k := Nat.mod_eq_of_lt (by omega)
  rw [e1, if_pos (by omega)]
  unfold toBits32
  have hx : 0 ≤ x % 2 ^ 32 := Int.emod_nonneg _ (by norm_num)
  have e2 : (((x % 2 ^ 32).toNat % 2 ^ k : Nat) : Int) = (x % 2 ^ 32) % 2 ^ k := by
    rw [Int.natCast_mod, Int.toNat_of_nonneg hx]; norm_cast
  rw [e2]
  have hd : ((2 : Int) ^ k) ∣ 2 ^ 32 := pow_dvd_pow 2 (by omega)
  exact Int.emod_emod_of_dvd x hd

/-! ## The scan loop -/

theorem scanFrom_isSome (blocks : List CacheBlock) (tag : Int) (n i : Nat)
    (h : i + n ≤ blocks.length) : ∃ r, scanFrom blocks tag i n = some r := by
  induction n generalizing i with
  | zero => exact ⟨none, rfl⟩
  | succ n ih =>
    have hi : i < blocks.length := by omega
    unfold scanFrom
    rw [List.getElem?_eq_getElem hi]
    by_cases hm : (blocks[i].valid && blocks[i].tag == tag) = true
    · simp only [hm, if_true]; exact ⟨_, rfl⟩
    · simp only [hm]; exact ih (i + 1) (by omega)

theorem scanFrom_found (blocks : List CacheBlock) (tag : Int) (n i j : Nat)
    (h : scanFrom blocks tag i n = some (some j)) :
    i ≤ j ∧ j < i + n ∧ ∃ b, blocks[j]? = some b ∧ b.valid = true ∧ b.tag = tag := by
  induction n generalizing i with
  | zero => simp [scanFrom] at h
  | succ n ih =>
    unfold scanFrom at h
    cases hb : blocks[i]? with
    | none => simp [hb] at h
    | some b =>
      simp only [hb] at h
      by_cases hm : (b.valid && b.tag == tag) = true
      · simp only [hm, if_true, Option.some.injEq] at h
        subst h
        simp only [Bool.and_eq_true, beq_iff_eq] at hm
        exact ⟨le_rfl, by omega, b, hb, hm.1, hm.2⟩
      · simp only [hm] at h
        obtain ⟨h1, h2, h3⟩ := ih (i + 1) h
        exact ⟨by omega, by omega, h3⟩

theorem scanFrom_not_found (blocks : List CacheBlock) (tag : Int) (n i : Nat)
    (h : scanFrom blocks tag i n = some none) (k : Nat) (hik : i ≤ k) (hkn : k < i + n) :
    ∃ b, blocks[k]? = some b ∧ ¬ (b.valid = true ∧ b.tag = tag) := by
  induction n generalizing i with
  | zero => omega
  | succ n ih =>
    unfold scanFrom at h
    cases hb : blocks[i]? with
    | none => simp [hb] at h
    | some b =>
      simp only [hb] at h
      by_cases hm : (b.valid && b.tag == tag) = true
      · simp [hm] at h
      · simp only [hm] at h
        by_cases hk : k = i
        · subst hk
          refine ⟨b, hb, ?_⟩
          simpa [Bool.and_eq_true, beq_iff_eq] using hm
        · exact ih (i + 1) h (by omega) (by omega)

/-! ## Per-set invariant and the abstract recency list -/

theorem slotTag_of_getElem? (s : CacheSet) (i : Nat) (b : CacheBlock)
    (h : s.blocks[i]? = some b) : s.slotTag i = b.tag := by
  unfold CacheSet.slotTag
  rw [List.getD_eq_getElem?_getD, h]; rfl

theorem SetInv.lt_assoc {assoc : Nat} {s : CacheSet} (hinv : SetInv assoc s) {i : Nat}
    (hi : i ∈ s.lru) : i < assoc := by
  obtain ⟨b, hb, _⟩ := (hinv.mem_iff i).1 hi
  have := (List.getElem?_eq_some_iff.1 hb).1
  rw [← hinv.len_blocks]; exact this

theorem SetInv.lru_length_le {assoc : Nat} {s : CacheSet} (hinv : SetInv assoc s) :
    s.lru.length ≤ assoc := by
  have hsub : s.lru ⊆ List.range assoc := fun i hi => List.mem_range.2 (hinv.lt_assoc hi)
  have := (List.Nodup.subperm hinv.nodup hsub).length_le
  simpa using this

theorem SetInv.mem_tags_iff {assoc : Nat} {s : CacheSet} (hinv : SetInv assoc s) (t : Int) :
    t ∈ s.tags ↔ ∃ (i : Nat) (b : CacheBlock), s.blocks[i]? = some b ∧ b.valid = true ∧ b.tag = t := by
  unfold CacheSet.tags
  rw [List.mem_map]
  constructor
  · rintro ⟨i, hi, rfl⟩
    obtain ⟨b, hb, hv⟩ := (hinv.mem_iff i).1 hi
    exact ⟨i, b, hb, hv, (slotTag_of_getElem? s i b hb).symm⟩
  · rintro ⟨i, b, hb, hv, rfl⟩
    exact ⟨i, (hinv.mem_iff i).2 ⟨b, hb, hv⟩, slotTag_of_getElem? s i b hb⟩

theorem SetInv.slotTag_inj {assoc : Nat} {s : CacheSet} (hinv : SetInv assoc s) {i j : Nat}
    (hi : i ∈ s.lru) (hj : j ∈ s.lru) (h : s.slotTag i = s.slotTag j) : i = j := by
  obtain ⟨bi, hbi, hvi⟩ := (hinv.mem_iff i).1 hi
  obtain ⟨bj, hbj, hvj⟩ := (hinv.mem_iff j).1 hj
  rw [slotTag_of_getElem? s i bi hbi, slotTag_of_getElem? s j bj hbj] at h
  exact hinv.tags_inj i j bi bj hbi hbj hvi hvj h

theorem SetInv.tags_nodup {assoc : Nat} {s : CacheSet} (hinv : SetInv assoc s) :
    s.tags.Nodup :=
  List.Nodup.map_on (fun _ hi _ hj h => hinv.slotTag_inj hi hj h) hinv.nodup

theorem map_erase_of_injOn {α β : Type} [DecidableEq α] [DecidableEq β] (f : α → β)
    (l : List α) (i : α) (hi : i ∈ l)
    (hinj : ∀ x ∈ l, ∀ y ∈ l, f x = f y → x = y) :
    (l.erase i).map f = (l.map f).erase (f i) := by
  induction l with
  | nil => simp at hi
  | cons x xs ih =>
    by_cases hx : x = i
    · subst hx; simp
    · have hi' : i ∈ xs := by
        rcases List.mem_cons.1 hi with h | h
        · exact absurd h.symm hx
        · exact h
      have hfx : f x ≠ f i := fun h =>
        hx (hinj x (List.mem_cons_self _ _) i hi h)
      rw [List.erase_cons_tail (by simpa using hx), List.map_cons, List.map_cons,
        List.erase_cons_tail (by simpa using hfx),
        ih hi' (fun a ha b hb => hinj a (List.mem_cons_of_mem _ ha) b (List.mem_cons_of_mem _ hb))]

/-! ## The three branches of the set-level access -/

theorem scan_of_mem_tags {assoc : Nat} {s : CacheSet} (hinv : SetInv assoc s) {t : Int}
    (ht : t ∈ s.tags) :
    ∃ (i : Nat) (b : CacheBlock), s.blocks[i]? = some b ∧ b.valid = true ∧ b.tag = t ∧
      i ∈ s.lru ∧ scanFrom s.blocks t 0 assoc = some (some i) := by
  obtain ⟨i, b, hb, hv, hbt⟩ := (hinv.mem_tags_iff t).1 ht
  have hi : i ∈ s.lru := (hinv.mem_iff i).2 ⟨b, hb, hv⟩
  obtain ⟨r, hr⟩ := scanFrom_isSome s.blocks t assoc 0 (by rw [hinv.len_blocks]; omega)
  cases r with
  | none =>
    obtain ⟨b', hb', hno⟩ :=
      scanFrom_not_found s.blocks t assoc 0 hr i (Nat.zero_le _) (by
        have := hinv.lt_assoc hi; omega)
    rw [hb] at hb'
    cases hb'
    exact absurd ⟨hv, hbt⟩ hno
  | some j =>
    obtain ⟨_, _, bj, hbj, hvj, htj⟩ := scanFrom_found s.blocks t assoc 0 j hr
    have hji : j = i := hinv.tags_inj j i bj b hbj hb hvj hv (htj.trans hbt.symm)
    subst hji
    exact ⟨j, b, hb, hv, hbt, hi, hr⟩

theorem scan_of_not_mem_tags {assoc : Nat} {s : CacheSet} (hinv : SetInv assoc s) {t : Int}
    (ht : t ∉ s.tags) : scanFrom s.blocks t 0 assoc = some none := by
  obtain ⟨r, hr⟩ := scanFrom_isSome s.blocks t assoc 0 (by rw [hinv.len_blocks]; omega)
  cases r with
  | none => exact hr
  | some j =>
    obtain ⟨_, _, bj, hbj, hvj, htj⟩ := scanFrom_found s.blocks t assoc 0 j hr
    exact absurd ((hinv.mem_tags_iff t).2 ⟨j, bj, hbj, hvj, htj⟩) ht

theorem access_hit_shape {assoc : Nat} {s : CacheSet} (hinv : SetInv assoc s) {t : Int}
    (ht : t ∈ s.tags) :
    ∃ (i : Nat) (b : CacheBlock), s.blocks[i]? = some b ∧ b.valid = true ∧ b.tag = t ∧
      i ∈ s.lru ∧
      s.access assoc t =
        some (true, { s with lru := s.lru.filter (fun j => j != i) ++ [i] }) := by
  obtain ⟨i, b, hb, hv, hbt, hi, hscan⟩ := scan_of_mem_tags hinv ht
  refine ⟨i, b, hb, hv, hbt, hi, ?_⟩
  unfold CacheSet.access
  rw [hscan]

theorem access_fill_shape {assoc : Nat} {s : CacheSet} (hinv : SetInv assoc s) {t : Int}
    (ht : t ∉ s.tags) (hlen : s.lru.length < assoc) :
    s.access assoc t =
      some (false, { blocks := s.blocks.set s.lru.length { tag := t, valid := true }
                     lru := s.lru ++ [s.lru.length] }) := by
  unfold CacheSet.access
  rw [scan_of_not_mem_tags hinv ht]
  simp only [hlen, if_true]
  rw [if_pos (by rw [hinv.len_blocks]; exact hlen)]

theorem access_evict_shape {assoc : Nat} {s : CacheSet} (hinv : SetInv assoc s)
    (hpos : 0 < assoc) {t : Int} (ht : t ∉ s.tags) (hlen : ¬ s.lru.length < assoc) :
    ∃ (e : Nat) (rest : List Nat), s.lru = e :: rest ∧ e < s.blocks.length ∧
      s.access assoc t =
        some (false, { blocks := s.blocks.set e { tag := t, valid := true }
                       lru := rest ++ [e] }) := by
  cases hl : s.lru with
  | nil => rw [hl] at hlen; simp at hlen; omega
  | cons e rest =>
    have he : e < s.blocks.length := by
      rw [hinv.len_blocks]; exact hinv.lt_assoc (by rw [hl]; exact List.mem_cons_self _ _)
    refine ⟨e, rest, rfl, he, ?_⟩
    unfold CacheSet.access
    rw [scan_of_not_mem_tags hinv ht]
    simp only [hlen, if_false, hl, he, if_true]
    rw [hl] at hlen
    simp only [hlen, if_false]

/-! ## Preservation of the set invariant -/

theorem SetInv.hit {assoc : Nat} {s : CacheSet} (hinv : SetInv assoc s) {i : Nat}
    (hi : i ∈ s.lru) :
    SetInv assoc { s with lru := s.lru.filter (fun j => j != i) ++ [i] } := by
  have hfe : s.lru.filter (fun j => j != i) = s.lru.erase i :=
    (List.Nodup.erase_eq_filter hinv.nodup i).symm
  have hmem : ∀ j, j ∈ s.lru.erase i ++ [i] ↔ j ∈ s.lru := by
    intro j
    rw [List.mem_append, List.Nodup.mem_erase_iff hinv.nodup, List.mem_singleton]
    constructor
    · rintro (⟨_, h⟩ | h)
      · exact h
      · exact h ▸ hi
    · intro h
      by_cases hji : j = i
      · exact Or.inr hji
      · exact Or.inl ⟨hji, h⟩
  have hlen : (s.lru.erase i ++ [i]).length = s.lru.length := by
    rw [List.length_append, List.length_erase_of_mem hi, List.length_singleton]
    have : 0 < s.lru.length := List.length_pos_of_mem hi
    omega
  refine ⟨hinv.len_blocks, ?_, ?_, ?_, hinv.tags_inj⟩
  · show (s.lru.filter (fun j => j != i) ++ [i]).Nodup
    rw [hfe, List.nodup_append]
    refine ⟨hinv.nodup.erase i, List.nodup_singleton i, ?_⟩
    intro j hj hj'
    rw [List.mem_singleton] at hj'
    rw [List.Nodup.mem_erase_iff hinv.nodup] at hj
    exact hj.1 hj'
  · intro j
    show j ∈ s.lru.filter (fun j => j != i) ++ [i] ↔ _
    rw [hfe, hmem j]
    exact hinv.mem_iff j
  · intro j hj
    show j < (s.lru.filter (fun j => j != i) ++ [i]).length
    have hj' : j ∈ s.lru.filter (fun j => j != i) ++ [i] := hj
    rw [hfe] at hj' ⊢
    rw [hlen]
    exact hinv.lt_len j ((hmem j).1 hj')

theorem SetInv.tags_hit {assoc : Nat} {s : CacheSet} (hinv : SetInv assoc s) {i : Nat}
    (hi : i ∈ s.lru) :
    CacheSet.tags { s with lru := s.lru.filter (fun j => j != i) ++ [i] } =
      s.tags.erase (s.slotTag i) ++ [s.slotTag i] := by
  have hfe : s.lru.filter (fun j => j != i) = s.lru.erase i :=
    (List.Nodup.erase_eq_filter hinv.nodup i).symm
  show (s.lru.filter (fun j => j != i) ++ [i]).map s.slotTag = _
  rw [hfe, List.map_append, List.map_singleton,
    map_erase_of_injOn s.slotTag s.lru i hi (fun x hx y hy h => hinv.slotTag_inj hx hy h)]
  rfl

/-- Installing tag `t` in slot `k` and making `k` the most recent entry. -/
theorem SetInv.install {assoc : Nat} {s : CacheSet} (hinv : SetInv assoc s) {t : Int}
    (ht : t ∉ s.tags) {k : Nat} (hk : k < s.blocks.length) (pre : List Nat)
    (hpre : pre.Nodup) (hkpre : k ∉ pre)
    (hmem : ∀ j, j ∈ pre ↔ j ∈ s.lru ∧ j ≠ k)
    (hlt : ∀ j ∈ pre ++ [k], j < (pre ++ [k]).length) :
    SetInv assoc { blocks := s.blocks.set k { tag := t, valid := true }, lru := pre ++ [k] } := by
  refine ⟨?_, ?_, ?_, hlt, ?_⟩
  · show (s.blocks.set k _).length = assoc
    rw [List.length_set]; exact hinv.len_blocks
  · show (pre ++ [k]).Nodup
    rw [List.nodup_append]
    refine ⟨hpre, List.nodup_singleton k, ?_⟩
    intro j hj hj'
    rw [List.mem_singleton] at hj'
    exact hkpre (hj' ▸ hj)
  · intro j
    show j ∈ pre ++ [k] ↔ ∃ b, (s.blocks.set k _)[j]? = some b ∧ b.valid = true
    rw [List.mem_append, List.mem_singleton, List.getElem?_set]
    by_cases hjk : k = j
    · subst hjk
      simp [hk]
    · rw [if_neg hjk, hmem j, ← hinv.mem_iff j]
      constructor
      · rintro (⟨h, _⟩ | h)
        · exact h
        · exact absurd h.symm hjk
      · intro h
        exact Or.inl ⟨h, fun h' => hjk h'.symm⟩
  · intro i j bi bj hbi hbj hvi hvj htag
    change (s.blocks.set k _)[i]? = some bi at hbi
    change (s.blocks.set k _)[j]? = some bj at hbj
    rw [List.getElem?_set] at hbi hbj
    by_cases hik : k = i
    · by_cases hjk : k = j
      · exact hik.symm.trans hjk
      · rw [if_pos hik, if_pos hk] at hbi
        rw [if_neg hjk] at hbj
        cases hbi
        exact absurd ((hinv.mem_tags_iff t).2 ⟨j, bj, hbj, hvj, htag.symm⟩) ht
    · rw [if_neg hik] at hbi
      by_cases hjk : k = j
      · rw [if_pos hjk, if_pos hk] at hbj
        cases hbj
        exact absurd ((hinv.mem_tags_iff t).2 ⟨i, bi, hbi, hvi, htag⟩) ht
      · rw [if_neg hjk] at hbj
        exact hinv.tags_inj i j bi bj hbi hbj hvi hvj htag

theorem tags_install (s : CacheSet) (t : Int) {k : Nat} (hk : k < s.blocks.length)
    (pre : List Nat) (hkpre : k ∉ pre) :
    CacheSet.tags { blocks := s.blocks.set k { tag := t, valid := true }, lru := pre ++ [k] } =
      pre.map s.slotTag ++ [t] := by
  unfold CacheSet.tags
  simp only [List.map_append, List.map_singleton]
  congr 1
  · apply List.map_congr_left
    intro j hj
    have hjk : k ≠ j := fun h => hkpre (h ▸ hj)
    unfold CacheSet.slotTag
    simp only [List.getD_eq_getElem?_getD, List.getElem?_set, if_neg hjk]
  · unfold CacheSet.slotTag
    simp [List.getD_eq_getElem?_getD, List.getElem?_set, hk]

theorem lruStep_fst (assoc : Nat) (tags : List Int) (t : Int) :
    (lruStep assoc tags t).1 = decide (t ∈ tags) := by
  unfold lruStep
  split_ifs <;> simp [*]

/-- The set-level access refines the textbook LRU list and keeps the invariant. -/
theorem CacheSet.access_spec {assoc : Nat} {s : CacheSet} (hinv : SetInv assoc s)
    (hpos : 0 < assoc) (t : Int) :
    ∃ s', s.access assoc t = some ((lruStep assoc s.tags t).1, s') ∧ SetInv assoc s' ∧
      s'.tags = (lruStep assoc s.tags t).2 := by
  have htl : s.tags.length = s.lru.length := by unfold CacheSet.tags; simp
  by_cases ht : t ∈ s.tags
  · obtain ⟨i, b, hb, _, hbt, hi, hacc⟩ := access_hit_shape hinv ht
    have hst : s.slotTag i = t := (slotTag_of_getElem? s i b hb).trans hbt
    refine ⟨{ s with lru := s.lru.filter (fun j => j != i) ++ [i] }, ?_, hinv.hit hi, ?_⟩
    · rw [hacc]; simp [lruStep, ht]
    · rw [hinv.tags_hit hi, hst]; simp [lruStep, ht]
  · by_cases hlen : s.lru.length < assoc
    · have hk : s.lru.length < s.blocks.length := by rw [hinv.len_blocks]; exact hlen
      have hkpre : s.lru.length ∉ s.lru := fun h => absurd (hinv.lt_len _ h) (lt_irrefl _)
      refine ⟨{ blocks := s.blocks.set s.lru.length { tag := t, valid := true }
                lru := s.lru ++ [s.lru.length] }, ?_, ?_, ?_⟩
      · rw [access_fill_shape hinv ht hlen, lruStep_fst]; simp [ht]
      · refine hinv.install ht hk s.lru hinv.nodup hkpre ?_ ?_
        · intro j
          constructor
          · intro h; exact ⟨h, fun h' => hkpre (h' ▸ h)⟩
          · intro h; exact h.1
        · intro j hj
          rw [List.length_append, List.length_singleton]
          rcases List.mem_append.1 hj with h | h
          · have := hinv.lt_len j h; omega
          · rw [List.mem_singleton] at h; omega
      · rw [tags_install s t hk s.lru hkpre]
        simp [lruStep, ht, htl, hlen]; rfl
    · obtain ⟨e, rest, hl, he, hacc⟩ := access_evict_shape hinv hpos ht hlen
      have hnd : (e :: rest).Nodup := hl ▸ hinv.nodup
      have hkpre : e ∉ rest := (List.nodup_cons.1 hnd).1
      refine ⟨{ blocks := s.blocks.set e { tag := t, valid := true }
                lru := rest ++ [e] }, ?_, ?_, ?_⟩
      · rw [hacc, lruStep_fst]; simp [ht]
      · refine hinv.install ht he rest (List.nodup_cons.1 hnd).2 hkpre ?_ ?_
        · intro j
          rw [hl, List.mem_cons]
          constructor
          · intro h; exact ⟨Or.inr h, fun h' => hkpre (h' ▸ h)⟩
          · rintro ⟨h | h, hne⟩
            · exact absurd h hne
            · exact h
        · intro j hj
          have hj' : j ∈ s.lru := by
            rw [hl, List.mem_cons]
            rcases List.mem_append.1 hj with h | h
            · exact Or.inr h
            · exact Or.inl (List.mem_singleton.1 h)
          have := hinv.lt_len j hj'
          rw [hl] at this
          simpa using this
      · rw [tags_install s t he rest hkpre]
        have : s.tags = s.slotTag e :: rest.map s.slotTag := by
          unfold CacheSet.tags; rw [hl]; rfl
        simp [lruStep, ht, htl, hlen]
        rw [this]; rfl

/-! ## Cache-level invariant -/

theorem floorLog2_lt_of_lt_two_pow {n k : Nat} (hn : 1 ≤ n) (h : n < 2 ^ k) :
    floorLog2 n < k := by
  by_contra hk
  have h1 : 2 ^ k ≤ 2 ^ floorLog2 n := Nat.pow_le_pow_right (by norm_num) (by omega)
  have h2 := two_pow_floorLog2_le n hn
  omega

theorem Cache.WF.numSets_le {c : Cache} (hwf : c.WF) : c.numSets ≤ c.cacheSize := by
  rw [hwf.numSets_eq]
  exact (Nat.div_le_self _ _).trans (Nat.div_le_self _ _)

theorem Cache.WF.indexBits_le {c : Cache} (hwf : c.WF) : c.indexBits ≤ 30 := by
  have h := @floorLog2_lt_of_lt_two_pow c.numSets 31 hwf.numSets_pos
    (lt_of_le_of_lt hwf.numSets_le hwf.cacheSize_lt)
  unfold Cache.indexBits; omega

theorem Cache.index_eq_emod {c : Cache} (hwf : c.WF) (a : Int) :
    c.index a = (a >>> c.blockOffsetBits) % 2 ^ c.indexBits := by
  unfold Cache.index
  exact intAnd_lowMask _ _ (by have := hwf.indexBits_le; omega)

theorem Cache.index_range {c : Cache} (hwf : c.WF) (a : Int) :
    0 ≤ c.index a ∧ c.index a < c.numSets := by
  rw [Cache.index_eq_emod hwf]
  have hp : (0 : Int) < 2 ^ c.indexBits := by positivity
  refine ⟨Int.emod_nonneg _ (ne_of_gt hp), ?_⟩
  have h1 := Int.emod_lt_of_pos (a >>> c.blockOffsetBits) hp
  have h2 : (2 : Nat) ^ c.indexBits ≤ c.numSets := two_pow_floorLog2_le _ hwf.numSets_pos
  have h3 : ((2 : Int) ^ c.indexBits) ≤ (c.numSets : Int) := by exact_mod_cast h2
  omega

theorem Cache.setIdx_lt {c : Cache} (hwf : c.WF) (a : Int) : c.setIdx a < c.sets.length := by
  have := Cache.index_range hwf a
  unfold Cache.setIdx
  rw [hwf.sets_len]
  omega

/-! ## Cache-level step -/

theorem SameConfig.refl (c : Cache) : SameConfig c c := ⟨rfl, rfl, rfl, rfl⟩

theorem SameConfig.trans {c1 c2 c3 : Cache} (h12 : SameConfig c1 c2) (h23 : SameConfig c2 c3) :
    SameConfig c1 c3 :=
  ⟨h23.1.trans h12.1, h23.2.trans h12.2, h23.3.trans h12.3, h23.4.trans h12.4⟩

theorem SameConfig.symm_trans {c1 c2 c3 : Cache} (h12 : SameConfig c1 c2)
    (h13 : SameConfig c1 c3) : SameConfig c2 c3 :=
  ⟨h13.1.trans h12.1.symm, h13.2.trans h12.2.symm, h13.3.trans h12.3.symm,
    h13.4.trans h12.4.symm⟩

theorem SameConfig.index_eq {c c' : Cache} (h : SameConfig c c') (a : Int) :
    c'.index a = c.index a := by
  unfold Cache.index Cache.blockOffsetBits Cache.indexBits
  rw [h.blockSize_eq, h.numSets_eq]

theorem SameConfig.tag_eq {c c' : Cache} (h : SameConfig c c') (a : Int) :
    c'.tag a = c.tag a := by
  unfold Cache.tag Cache.blockOffsetBits Cache.indexBits
  rw [h.blockSize_eq, h.numSets_eq]

theorem SameConfig.setIdx_eq {c c' : Cache} (h : SameConfig c c') (a : Int) :
    c'.setIdx a = c.setIdx a := by
  unfold Cache.setIdx
  rw [h.index_eq]

/-- What a successful `access` is made of: a non-negative index, the selected set, the
set-level access, and the write-back of the modified set. -/
theorem Cache.access_eq_some_iff (c : Cache) (a : Int) (r : Bool) (c' : Cache) :
    c.access a = some (r, c') ↔
      0 ≤ c.index a ∧ ∃ set set', c.sets[c.setIdx a]? = some set ∧
        set.access c.associativity (c.tag a) = some (r, set') ∧
        c' = { c with sets := c.sets.set (c.setIdx a) set' } := by
  unfold Cache.access Cache.setIdx
  by_cases hneg : c.index a < 0
  · simp only [hneg, if_true]
    constructor
    · intro h; cases h
    · rintro ⟨h, _⟩; omega
  · simp only [hneg, if_false]
    cases hs : c.sets[(c.index a).toNat]? with
    | none =>
      simp
    | some set =>
      dsimp only
      cases hacc : set.access c.associativity (c.tag a) with
      | none =>
        constructor
        · intro h; cases h
        · rintro ⟨_, set1, set1', h1, h2, _⟩
          cases h1
          rw [hacc] at h2
          cases h2
      | some p =>
        obtain ⟨r', set'⟩ := p
        dsimp only
        simp only [Option.some.injEq, Prod.mk.injEq, not_lt] at hneg ⊢
        constructor
        · rintro ⟨rfl, rfl⟩
          exact ⟨hneg, set, set', rfl, hacc, rfl⟩
        · rintro ⟨_, set1, set1', h1, h2, h3⟩
          cases h1
          rw [hacc] at h2
          simp only [Option.some.injEq, Prod.mk.injEq] at h2
          exact ⟨h2.1, by rw [h3, h2.2]⟩

theorem Cache.access_sameConfig {c c' : Cache} {a : Int} {r : Bool}
    (h : c.access a = some (r, c')) : SameConfig c c' := by
  obtain ⟨_, set, set', _, _, rfl⟩ := (Cache.access_eq_some_iff c a r c').1 h
  exact ⟨rfl, rfl, rfl, rfl⟩

/-- Frame property: the sets not selected by the address are untouched. -/
theorem Cache.access_frame {c c' : Cache} {a : Int} {r : Bool}
    (h : c.access a = some (r, c')) (j : Nat) (hj : j ≠ c.setIdx a) :
    c'.sets[j]? = c.sets[j]? := by
  obtain ⟨_, set, set', _, _, rfl⟩ := (Cache.access_eq_some_iff c a r c').1 h
  show (c.sets.set (c.setIdx a) set')[j]? = _
  rw [List.getElem?_set, if_neg (fun h' => hj h'.symm)]

theorem Cache.tagsAt_of_getElem? {c : Cache} {s : Nat} {set : CacheSet}
    (h : c.sets[s]? = some set) : c.tagsAt s = set.tags := by
  unfold Cache.tagsAt; rw [h]

theorem Cache.WF.getSet {c : Cache} (hwf : c.WF) (a : Int) :
    ∃ set, c.sets[c.setIdx a]? = some set ∧ SetInv c.associativity set := by
  have hlt := Cache.setIdx_lt hwf a
  refine ⟨c.sets[c.setIdx a], List.getElem?_eq_getElem hlt, ?_⟩
  exact hwf.sets_inv _ (List.getElem_mem _)

/-- One `access` on a well-formed state: it succeeds, the result is a hit exactly when the
tag is among the tags of the selected set, and the selected set follows the LRU list. -/
theorem Cache.access_step {c : Cache} (hwf : c.WF) (a : Int) :
    ∃ c', c.access a = some (decide (c.tag a ∈ c.tagsAt (c.setIdx a)), c') ∧ c'.WF ∧
      SameConfig c c' ∧
      c'.tagsAt (c.setIdx a) =
        (lruStep c.associativity (c.tagsAt (c.setIdx a)) (c.tag a)).2 ∧
      ∀ j, j ≠ c.setIdx a → c'.sets[j]? = c.sets[j]? := by
  obtain ⟨set, hset, hinv⟩ := hwf.getSet a
  obtain ⟨set', hacc, hinv', htags⟩ := CacheSet.access_spec hinv hwf.assoc_pos (c.tag a)
  have hlt := Cache.setIdx_lt hwf a
  have hc : c.access a = some ((lruStep c.associativity set.tags (c.tag a)).1,
      { c with sets := c.sets.set (c.setIdx a) set' }) :=
    (Cache.access_eq_some_iff c a _ _).2 ⟨(Cache.index_range hwf a).1, set, set', hset, hacc, rfl⟩
  refine ⟨{ c with sets := c.sets.set (c.setIdx a) set' }, ?_, ?_, ⟨rfl, rfl, rfl, rfl⟩, ?_, ?_⟩
  · rw [hc, lruStep_fst, Cache.tagsAt_of_getElem? hset]
  · refine ⟨hwf.assoc_pos, hwf.numSets_pos, hwf.cacheSize_lt, hwf.numSets_eq, ?_, ?_⟩
    · show (c.sets.set (c.setIdx a) set').length = c.numSets
      rw [List.length_set]; exact hwf.sets_len
    · intro s hs
      change s ∈ c.sets.set (c.setIdx a) set' at hs
      rcases List.mem_or_eq_of_mem_set hs with h | h
      · exact hwf.sets_inv s h
      · rw [h]; exact hinv'
  · have : ({ c with sets := c.sets.set (c.setIdx a) set' } : Cache).sets[c.setIdx a]? =
        some set' := by
      show (c.sets.set (c.setIdx a) set')[c.setIdx a]? = some set'
      rw [List.getElem?_set, if_pos rfl, if_pos hlt]
    rw [Cache.tagsAt_of_getElem? this, htags, Cache.tagsAt_of_getElem? hset]
  · exact Cache.access_frame hc

/-! ## Construction and reachability -/

theorem CacheSet.init_inv (assoc : Nat) : SetInv assoc (CacheSet.init assoc) := by
  refine ⟨?_, ?_, ?_, ?_, ?_⟩
  · simp [CacheSet.init]
  · simp [CacheSet.init]
  · intro i
    simp only [CacheSet.init, List.not_mem_nil, false_iff, not_exists, not_and]
    intro b hb
    rw [List.getElem?_replicate] at hb
    split_ifs at hb
    cases hb
    simp [CacheBlock.init]
  · simp [CacheSet.init]
  · intro i j bi bj hbi _ hvi
    simp only [CacheSet.init] at hbi
    rw [List.getElem?_replicate] at hbi
    split_ifs at hbi
    cases hbi
    simp [CacheBlock.init] at hvi

theorem Cache.init_WF (blockSize cacheSize associativity : Nat) (hassoc : 0 < associativity)
    (hsets : 1 ≤ cacheSize / blockSize / associativity) (hint : cacheSize < 2 ^ 31) :
    (Cache.init blockSize cacheSize associativity).WF := by
  refine ⟨hassoc, hsets, hint, rfl, ?_, ?_⟩
  · simp [Cache.init]
  · intro s hs
    simp only [Cache.init] at hs
    rw [List.eq_of_mem_replicate hs]
    exact CacheSet.init_inv associativity

theorem Cache.Reaches.sameConfig {c0 c : Cache} {trace : List Int}
    (h : Cache.Reaches c0 trace c) : SameConfig c0 c := by
  induction h with
  | init => exact SameConfig.refl c0
  | step _ hacc ih => exact ih.trans (Cache.access_sameConfig hacc)

theorem Cache.Reaches.wf {c0 c : Cache} {trace : List Int} (h0 : c0.WF)
    (h : Cache.Reaches c0 trace c) : c.WF := by
  induction h with
  | init => exact h0
  | step _ hacc ih =>
    rename_i tr c1 a r c2 _
    obtain ⟨c', hc', hwf', _⟩ := Cache.access_step ih a
    rw [hacc] at hc'
    simp only [Option.some.injEq, Prod.mk.injEq] at hc'
    rw [hc'.2]; exact hwf'

/-! ## Consequences used by the main results -/

theorem mem_lruStep_snd (assoc : Nat) (tags : List Int) (t : Int) :
    t ∈ (lruStep assoc tags t).2 := by
  unfold lruStep
  split_ifs <;> simp

theorem Cache.init_reaches_wf {blockSize cacheSize associativity : Nat}
    (hassoc : 0 < associativity) (hsets : 1 ≤ cacheSize / blockSize / associativity)
    (hint : cacheSize < 2 ^ 31) {trace : List Int} {c : Cache}
    (hr : (Cache.init blockSize cacheSize associativity).Reaches trace c) :
    c.WF ∧ c.associativity = associativity ∧ c.blockSize = blockSize ∧
      c.numSets = cacheSize / blockSize / associativity :=
  ⟨hr.wf (Cache.init_WF _ _ _ hassoc hsets hint), hr.sameConfig.associativity_eq,
    hr.sameConfig.blockSize_eq, hr.sameConfig.numSets_eq⟩

/-! ## Main results -/

/-- C1: with blockSize 64, cacheSize 1024 and associativity 4 (four sets, six offset bits,
two index bits), the accesses of `main` on a fresh cache give
miss, miss, miss, miss, hit, hit, miss. -/
theorem main_scenario :
    (Cache.init 64 1024 4).numSets = 4 ∧ (Cache.init 64 1024 4).blockOffsetBits = 6 ∧
      (Cache.init 64 1024 4).indexBits = 2 ∧
      ((Cache.init 64 1024 4).run [0x0000, 0x0040, 0x0080, 0x00C0, 0x0000, 0x0040, 0x0100]).map
          Prod.fst = some [false, false, false, false, true, true, false] := by
  decide

/-- C2: in every state reachable from construction (associativity and numSets at least 1,
which forces blockSize to be at least 1, and cacheSize an `int`), accessing an address and
then the same address again succeeds both times and the second access is a hit, whatever
the first one returned. -/
theorem access_twice_hits (blockSize cacheSize associativity : Nat)
    (hassoc : 1 ≤ associativity) (hsets : 1 ≤ cacheSize / blockSize / associativity)
    (hint : cacheSize < 2 ^ 31) (trace : List Int) (c : Cache)
    (hr : (Cache.init blockSize cacheSize associativity).Reaches trace c) (a : Int) :
    ∃ r c1 c2, c.access a = some (r, c1) ∧ c1.access a = some (true, c2) := by
  have hwf := (Cache.init_reaches_wf hassoc hsets hint hr).1
  obtain ⟨c1, h1, hwf1, hcfg, htags, _⟩ := Cache.access_step hwf a
  obtain ⟨c2, h2, _⟩ := Cache.access_step hwf1 a
  refine ⟨_, c1, c2, h1, ?_⟩
  rw [h2, hcfg.tag_eq, hcfg.setIdx_eq, htags]
  simp [mem_lruStep_snd]

theorem access_twice_hits_witness :
    ∃ r c1 c2, (Cache.init 64 1024 4).access 0x40 = some (r, c1) ∧
      c1.access 0x40 = some (true, c2) :=
  access_twice_hits 64 1024 4 (by decide) (by decide) (by decide) []
    (Cache.init 64 1024 4) Cache.Reaches.init 0x40

/-- C7: `access` never fails.  For every `int` configuration with at least one set and one
way, every state reachable from construction and every address, the set index lies in
`[0, numSets)`, the selected set exists and has `associativity` blocks, every entry of its
recency list is a slot index below `associativity`, the recency list is non-empty whenever
the eviction branch can be taken, and the call returns a result. -/
theorem access_never_fails (blockSize cacheSize associativity : Nat)
    (hassoc : 1 ≤ associativity) (hsets : 1 ≤ cacheSize / blockSize / associativity)
    (hint : cacheSize < 2 ^ 31) (trace : List Int) (c : Cache)
    (hr : (Cache.init blockSize cacheSize associativity).Reaches trace c) (a : Int) :
    0 ≤ c.index a ∧ c.index a < ((cacheSize / blockSize / associativity : Nat) : Int) ∧
      ∃ set, c.sets[(c.index a).toNat]? = some set ∧ set.blocks.length = associativity ∧
        (∀ i ∈ set.lru, i < associativity) ∧
        (¬ set.lru.length < associativity → ∃ e rest, set.lru = e :: rest ∧ e < associativity) ∧
        ∃ r c', c.access a = some (r, c') := by
  obtain ⟨hwf, hassoc', _, hns⟩ := Cache.init_reaches_wf hassoc hsets hint hr
  obtain ⟨h0, h1⟩ := Cache.index_range hwf a
  obtain ⟨set, hset, hinv⟩ := hwf.getSet a
  obtain ⟨c', hc', _⟩ := Cache.access_step hwf a
  rw [hassoc'] at hinv
  refine ⟨h0, hns ▸ h1, set, hset, hinv.len_blocks, fun i hi => hinv.lt_assoc hi, ?_, _, c', hc'⟩
  intro hfull
  cases hl : set.lru with
  | nil => rw [hl] at hfull; simp at hfull; omega
  | cons e rest =>
    exact ⟨e, rest, rfl, hinv.lt_assoc (by rw [hl]; exact List.mem_cons_self _ _)⟩

theorem access_never_fails_witness :
    (0 ≤ (Cache.init 64 768 4).index (-1) ∧
      (Cache.init 64 768 4).index (-1) < ((768 / 64 / 4 : Nat) : Int) ∧
      ∃ set, (Cache.init 64 768 4).sets[((Cache.init 64 768 4).index (-1)).toNat]? = some set ∧
        set.blocks.length = 4 ∧ (∀ i ∈ set.lru, i < 4) ∧
        (¬ set.lru.length < 4 → ∃ e rest, set.lru = e :: rest ∧ e < 4) ∧
        ∃ r c', (Cache.init 64 768 4).access (-1) = some (r, c')) ∧
      ∃ c : Cache, (Cache.init 1 3 1).Reaches ([] ++ [-1]) c ∧
        c.sets.map CacheSet.lru = [[], [0], []] ∧
        0 ≤ c.index 3 ∧ c.index 3 < ((3 / 1 / 1 : Nat) : Int) ∧
        ∃ set, c.sets[(c.index 3).toNat]? = some set ∧
          set.blocks.length = 1 ∧ (∀ i ∈ set.lru, i < 1) ∧
          (¬ set.lru.length < 1 → ∃ e rest, set.lru = e :: rest ∧ e < 1) ∧
          ∃ r c', c.access 3 = some (r, c') :=
  ⟨access_never_fails 64 768 4 (by decide) (by decide) (by decide) []
     (Cache.init 64 768 4) Cache.Reaches.init (-1),
   { blockSize := 1, cacheSize := 3, associativity := 1, numSets := 3,
       sets := [CacheSet.init 1, { blocks := [{ tag := -1, valid := true }], lru := [0] },
                CacheSet.init 1] },
   @Cache.Reaches.step (Cache.init 1 3 1) [] (Cache.init 1 3 1) (-1) false _
     Cache.Reaches.init (by decide),
   by decide,
   access_never_fails 1 3 1 (by decide) (by decide) (by decide) ([] ++ [-1])
     { blockSize := 1, cacheSize := 3, associativity := 1, numSets := 3,
       sets := [CacheSet.init 1, { blocks := [{ tag := -1, valid := true }], lru := [0] },
                CacheSet.init 1] }
     (@Cache.Reaches.step (Cache.init 1 3 1) [] (Cache.init 1 3 1) (-1) false _
       Cache.Reaches.init (by decide)) 3⟩

/-- C9: in every state reachable from construction, for every set, the entries of the
recency list are pairwise distinct, each entry is a slot index below `associativity` whose
block is valid, and the recency list has at most `associativity` entries. -/
theorem recency_invariant (blockSize cacheSize associativity : Nat)
    (hassoc : 1 ≤ associativity) (hsets : 1 ≤ cacheSize / blockSize / associativity)
    (hint : cacheSize < 2 ^ 31) (trace : List Int) (c : Cache)
    (hr : (Cache.init blockSize cacheSize associativity).Reaches trace c) :
    ∀ set ∈ c.sets, set.lru.Nodup ∧
      (∀ i ∈ set.lru, i < associativity ∧ ∃ b, set.blocks[i]? = some b ∧ b.valid = true) ∧
      set.lru.length ≤ associativity := by
  obtain ⟨hwf, hassoc', _, _⟩ := Cache.init_reaches_wf hassoc hsets hint hr
  intro set hset
  have hinv := hwf.sets_inv set hset
  rw [hassoc'] at hinv
  exact ⟨hinv.nodup, fun i hi => ⟨hinv.lt_assoc hi, (hinv.mem_iff i).1 hi⟩, hinv.lru_length_le⟩

theorem recency_invariant_witness :
    ∃ (c : Cache) (set : CacheSet), (Cache.init 1 2 2).Reaches ([] ++ [5] ++ [6]) c ∧
      set ∈ c.sets ∧ set.lru = [0, 1] ∧
      set.lru.Nodup ∧
      (∀ i ∈ set.lru, i < 2 ∧ ∃ b, set.blocks[i]? = some b ∧ b.valid = true) ∧
      set.lru.length ≤ 2 :=
  ⟨{ blockSize := 1, cacheSize := 2, associativity := 2, numSets := 1,
     sets := [{ blocks := [{ tag := 5, valid := true }, { tag := 6, valid := true }],
                lru := [0, 1] }] },
   { blocks := [{ tag := 5, valid := true }, { tag := 6, valid := true }], lru := [0, 1] },
   (@Cache.Reaches.step (Cache.init 1 2 2) ([] ++ [5])
     { blockSize := 1, cacheSize := 2, associativity := 2, numSets := 1,
       sets := [{ blocks := [{ tag := 5, valid := true }, { tag := 0, valid := false }],
                  lru := [0] }] }
     6 false
     { blockSize := 1, cacheSize := 2, associativity := 2, numSets := 1,
       sets := [{ blocks := [{ tag := 5, valid := true }, { tag := 6, valid := true }],
                  lru := [0, 1] }] }
     (@Cache.Reaches.step (Cache.init 1 2 2) [] (Cache.init 1 2 2) 5 false
       { blockSize := 1, cacheSize := 2, associativity := 2, numSets := 1,
         sets := [{ blocks := [{ tag := 5, valid := true }, { tag := 0, valid := false }],
                    lru := [0] }] }
       Cache.Reaches.init (by decide)) (by decide)),
   by decide,
   rfl,
   recency_invariant 1 2 2 (by decide) (by decide) (by decide) ([] ++ [5] ++ [6])
     { blockSize := 1, cacheSize := 2, associativity := 2, numSets := 1,
       sets := [{ blocks := [{ tag := 5, valid := true }, { tag := 6, valid := true }],
                  lru := [0, 1] }] }
     (@Cache.Reaches.step (Cache.init 1 2 2) ([] ++ [5])
       { blockSize := 1, cacheSize := 2, associativity := 2, numSets := 1,
         sets := [{ blocks := [{ tag := 5, valid := true }, { tag := 0, valid := false }],
                    lru := [0] }] }
       6 false
       { blockSize := 1, cacheSize := 2, associativity := 2, numSets := 1,
         sets := [{ blocks := [{ tag := 5, valid := true }, { tag := 6, valid := true }],
                    lru := [0, 1] }] }
       (@Cache.Reaches.step (Cache.init 1 2 2) [] (Cache.init 1 2 2) 5 false
         { blockSize := 1, cacheSize := 2, associativity := 2, numSets := 1,
           sets := [{ blocks := [{ tag := 5, valid := true }, { tag := 0, valid := false }],
                      lru := [0] }] }
         Cache.Reaches.init (by decide)) (by decide))
     { blocks := [{ tag := 5, valid := true }, { tag := 6, valid := true }], lru := [0, 1] }
     (by decide)⟩

/-- C10 fails as stated: with blockSize 64, cacheSize 1000 and associativity 4 the
constructor computes numSets = 3, and 64 * 4 * 3 = 768 is not the cacheSize. -/
theorem config_size_counterexample :
    0 < 64 ∧ 0 < 1000 ∧ 0 < 4 ∧ (Cache.init 64 1000 4).numSets = 1000 / 64 / 4 ∧
      (Cache.init 64 1000 4).cacheSize ≠
        (Cache.init 64 1000 4).blockSize * (Cache.init 64 1000 4).associativity *
          (Cache.init 64 1000 4).numSets := by
  decide

/-- C10, amended: the constructed cache has numSets = (cacheSize / blockSize) / associativity
and owns exactly numSets sets; blockSize * associativity * numSets never exceeds cacheSize,
and equals cacheSize exactly when cacheSize is a multiple of blockSize * associativity. -/
theorem config_size (blockSize cacheSize associativity : Nat) (hblock : 0 < blockSize)
    (hassoc : 0 < associativity) :
    (Cache.init blockSize cacheSize associativity).numSets =
        cacheSize / blockSize / associativity ∧
      (Cache.init blockSize cacheSize associativity).sets.length =
        (Cache.init blockSize cacheSize associativity).numSets ∧
      blockSize * associativity * (Cache.init blockSize cacheSize associativity).numSets ≤
        cacheSize ∧
      ((Cache.init blockSize cacheSize associativity).cacheSize =
          blockSize * associativity * (Cache.init blockSize cacheSize associativity).numSets ↔
        blockSize * associativity ∣ cacheSize) := by
  have hpos : 0 < blockSize * associativity := Nat.mul_pos hblock hassoc
  have hns : (Cache.init blockSize cacheSize associativity).numSets =
      cacheSize / (blockSize * associativity) := Nat.div_div_eq_div_mul _ _ _
  refine ⟨rfl, by simp [Cache.init], ?_, ?_⟩
  · rw [hns]; exact Nat.mul_div_le _ _
  · rw [hns]
    show cacheSize = _ ↔ _
    constructor
    · intro h; exact Dvd.intro _ h.symm
    · intro h; exact (Nat.mul_div_cancel' h).symm

theorem config_size_witness :
    (Cache.init 64 1024 4).numSets = 1024 / 64 / 4 ∧
      (Cache.init 64 1024 4).sets.length = (Cache.init 64 1024 4).numSets ∧
      64 * 4 * (Cache.init 64 1024 4).numSets ≤ 1024 ∧
      ((Cache.init 64 1024 4).cacheSize = 64 * 4 * (Cache.init 64 1024 4).numSets ↔
        64 * 4 ∣ 1024) :=
  config_size 64 1024 4 (by decide) (by decide)

/-! ## Address decomposition on 32-bit patterns -/

theorem Cache.WF.blockSize_pos {c : Cache} (hwf : c.WF) : 0 < c.blockSize := by
  rcases Nat.eq_zero_or_pos c.blockSize with h | h
  · have h1 := hwf.numSets_eq
    have h2 := hwf.numSets_pos
    rw [h] at h1
    simp at h1
    omega
  · exact h

theorem Cache.WF.bits_le {c : Cache} (hwf : c.WF) : c.blockOffsetBits + c.indexBits ≤ 30 := by
  have h1 : 2 ^ c.blockOffsetBits ≤ c.blockSize := two_pow_floorLog2_le _ hwf.blockSize_pos
  have h2 : 2 ^ c.indexBits ≤ c.numSets := two_pow_floorLog2_le _ hwf.numSets_pos
  have h3 : c.numSets ≤ c.cacheSize / c.blockSize := by
    rw [hwf.numSets_eq]; exact Nat.div_le_self _ _
  have h4 : c.blockSize * c.numSets ≤ c.cacheSize :=
    (Nat.mul_le_mul_left _ h3).trans (Nat.mul_div_le _ _)
  have h5 : 2 ^ (c.blockOffsetBits + c.indexBits) ≤ c.blockSize * c.numSets := by
    rw [pow_add]; exact Nat.mul_le_mul h1 h2
  have h6 : 2 ^ (c.blockOffsetBits + c.indexBits) < 2 ^ 31 :=
    lt_of_le_of_lt (h5.trans h4) hwf.cacheSize_lt
  have := (Nat.pow_lt_pow_iff_right (by norm_num : 1 < 2)).1 h6
  omega

theorem ofBits32_of_lt {a : Nat} (h : a < 2 ^ 31) : ofBits32 a = (a : Int) := by
  unfold ofBits32
  have : a % 2 ^ 32 = a := Nat.mod_eq_of_lt (by omega)
  rw [this, if_pos h]

theorem ofBits32_of_ge {a : Nat} (h : 2 ^ 31 ≤ a) (h32 : a < 2 ^ 32) :
    ofBits32 a = (a : Int) - 2 ^ 32 := by
  unfold ofBits32
  have : a % 2 ^ 32 = a := Nat.mod_eq_of_lt h32
  rw [this, if_neg (by omega)]

theorem shiftRight_natCast (a k : Nat) : (a : Int) >>> k = ((a >>> k : Nat) : Int) := by
  rw [Int.shiftRight_eq_div_pow, Nat.shiftRight_eq_div_pow]
  norm_cast

theorem shiftRight_sub_two_pow (a k : Nat) (hk : k ≤ 32) :
    ((a : Int) - 2 ^ 32) >>> k = ((a >>> k : Nat) : Int) - 2 ^ (32 - k) := by
  rw [Int.shiftRight_eq_div_pow, Nat.shiftRight_eq_div_pow]
  have hp : ((2 ^ k : Nat) : Int) ≠ 0 := by positivity
  have h32 : (2 : Int) ^ 32 = 2 ^ (32 - k) * ((2 ^ k : Nat) : Int) := by
    rw [Nat.cast_pow, Nat.cast_ofNat, ← pow_add]
    congr 1
    omega
  have : (a : Int) - 2 ^ 32 = (a : Int) + (-(2 ^ (32 - k))) * ((2 ^ k : Nat) : Int) := by
    rw [h32]; ring
  rw [this, Int.add_mul_ediv_right _ _ hp]
  push_cast
  ring

theorem emod_sub_two_pow (x : Int) (m k : Nat) (hk : k ≤ m) :
    (x - 2 ^ m) % 2 ^ k = x % 2 ^ k := by
  have h : (2 : Int) ^ m = 2 ^ (m - k) * 2 ^ k := by
    rw [← pow_add]; congr 1; omega
  have : x - 2 ^ m = x + (-(2 ^ (m - k))) * 2 ^ k := by rw [h]; ring
  rw [this, Int.add_mul_emod_self]

theorem and_mask_natCast (x k : Nat) :
    (((x &&& (2 ^ k - 1) : Nat)) : Int) = (x : Int) % 2 ^ k := by
  rw [Nat.and_pow_two_sub_one_eq_mod, Int.natCast_mod]
  norm_cast

/-- C8 fails as stated: for the default configuration the address `2 ^ 32 - 1` reaches
`access` as the `int` value `-1`, and the tag computed is `-1`, not the unsigned shift
`(2 ^ 32 - 1) >> 8 = 16777215`; it is negative. -/
theorem tag_unsigned_counterexample :
    ofBits32 (2 ^ 32 - 1) = -1 ∧
      (Cache.init 64 1024 4).blockOffsetBits + (Cache.init 64 1024 4).indexBits = 8 ∧
      (Cache.init 64 1024 4).tag (ofBits32 (2 ^ 32 - 1)) = -1 ∧
      (Cache.init 64 1024 4).tag (ofBits32 (2 ^ 32 - 1)) ≠ (((2 ^ 32 - 1) >>> 8 : Nat) : Int) ∧
      ¬ 0 ≤ (Cache.init 64 1024 4).tag (ofBits32 (2 ^ 32 - 1)) := by
  decide

/-- C8, amended: for every unsigned 32-bit address the index that `access` computes is
`(address >> blockOffsetBits) & (2 ^ indexBits - 1)` on the unsigned value.  The tag is the
arithmetic shift of the address read as a signed `int`: for addresses below `2 ^ 31` it is
the unsigned shift `address >> (blockOffsetBits + indexBits)` and lies in `[0, 2 ^ tagBits)`;
for addresses from `2 ^ 31` on it is that unsigned shift minus `2 ^ tagBits`, a negative
number not below `-2 ^ tagBits`, where `tagBits = 32 - indexBits - blockOffsetBits`. -/
theorem tag_index_decomposition (blockSize cacheSize associativity : Nat)
    (hassoc : 1 ≤ associativity) (hsets : 1 ≤ cacheSize / blockSize / associativity)
    (hint : cacheSize < 2 ^ 31) (trace : List Int) (c : Cache)
    (hr : (Cache.init blockSize cacheSize associativity).Reaches trace c)
    (a : Nat) (ha : a < 2 ^ 32) :
    c.index (ofBits32 a) =
        (((a >>> c.blockOffsetBits) &&& (2 ^ c.indexBits - 1) : Nat) : Int) ∧
      (a < 2 ^ 31 →
        c.tag (ofBits32 a) = ((a >>> (c.blockOffsetBits + c.indexBits) : Nat) : Int) ∧
        0 ≤ c.tag (ofBits32 a) ∧
        c.tag (ofBits32 a) < 2 ^ (32 - c.indexBits - c.blockOffsetBits)) ∧
      (2 ^ 31 ≤ a →
        c.tag (ofBits32 a) = ((a >>> (c.blockOffsetBits + c.indexBits) : Nat) : Int) -
          2 ^ (32 - c.indexBits - c.blockOffsetBits) ∧
        c.tag (ofBits32 a) < 0 ∧
        -(2 ^ (32 - c.indexBits - c.blockOffsetBits)) ≤ c.tag (ofBits32 a)) := by
  have hwf := (Cache.init_reaches_wf hassoc hsets hint hr).1
  have hk := hwf.bits_le
  have hexp : 32 - c.indexBits - c.blockOffsetBits = 32 - (c.blockOffsetBits + c.indexBits) := by
    omega
  have hlt : a >>> (c.blockOffsetBits + c.indexBits) <
      2 ^ (32 - (c.blockOffsetBits + c.indexBits)) := by
    rw [Nat.shiftRight_eq_div_pow]
    apply Nat.div_lt_of_lt_mul
    rw [← pow_add]
    have : c.blockOffsetBits + c.indexBits + (32 - (c.blockOffsetBits + c.indexBits)) = 32 := by
      omega
    rw [this]; exact ha
  have hlt' : ((a >>> (c.blockOffsetBits + c.indexBits) : Nat) : Int) <
      2 ^ (32 - (c.blockOffsetBits + c.indexBits)) := by exact_mod_cast hlt
  have hnn : (0 : Int) ≤ ((a >>> (c.blockOffsetBits + c.indexBits) : Nat) : Int) :=
    Int.natCast_nonneg _
  rw [hexp]
  refine ⟨?_, ?_, ?_⟩
  · rw [Cache.index_eq_emod hwf, and_mask_natCast]
    by_cases h31 : a < 2 ^ 31
    · rw [ofBits32_of_lt h31, shiftRight_natCast]
    · rw [ofBits32_of_ge (by omega) ha, shiftRight_sub_two_pow a _ (by omega),
        emod_sub_two_pow _ _ _ (by omega)]
  · intro h31
    have ht : c.tag (ofBits32 a) = ((a >>> (c.blockOffsetBits + c.indexBits) : Nat) : Int) := by
      unfold Cache.tag
      rw [ofBits32_of_lt h31, shiftRight_natCast]
    rw [ht]
    exact ⟨rfl, hnn, hlt'⟩
  · intro h31
    have ht : c.tag (ofBits32 a) = ((a >>> (c.blockOffsetBits + c.indexBits) : Nat) : Int) -
        2 ^ (32 - (c.blockOffsetBits + c.indexBits)) := by
      unfold Cache.tag
      rw [ofBits32_of_ge h31 ha, shiftRight_sub_two_pow a _ (by omega)]
    rw [ht]
    exact ⟨rfl, by omega, by omega⟩

theorem tag_index_decomposition_witness :
    (Cache.init 64 1024 4).index (ofBits32 (2 ^ 32 - 1)) =
        ((((2 ^ 32 - 1) >>> (Cache.init 64 1024 4).blockOffsetBits) &&&
          (2 ^ (Cache.init 64 1024 4).indexBits - 1) : Nat) : Int) ∧
      (2 ^ 32 - 1 < 2 ^ 31 →
        (Cache.init 64 1024 4).tag (ofBits32 (2 ^ 32 - 1)) =
          (((2 ^ 32 - 1) >>> ((Cache.init 64 1024 4).blockOffsetBits +
            (Cache.init 64 1024 4).indexBits) : Nat) : Int) ∧
        0 ≤ (Cache.init 64 1024 4).tag (ofBits32 (2 ^ 32 - 1)) ∧
        (Cache.init 64 1024 4).tag (ofBits32 (2 ^ 32 - 1)) <
          2 ^ (32 - (Cache.init 64 1024 4).indexBits - (Cache.init 64 1024 4).blockOffsetBits)) ∧
      (2 ^ 31 ≤ 2 ^ 32 - 1 →
        (Cache.init 64 1024 4).tag (ofBits32 (2 ^ 32 - 1)) =
          (((2 ^ 32 - 1) >>> ((Cache.init 64 1024 4).blockOffsetBits +
            (Cache.init 64 1024 4).indexBits) : Nat) : Int) -
          2 ^ (32 - (Cache.init 64 1024 4).indexBits - (Cache.init 64 1024 4).blockOffsetBits) ∧
        (Cache.init 64 1024 4).tag (ofBits32 (2 ^ 32 - 1)) < 0 ∧
        -(2 ^ (32 - (Cache.init 64 1024 4).indexBits - (Cache.init 64 1024 4).blockOffsetBits)) ≤
          (Cache.init 64 1024 4).tag (ofBits32 (2 ^ 32 - 1))) :=
  tag_index_decomposition 64 1024 4 (by decide) (by decide) (by decide) []
    (Cache.init 64 1024 4) Cache.Reaches.init (2 ^ 32 - 1) (by decide)

/-! ## Runs and index isolation -/

theorem Cache.WF.step {c c' : Cache} (hwf : c.WF) {a : Int} {r : Bool}
    (h : c.access a = some (r, c')) : c'.WF := by
  obtain ⟨c1, hc1, hwf1, _⟩ := Cache.access_step hwf a
  rw [h] at hc1
  simp only [Option.some.injEq, Prod.mk.injEq] at hc1
  rw [hc1.2]; exact hwf1

theorem Cache.run_cons {c c' c'' : Cache} {a : Int} {r : Bool} {rest : List Int}
    {rs : List Bool} (h1 : c.access a = some (r, c')) (h2 : c'.run rest = some (rs, c'')) :
    c.run (a :: rest) = some (r :: rs, c'') := by
  simp only [Cache.run, h1, h2]

theorem Cache.run_cons_inv {c c'' : Cache} {a : Int} {rest : List Int} {rs : List Bool}
    (h : c.run (a :: rest) = some (rs, c'')) :
    ∃ r c' rs', c.access a = some (r, c') ∧ c'.run rest = some (rs', c'') ∧ rs = r :: rs' := by
  simp only [Cache.run] at h
  cases h1 : c.access a with
  | none => rw [h1] at h; cases h
  | some p =>
    obtain ⟨r, c'⟩ := p
    rw [h1] at h
    dsimp only at h
    cases h2 : c'.run rest with
    | none => rw [h2] at h; cases h
    | some q =>
      obtain ⟨rs', c3⟩ := q
      rw [h2] at h
      simp only [Option.some.injEq, Prod.mk.injEq] at h
      exact ⟨r, c', rs', rfl, by rw [← h.2]; exact h2, h.1.symm⟩

/-- On a well-formed state every run returns, in a well-formed state of the same
configuration, with one result per access. -/
theorem Cache.run_total {c : Cache} (hwf : c.WF) (trace : List Int) :
    ∃ rs c', c.run trace = some (rs, c') ∧ c'.WF ∧ SameConfig c c' ∧
      rs.length = trace.length := by
  induction trace generalizing c with
  | nil => exact ⟨[], c, rfl, hwf, SameConfig.refl c, rfl⟩
  | cons a rest ih =>
    obtain ⟨c1, h1, hwf1, hcfg1, _⟩ := Cache.access_step hwf a
    obtain ⟨rs, c2, h2, hwf2, hcfg2, hlen⟩ := ih hwf1
    exact ⟨_ :: rs, c2, Cache.run_cons h1 h2, hwf2, hcfg1.trans hcfg2, by simp [hlen]⟩

theorem Cache.Reaches.run {c0 c c' : Cache} {pre trace : List Int} {rs : List Bool}
    (hr : c0.Reaches pre c) (h : c.run trace = some (rs, c')) :
    c0.Reaches (pre ++ trace) c' := by
  induction trace generalizing pre c rs with
  | nil =>
    simp only [Cache.run, Option.some.injEq, Prod.mk.injEq] at h
    rw [List.append_nil, ← h.2]; exact hr
  | cons a rest ih =>
    obtain ⟨r, c1, rs', h1, h2, _⟩ := Cache.run_cons_inv h
    have := ih (Cache.Reaches.step hr h1) h2
    rwa [List.append_assoc, List.singleton_append] at this

/-- The outcome of an access depends only on the configuration and on the selected set. -/
theorem Cache.access_congr {c d c' : Cache} {a : Int} {r : Bool} (hcfg : SameConfig c d)
    (hs : d.sets[c.setIdx a]? = c.sets[c.setIdx a]?) (h : c.access a = some (r, c')) :
    ∃ d', d.access a = some (r, d') ∧ d'.sets[c.setIdx a]? = c'.sets[c.setIdx a]? := by
  obtain ⟨h0, set, set', hset, hacc, rfl⟩ := (Cache.access_eq_some_iff c a r c').1 h
  have hd : d.access a = some (r, { d with sets := d.sets.set (d.setIdx a) set' }) := by
    rw [Cache.access_eq_some_iff]
    refine ⟨by rw [hcfg.index_eq]; exact h0, set, set', ?_, ?_, rfl⟩
    · rw [hcfg.setIdx_eq, hs, hset]
    · rw [hcfg.associativity_eq, hcfg.tag_eq]; exact hacc
  refine ⟨_, hd, ?_⟩
  have hlc : c.setIdx a < c.sets.length := (List.getElem?_eq_some_iff.1 hset).1
  have hld : c.setIdx a < d.sets.length := by
    rw [hset] at hs; exact (List.getElem?_eq_some_iff.1 hs).1
  show (d.sets.set (d.setIdx a) set')[c.setIdx a]? = (c.sets.set (c.setIdx a) set')[c.setIdx a]?
  rw [hcfg.setIdx_eq, List.getElem?_set, List.getElem?_set, if_pos rfl, if_pos rfl, if_pos hlc,
    if_pos hld]

/-- Accesses that all select other sets leave set `s` untouched. -/
theorem Cache.run_frame {c c' : Cache} {trace : List Int} {rs : List Bool} (s : Nat)
    (h : c.run trace = some (rs, c')) (hother : ∀ x ∈ trace, c.setIdx x ≠ s) :
    c'.sets[s]? = c.sets[s]? := by
  induction trace generalizing c rs with
  | nil =>
    simp only [Cache.run, Option.some.injEq, Prod.mk.injEq] at h
    rw [← h.2]
  | cons a rest ih =>
    obtain ⟨r, c1, rs', h1, h2, _⟩ := Cache.run_cons_inv h
    have hcfg := Cache.access_sameConfig h1
    have h3 := ih h2 (fun x hx => by
      rw [hcfg.setIdx_eq]; exact hother x (List.mem_cons_of_mem _ hx))
    rw [h3]
    exact Cache.access_frame h1 s (fun h' => hother a (List.mem_cons_self _ _) h'.symm)

theorem Cache.run_filter {c d : Cache} (hwf : c.WF) (hcfg : SameConfig c d) (s : Nat)
    (hs : d.sets[s]? = c.sets[s]?) (trace : List Int) :
    ∃ rs c' rs' d', c.run trace = some (rs, c') ∧
      d.run (trace.filter (fun a => decide (c.setIdx a = s))) = some (rs', d') ∧
      rs' = ((trace.zip rs).filter (fun p => decide (c.setIdx p.1 = s))).map Prod.snd ∧
      d'.sets[s]? = c'.sets[s]? := by
  induction trace generalizing c d with
  | nil => exact ⟨[], c, [], d, rfl, rfl, rfl, hs⟩
  | cons a rest ih =>
    obtain ⟨c1, h1, hwf1, hcfg1, _, hframe⟩ := Cache.access_step hwf a
    have hidx : ∀ x, c1.setIdx x = c.setIdx x := hcfg1.setIdx_eq
    by_cases hsa : c.setIdx a = s
    · subst hsa
      obtain ⟨d1, hd1, hsd1⟩ := Cache.access_congr hcfg hs h1
      have hcfgd : SameConfig c1 d1 :=
        ⟨(Cache.access_sameConfig hd1).1.trans (hcfg.1.trans hcfg1.1.symm),
         (Cache.access_sameConfig hd1).2.trans (hcfg.2.trans hcfg1.2.symm),
         (Cache.access_sameConfig hd1).3.trans (hcfg.3.trans hcfg1.3.symm),
         (Cache.access_sameConfig hd1).4.trans (hcfg.4.trans hcfg1.4.symm)⟩
      obtain ⟨rs, c2, rs', d2, hr1, hr2, hrs, hsets⟩ := ih hwf1 hcfgd hsd1
      simp only [hidx] at hr2 hrs
      refine ⟨decide (c.tag a ∈ c.tagsAt (c.setIdx a)) :: rs, c2,
        decide (c.tag a ∈ c.tagsAt (c.setIdx a)) :: rs', d2, Cache.run_cons h1 hr1, ?_, ?_, hsets⟩
      · rw [List.filter_cons_of_pos (by simp)]
        exact Cache.run_cons hd1 hr2
      · rw [List.zip_cons_cons, List.filter_cons_of_pos (by simp), List.map_cons, hrs]
    · have hs1 : d.sets[s]? = c1.sets[s]? := by rw [hs, hframe s (fun h => hsa h.symm)]
      obtain ⟨rs, c2, rs', d2, hr1, hr2, hrs, hsets⟩ := ih hwf1 (hcfg1.symm_trans hcfg) hs1
      simp only [hidx] at hr2 hrs
      refine ⟨decide (c.tag a ∈ c.tagsAt (c.setIdx a)) :: rs, c2, rs', d2,
        Cache.run_cons h1 hr1, ?_, ?_, hsets⟩
      · rw [List.filter_cons_of_neg (by simpa using hsa)]
        exact hr2
      · rw [List.zip_cons_cons, List.filter_cons_of_neg (by simpa using hsa), hrs]

/-- C6: index isolation.  In every reachable state an access leaves every set other than
the selected one unchanged (blocks and recency list); and for every access sequence and
every set position `s`, the run returns, the run of only the accesses that map to `s`
returns, and the results of the latter are exactly the results that the accesses mapping to
`s` get in the full run; set `s` ends in the same state in both runs. -/
theorem index_isolation (blockSize cacheSize associativity : Nat)
    (hassoc : 1 ≤ associativity) (hsets : 1 ≤ cacheSize / blockSize / associativity)
    (hint : cacheSize < 2 ^ 31) (pre : List Int) (c : Cache)
    (hr : (Cache.init blockSize cacheSize associativity).Reaches pre c)
    (trace : List Int) (s : Nat) :
    (∀ a r c', c.access a = some (r, c') → ∀ j, j ≠ c.setIdx a → c'.sets[j]? = c.sets[j]?) ∧
      ∃ rs c1 rs' c2, c.run trace = some (rs, c1) ∧ rs.length = trace.length ∧
        c.run (trace.filter (fun a => decide (c.setIdx a = s))) = some (rs', c2) ∧
        rs' = ((trace.zip rs).filter (fun p => decide (c.setIdx p.1 = s))).map Prod.snd ∧
        c2.sets[s]? = c1.sets[s]? := by
  have hwf := (Cache.init_reaches_wf hassoc hsets hint hr).1
  refine ⟨fun a r c' h j hj => Cache.access_frame h j hj, ?_⟩
  obtain ⟨rs, c1, rs', c2, h1, h2, h3, h4⟩ :=
    Cache.run_filter hwf (SameConfig.refl c) s rfl trace
  obtain ⟨rs0, c0, h0, _, _, hlen⟩ := Cache.run_total hwf trace
  rw [h1] at h0
  simp only [Option.some.injEq, Prod.mk.injEq] at h0
  exact ⟨rs, c1, rs', c2, h1, by rw [h0.1]; exact hlen, h2, h3, h4⟩

theorem index_isolation_witness :
    (∀ a r c', (Cache.init 64 1024 4).access a = some (r, c') →
        ∀ j, j ≠ (Cache.init 64 1024 4).setIdx a →
          c'.sets[j]? = (Cache.init 64 1024 4).sets[j]?) ∧
      ∃ rs c1 rs' c2, (Cache.init 64 1024 4).run [0x0000, 0x0040, 0x0100, 0x0000] =
          some (rs, c1) ∧
        rs.length = [(0x0000 : Int), 0x0040, 0x0100, 0x0000].length ∧
        (Cache.init 64 1024 4).run ([(0x0000 : Int), 0x0040, 0x0100, 0x0000].filter
          (fun a => decide ((Cache.init 64 1024 4).setIdx a = 0))) = some (rs', c2) ∧
        rs' = (([(0x0000 : Int), 0x0040, 0x0100, 0x0000].zip rs).filter
          (fun p => decide ((Cache.init 64 1024 4).setIdx p.1 = 0))).map Prod.snd ∧
        c2.sets[0]? = c1.sets[0]? :=
  index_isolation 64 1024 4 (by decide) (by decide) (by decide) []
    (Cache.init 64 1024 4) Cache.Reaches.init [0x0000, 0x0040, 0x0100, 0x0000] 0

/-! ## Capacity -/

theorem Cache.WF.tagsAt_nodup {c : Cache} (hwf : c.WF) (s : Nat) : (c.tagsAt s).Nodup := by
  unfold Cache.tagsAt
  cases hs : c.sets[s]? with
  | none => exact List.nodup_nil
  | some set => exact (hwf.sets_inv set (List.getElem?_mem hs)).tags_nodup

theorem Cache.tagsAt_congr {c c' : Cache} {s : Nat} (h : c'.sets[s]? = c.sets[s]?) :
    c'.tagsAt s = c.tagsAt s := by
  unfold Cache.tagsAt; rw [h]

theorem Cache.init_tagsAt (blockSize cacheSize associativity s : Nat) :
    (Cache.init blockSize cacheSize associativity).tagsAt s = [] := by
  unfold Cache.tagsAt
  cases hs : (Cache.init blockSize cacheSize associativity).sets[s]? with
  | none => rfl
  | some set =>
    have hmem := List.getElem?_mem hs
    simp only [Cache.init] at hmem
    rw [List.eq_of_mem_replicate hmem]
    rfl

theorem mem_lruStep_of_room {assoc : Nat} {tags : List Int} {t : Int}
    (h : t ∈ tags ∨ tags.length < assoc) (x : Int) :
    x ∈ (lruStep assoc tags t).2 ↔ x ∈ tags ∨ x = t := by
  unfold lruStep
  by_cases ht : t ∈ tags
  · rw [if_pos ht]
    simp only [List.mem_append, List.mem_singleton]
    constructor
    · rintro (hx | hx)
      · exact Or.inl (List.mem_of_mem_erase hx)
      · exact Or.inr hx
    · rintro (hx | hx)
      · by_cases hxt : x = t
        · exact Or.inr hxt
        · exact Or.inl ((List.mem_erase_of_ne hxt).2 hx)
      · exact Or.inr hx
  · have hlen : tags.length < assoc := h.resolve_left ht
    rw [if_neg ht, if_pos hlen]
    simp

/-- One access seen on the tag lists: the result, the list of the selected set, and the
lists of the other sets. -/
theorem Cache.access_tags {c c' : Cache} (hwf : c.WF) {a : Int} {r : Bool}
    (h : c.access a = some (r, c')) :
    r = decide (c.tag a ∈ c.tagsAt (c.setIdx a)) ∧
      c'.tagsAt (c.setIdx a) = (lruStep c.associativity (c.tagsAt (c.setIdx a)) (c.tag a)).2 ∧
      ∀ j, j ≠ c.setIdx a → c'.tagsAt j = c.tagsAt j := by
  obtain ⟨c1, hc1, _, _, htags, hframe⟩ := Cache.access_step hwf a
  rw [h] at hc1
  simp only [Option.some.injEq, Prod.mk.injEq] at hc1
  rw [hc1.2]
  exact ⟨hc1.1, htags, fun j hj => Cache.tagsAt_congr (hframe j hj)⟩

theorem Cache.run_append_inv {c c' : Cache} {t1 t2 : List Int} {rs : List Bool}
    (h : c.run (t1 ++ t2) = some (rs, c')) :
    ∃ rs1 c1 rs2, c.run t1 = some (rs1, c1) ∧ c1.run t2 = some (rs2, c') ∧
      rs = rs1 ++ rs2 ∧ rs1.length = t1.length := by
  induction t1 generalizing c rs with
  | nil => exact ⟨[], c, rs, rfl, h, rfl, rfl⟩
  | cons a rest ih =>
    rw [List.cons_append] at h
    obtain ⟨r, c1, rs', h1, h2, hrs⟩ := Cache.run_cons_inv h
    obtain ⟨rs1, c2, rs2, h3, h4, h5, h6⟩ := ih h2
    exact ⟨r :: rs1, c2, rs2, Cache.run_cons h1 h3, h4, by rw [hrs, h5]; rfl, by simp [h6]⟩

theorem capacity_inv {c0 : Cache} (h0 : c0.WF) (s : Nat) (hinit : c0.tagsAt s = [])
    (D : List Int) (hD : D.length ≤ c0.associativity) {pre : List Int} {c : Cache}
    (hr : c0.Reaches pre c) (hsub : ∀ x ∈ pre, c0.setIdx x = s → c0.tag x ∈ D) :
    ∀ t, t ∈ c.tagsAt s ↔ ∃ x ∈ pre, c0.setIdx x = s ∧ c0.tag x = t := by
  induction hr with
  | init => intro t; simp [hinit]
  | step hr' hacc ih =>
    rename_i tr c1 a r c2
    have hwf := hr'.wf h0
    have hcfg := hr'.sameConfig
    have ih' := ih (fun x hx => hsub x (List.mem_append_left _ hx))
    obtain ⟨_, htags, hframe⟩ := Cache.access_tags hwf hacc
    rw [hcfg.setIdx_eq, hcfg.tag_eq, hcfg.associativity_eq] at htags
    rw [hcfg.setIdx_eq] at hframe
    intro t
    by_cases hsa : c0.setIdx a = s
    · rw [hsa] at htags
      have hroom : c0.tag a ∈ c1.tagsAt s ∨ (c1.tagsAt s).length < c0.associativity := by
        by_cases hmem : c0.tag a ∈ c1.tagsAt s
        · exact Or.inl hmem
        · right
          have hnd : (c0.tag a :: c1.tagsAt s).Nodup :=
            List.nodup_cons.2 ⟨hmem, hwf.tagsAt_nodup s⟩
          have hsubD : (c0.tag a :: c1.tagsAt s) ⊆ D := by
            intro x hx
            rcases List.mem_cons.1 hx with h | h
            · rw [h]; exact hsub a (by simp) hsa
            · obtain ⟨y, hy, hys, hyt⟩ := (ih' x).1 h
              rw [← hyt]; exact hsub y (List.mem_append_left _ hy) hys
          have := (List.Nodup.subperm hnd hsubD).length_le
          simp only [List.length_cons] at this
          omega
      rw [htags, mem_lruStep_of_room hroom, ih' t]
      constructor
      · rintro (⟨x, hx, h1, h2⟩ | h)
        · exact ⟨x, List.mem_append_left _ hx, h1, h2⟩
        · exact ⟨a, by simp, hsa, h.symm⟩
      · rintro ⟨x, hx, h1, h2⟩
        rcases List.mem_append.1 hx with h | h
        · exact Or.inl ⟨x, h, h1, h2⟩
        · rw [List.mem_singleton] at h
          subst h
          exact Or.inr h2.symm
    · rw [hframe s (fun h => hsa h.symm), ih' t]
      constructor
      · rintro ⟨x, hx, h1, h2⟩
        exact ⟨x, List.mem_append_left _ hx, h1, h2⟩
      · rintro ⟨x, hx, h1, h2⟩
        rcases List.mem_append.1 hx with h | h
        · exact ⟨x, h, h1, h2⟩
        · rw [List.mem_singleton] at h
          subst h
          exact absurd h1 hsa

/-- C5: capacity.  Starting from a freshly constructed cache, if the accesses of a sequence
that map to set `s` carry at most `associativity` distinct tags, then the run returns and
every access mapping to `s` is a hit exactly when its (set, tag) pair occurred earlier in
the sequence: repeated pairs hit in whatever order, and only the first access to each tag
is a miss. -/
theorem capacity (blockSize cacheSize associativity : Nat)
    (hassoc : 1 ≤ associativity) (hsets : 1 ≤ cacheSize / blockSize / associativity)
    (hint : cacheSize < 2 ^ 31) (trace : List Int) (s : Nat)
    (hcap : (((trace.filter (fun a =>
        decide ((Cache.init blockSize cacheSize associativity).setIdx a = s))).map
          (Cache.init blockSize cacheSize associativity).tag).dedup).length ≤ associativity) :
    ∃ rs c, (Cache.init blockSize cacheSize associativity).run trace = some (rs, c) ∧
      rs.length = trace.length ∧
      ∀ pre a suf, trace = pre ++ a :: suf →
        (Cache.init blockSize cacheSize associativity).setIdx a = s →
        rs[pre.length]? = some (decide
          ((Cache.init blockSize cacheSize associativity).key a ∈
            pre.map (Cache.init blockSize cacheSize associativity).key)) := by
  have h0 := Cache.init_WF blockSize cacheSize associativity hassoc hsets hint
  obtain ⟨rs, c, hrun, _, _, hlen⟩ := Cache.run_total h0 trace
  refine ⟨rs, c, hrun, hlen, ?_⟩
  intro pre a suf htrace hsa
  rw [htrace] at hrun
  obtain ⟨rs1, c1, rs2, h1, h2, hrs, hl1⟩ := Cache.run_append_inv hrun
  obtain ⟨r, c2, rs3, h3, _, hrs2⟩ := Cache.run_cons_inv h2
  have hr1 : (Cache.init blockSize cacheSize associativity).Reaches pre c1 := by
    have := Cache.Reaches.run Cache.Reaches.init h1
    rwa [List.nil_append] at this
  have hwf1 := hr1.wf h0
  have hcfg := hr1.sameConfig
  have hinv := capacity_inv h0 s (Cache.init_tagsAt _ _ _ s) _ hcap hr1 (by
    intro x hx hxs
    rw [List.mem_dedup, List.mem_map]
    refine ⟨x, ?_, rfl⟩
    rw [List.mem_filter]
    exact ⟨by rw [htrace]; exact List.mem_append_left _ hx, by simpa using hxs⟩)
  obtain ⟨hr, _, _⟩ := Cache.access_tags hwf1 h3
  rw [hcfg.setIdx_eq, hcfg.tag_eq, hsa] at hr
  rw [hrs, hrs2, List.getElem?_append_right (by omega), hl1, Nat.sub_self]
  simp only [List.getElem?_cons_zero, Option.some.injEq]
  rw [hr]
  apply decide_eq_decide.2
  rw [hinv, List.mem_map]
  unfold Cache.key
  constructor
  · rintro ⟨x, hx, h4, h5⟩
    exact ⟨x, hx, by rw [h4, h5, hsa]⟩
  · rintro ⟨x, hx, h4⟩
    simp only [Prod.mk.injEq] at h4
    exact ⟨x, hx, h4.1.trans hsa, h4.2⟩

theorem capacity_witness :
    ∃ rs c, (Cache.init 64 1024 4).run [0x0000, 0x0100, 0x0000, 0x0100] = some (rs, c) ∧
      rs.length = [(0x0000 : Int), 0x0100, 0x0000, 0x0100].length ∧
      ∀ pre a suf, [(0x0000 : Int), 0x0100, 0x0000, 0x0100] = pre ++ a :: suf →
        (Cache.init 64 1024 4).setIdx a = 0 →
        rs[pre.length]? = some (decide
          ((Cache.init 64 1024 4).key a ∈ pre.map (Cache.init 64 1024 4).key)) :=
  capacity 64 1024 4 (by decide) (by decide) (by decide) [0x0000, 0x0100, 0x0000, 0x0100] 0
    (by decide)

/-! ## Recency -/

theorem Cache.run_wf {c c' : Cache} (hwf : c.WF) {trace : List Int} {rs : List Bool}
    (h : c.run trace = some (rs, c')) : c'.WF ∧ SameConfig c c' := by
  obtain ⟨rs0, c0, h0, hwf0, hcfg0, _⟩ := Cache.run_total hwf trace
  rw [h] at h0
  simp only [Option.some.injEq, Prod.mk.injEq] at h0
  rw [h0.2]; exact ⟨hwf0, hcfg0⟩

theorem lruStep_snd_shape (assoc : Nat) (tags : List Int) (t : Int) (hnd : tags.Nodup) :
    ∃ L, (lruStep assoc tags t).2 = L ++ [t] ∧ L.Sublist tags ∧ t ∉ L := by
  unfold lruStep
  by_cases ht : t ∈ tags
  · rw [if_pos ht]
    exact ⟨tags.erase t, rfl, List.erase_sublist t tags, hnd.not_mem_erase⟩
  · rw [if_neg ht]
    by_cases hlen : tags.length < assoc
    · rw [if_pos hlen]
      exact ⟨tags, rfl, List.Sublist.refl _, ht⟩
    · rw [if_neg hlen]
      exact ⟨tags.tail, rfl, List.tail_sublist tags, fun h => ht (List.mem_of_mem_tail h)⟩

/-- After a hit on `t`, one miss on another tag does not remove `t` when there are at least
two ways. -/
theorem mem_lruStep_after_hit {assoc : Nat} {tags : List Int} {t tb : Int} (h2 : 2 ≤ assoc)
    (ht : t ∈ tags) (htb : tb ∉ (lruStep assoc tags t).2) :
    t ∈ (lruStep assoc (lruStep assoc tags t).2 tb).2 := by
  have h1 : (lruStep assoc tags t).2 = tags.erase t ++ [t] := by
    unfold lruStep; rw [if_pos ht]
  rw [h1] at htb ⊢
  unfold lruStep
  rw [if_neg htb]
  by_cases hlen : (tags.erase t ++ [t]).length < assoc
  · rw [if_pos hlen]; simp
  · rw [if_neg hlen]
    cases he : tags.erase t with
    | nil =>
      rw [he] at hlen
      simp at hlen
      omega
    | cons x xs => simp

theorem Cache.age_snoc_eq (c : Cache) (pre : List Int) (a : Int) (s : Nat) (t : Int)
    (h : c.key a = (s, t)) : c.age (pre ++ [a]) s t = 0 := by
  unfold Cache.age
  rw [List.map_append, List.reverse_append, List.map_singleton, List.reverse_singleton,
    List.singleton_append, List.findIdx_cons]
  simp [h]

theorem Cache.age_snoc_ne (c : Cache) (pre : List Int) (a : Int) (s : Nat) (t : Int)
    (h : c.key a ≠ (s, t)) : c.age (pre ++ [a]) s t = c.age pre s t + 1 := by
  unfold Cache.age
  rw [List.map_append, List.reverse_append, List.map_singleton, List.reverse_singleton,
    List.singleton_append, List.findIdx_cons]
  simp [h]

theorem Cache.age_lt_length_iff (c : Cache) (pre : List Int) (s : Nat) (t : Int) :
    c.age pre s t < pre.length ↔ (s, t) ∈ pre.map c.key := by
  unfold Cache.age
  have : pre.length = ((pre.map c.key).reverse).length := by simp
  rw [this, List.findIdx_lt_length]
  constructor
  · rintro ⟨x, hx, hk⟩
    rw [List.mem_reverse] at hx
    rw [← of_decide_eq_true hk]; exact hx
  · intro h
    exact ⟨(s, t), List.mem_reverse.2 h, by simp⟩

theorem Cache.age_congr {c c' : Cache} (h : SameConfig c c') (pre : List Int) (s : Nat)
    (t : Int) : c'.age pre s t = c.age pre s t := by
  have hk : c'.key = c.key := by
    funext a
    unfold Cache.key
    rw [h.setIdx_eq, h.tag_eq]
  unfold Cache.age
  rw [hk]

/-- The tag list of every set is ordered by age, oldest first, and holds only tags that
were accessed. -/
theorem recency_order {c0 : Cache} (h0 : c0.WF) (hinit : ∀ s, c0.tagsAt s = [])
    {pre : List Int} {c : Cache} (hr : c0.Reaches pre c) (s : Nat) :
    (∀ t ∈ c.tagsAt s, (s, t) ∈ pre.map c0.key) ∧
      (c.tagsAt s).Pairwise (fun t1 t2 => c0.age pre s t2 < c0.age pre s t1) := by
  induction hr with
  | init => rw [hinit s]; exact ⟨fun t ht => absurd ht (List.not_mem_nil t), List.Pairwise.nil⟩
  | step hr' hacc ih =>
    rename_i tr c1 a r c2
    have hwf := hr'.wf h0
    have hcfg := hr'.sameConfig
    obtain ⟨_, htags, hframe⟩ := Cache.access_tags hwf hacc
    rw [hcfg.setIdx_eq, hcfg.tag_eq] at htags
    rw [hcfg.setIdx_eq] at hframe
    obtain ⟨ihmem, ihpw⟩ := ih
    by_cases hsa : c0.setIdx a = s
    · rw [hsa] at htags
      obtain ⟨L, hL, hsub, htL⟩ :=
        lruStep_snd_shape c1.associativity (c1.tagsAt s) (c0.tag a) (hwf.tagsAt_nodup s)
      have hkey : c0.key a = (s, c0.tag a) := by unfold Cache.key; rw [hsa]
      rw [htags, hL]
      constructor
      · intro t ht
        rw [List.map_append, List.mem_append]
        rcases List.mem_append.1 ht with h | h
        · exact Or.inl (ihmem t (hsub.subset h))
        · rw [List.mem_singleton] at h
          right
          rw [h, List.map_singleton, List.mem_singleton, hkey]
      · rw [List.pairwise_append]
        refine ⟨?_, List.pairwise_singleton _ _, ?_⟩
        · refine List.Pairwise.imp_of_mem ?_ (ihpw.sublist hsub)
          intro x y hx hy hxy
          have hx' : c0.key a ≠ (s, x) := by
            rw [hkey]; intro h; simp only [Prod.mk.injEq, true_and] at h
            exact htL (h ▸ hx)
          have hy' : c0.key a ≠ (s, y) := by
            rw [hkey]; intro h; simp only [Prod.mk.injEq, true_and] at h
            exact htL (h ▸ hy)
          rw [Cache.age_snoc_ne c0 tr a s x hx', Cache.age_snoc_ne c0 tr a s y hy']
          omega
        · intro x hx y hy
          rw [List.mem_singleton] at hy
          have hx' : c0.key a ≠ (s, x) := by
            rw [hkey]; intro h; simp only [Prod.mk.injEq, true_and] at h
            exact htL (h ▸ hx)
          rw [hy, Cache.age_snoc_eq c0 tr a s (c0.tag a) hkey, Cache.age_snoc_ne c0 tr a s x hx']
          omega
    · rw [hframe s (fun h => hsa h.symm)]
      have hne : ∀ x, c0.key a ≠ (s, x) := by
        intro x h
        unfold Cache.key at h
        simp only [Prod.mk.injEq] at h
        exact hsa h.1
      constructor
      · intro t ht
        rw [List.map_append, List.mem_append]
        exact Or.inl (ihmem t ht)
      · refine List.Pairwise.imp ?_ ihpw
        intro x y hxy
        rw [Cache.age_snoc_ne c0 tr a s x (hne x), Cache.age_snoc_ne c0 tr a s y (hne y)]
        omega

/-- C4: recency update.  When `access` hits in a reachable state, the hit slot `i` holds a
valid block with the tag of the address, it occurred exactly once in the recency list of
the set, and afterwards the recency list is the old one with `i` removed (the other entries
in their old order) followed by `i`, the blocks being unchanged.  Consequently, with at
least two ways, if the next access to that set is a miss, the tag is not the one evicted: a
later access to the address still hits, accesses to other sets in between being allowed. -/
theorem recency_update (blockSize cacheSize associativity : Nat)
    (hassoc : 1 ≤ associativity) (hsets : 1 ≤ cacheSize / blockSize / associativity)
    (hint : cacheSize < 2 ^ 31) (trace : List Int) (c : Cache)
    (hr : (Cache.init blockSize cacheSize associativity).Reaches trace c)
    (a : Int) (c1 : Cache) (hhit : c.access a = some (true, c1)) :
    ∃ set i b, c.sets[c.setIdx a]? = some set ∧ set.blocks[i]? = some b ∧ b.valid = true ∧
      b.tag = c.tag a ∧ i ∈ set.lru ∧ set.lru.Nodup ∧
      c1.sets[c.setIdx a]? =
        some { blocks := set.blocks, lru := set.lru.filter (fun j => j != i) ++ [i] } ∧
      (2 ≤ associativity →
        ∀ (mid1 : List Int) (rs1 : List Bool) (c1' : Cache) (b' : Int) (c2 : Cache)
          (mid2 : List Int) (rs2 : List Bool) (c2' : Cache),
          (∀ x ∈ mid1, c.setIdx x ≠ c.setIdx a) → c1.run mid1 = some (rs1, c1') →
          c.setIdx b' = c.setIdx a → c1'.access b' = some (false, c2) →
          (∀ x ∈ mid2, c.setIdx x ≠ c.setIdx a) → c2.run mid2 = some (rs2, c2') →
          ∃ c3, c2'.access a = some (true, c3)) := by
  obtain ⟨hwf, hassoc', _, _⟩ := Cache.init_reaches_wf hassoc hsets hint hr
  obtain ⟨set, hset, hinv⟩ := hwf.getSet a
  obtain ⟨hres, htags1, _⟩ := Cache.access_tags hwf hhit
  have htmem : c.tag a ∈ c.tagsAt (c.setIdx a) := of_decide_eq_true hres.symm
  have htmem' : c.tag a ∈ set.tags := by rwa [Cache.tagsAt_of_getElem? hset] at htmem
  obtain ⟨i, b, hb, hv, hbt, hi, hacc⟩ := access_hit_shape hinv htmem'
  obtain ⟨_, set0, set0', hset0, hacc0, hc1⟩ := (Cache.access_eq_some_iff c a true c1).1 hhit
  rw [hset] at hset0
  cases hset0
  rw [hacc] at hacc0
  simp only [Option.some.injEq, Prod.mk.injEq, true_and] at hacc0
  have hlt := Cache.setIdx_lt hwf a
  refine ⟨set, i, b, hset, hb, hv, hbt, hi, hinv.nodup, ?_, ?_⟩
  · rw [hc1, ← hacc0]
    show (c.sets.set (c.setIdx a) _)[c.setIdx a]? = _
    rw [List.getElem?_set, if_pos rfl, if_pos hlt]
  · intro h2 mid1 rs1 c1' b' c2 mid2 rs2 c2' hmid1 hrun1 hsb hmiss hmid2 hrun2
    have hwf1 := hwf.step hhit
    have hcfg1 := Cache.access_sameConfig hhit
    obtain ⟨hwf1', hcfg1'⟩ := Cache.run_wf hwf1 hrun1
    have hcfgc1' : SameConfig c c1' := hcfg1.trans hcfg1'
    have hwf2 := hwf1'.step hmiss
    have hcfgc2 : SameConfig c c2 := hcfgc1'.trans (Cache.access_sameConfig hmiss)
    obtain ⟨hwf2', hcfg2'⟩ := Cache.run_wf hwf2 hrun2
    have hcfgc2' : SameConfig c c2' := hcfgc2.trans hcfg2'
    have ht1' : c1'.tagsAt (c.setIdx a) = c1.tagsAt (c.setIdx a) :=
      Cache.tagsAt_congr (Cache.run_frame (c.setIdx a) hrun1 (fun x hx => by
        rw [hcfg1.setIdx_eq]; exact hmid1 x hx))
    have ht2' : c2'.tagsAt (c.setIdx a) = c2.tagsAt (c.setIdx a) :=
      Cache.tagsAt_congr (Cache.run_frame (c.setIdx a) hrun2 (fun x hx => by
        rw [hcfgc2.setIdx_eq]; exact hmid2 x hx))
    obtain ⟨hresb, htags2, _⟩ := Cache.access_tags hwf1' hmiss
    rw [hcfgc1'.setIdx_eq, hsb, ht1', htags1, hcfgc1'.associativity_eq] at htags2
    rw [hcfgc1'.setIdx_eq, hsb, ht1', htags1] at hresb
    have hnb : c1'.tag b' ∉ (lruStep c.associativity (c.tagsAt (c.setIdx a)) (c.tag a)).2 := by
      intro h
      rw [decide_eq_true h] at hresb
      cases hresb
    obtain ⟨c3, hc3, _⟩ := Cache.access_step hwf2' a
    refine ⟨c3, ?_⟩
    rw [hc3, hcfgc2'.setIdx_eq, hcfgc2'.tag_eq, ht2', htags2]
    have := mem_lruStep_after_hit (by rw [hassoc']; exact h2) htmem hnb
    rw [decide_eq_true this]

theorem recency_update_witness :
    ∃ c c1 : Cache, (Cache.init 1 2 2).Reaches ([] ++ [5] ++ [6]) c ∧
      c.access 5 = some (true, c1) ∧
      (c.sets.map CacheSet.lru = [[0, 1]] ∧ c1.sets.map CacheSet.lru = [[1, 0]] ∧
        (c1.run [7, 5]).map Prod.fst = some [false, true]) ∧
      ∃ set i b, c.sets[c.setIdx 5]? = some set ∧ set.blocks[i]? = some b ∧ b.valid = true ∧
        b.tag = c.tag 5 ∧ i ∈ set.lru ∧ set.lru.Nodup ∧
        c1.sets[c.setIdx 5]? =
          some { blocks := set.blocks, lru := set.lru.filter (fun j => j != i) ++ [i] } ∧
        (2 ≤ 2 →
          ∀ (mid1 : List Int) (rs1 : List Bool) (c1' : Cache) (b' : Int) (c2 : Cache)
            (mid2 : List Int) (rs2 : List Bool) (c2' : Cache),
            (∀ x ∈ mid1, c.setIdx x ≠ c.setIdx 5) → c1.run mid1 = some (rs1, c1') →
            c.setIdx b' = c.setIdx 5 → c1'.access b' = some (false, c2) →
            (∀ x ∈ mid2, c.setIdx x ≠ c.setIdx 5) → c2.run mid2 = some (rs2, c2') →
            ∃ c3, c2'.access 5 = some (true, c3)) :=
  ⟨{ blockSize := 1, cacheSize := 2, associativity := 2, numSets := 1,
     sets := [{ blocks := [{ tag := 5, valid := true }, { tag := 6, valid := true }],
                lru := [0, 1] }] },
   { blockSize := 1, cacheSize := 2, associativity := 2, numSets := 1,
     sets := [{ blocks := [{ tag := 5, valid := true }, { tag := 6, valid := true }],
                lru := [1, 0] }] },
   (@Cache.Reaches.step (Cache.init 1 2 2) ([] ++ [5])
     { blockSize := 1, cacheSize := 2, associativity := 2, numSets := 1,
       sets := [{ blocks := [{ tag := 5, valid := true }, { tag := 0, valid := false }],
                  lru := [0] }] }
     6 false
     { blockSize := 1, cacheSize := 2, associativity := 2, numSets := 1,
       sets := [{ blocks := [{ tag := 5, valid := true }, { tag := 6, valid := true }],
                  lru := [0, 1] }] }
     (@Cache.Reaches.step (Cache.init 1 2 2) [] (Cache.init 1 2 2) 5 false
       { blockSize := 1, cacheSize := 2, associativity := 2, numSets := 1,
         sets := [{ blocks := [{ tag := 5, valid := true }, { tag := 0, valid := false }],
                    lru := [0] }] }
       Cache.Reaches.init (by decide)) (by decide)),
   by decide,
   by decide,
   recency_update 1 2 2 (by decide) (by decide) (by decide) ([] ++ [5] ++ [6])
     { blockSize := 1, cacheSize := 2, associativity := 2, numSets := 1,
       sets := [{ blocks := [{ tag := 5, valid := true }, { tag := 6, valid := true }],
                  lru := [0, 1] }] }
     (@Cache.Reaches.step (Cache.init 1 2 2) ([] ++ [5])
       { blockSize := 1, cacheSize := 2, associativity := 2, numSets := 1,
         sets := [{ blocks := [{ tag := 5, valid := true }, { tag := 0, valid := false }],
                    lru := [0] }] }
       6 false
       { blockSize := 1, cacheSize := 2, associativity := 2, numSets := 1,
         sets := [{ blocks := [{ tag := 5, valid := true }, { tag := 6, valid := true }],
                    lru := [0, 1] }] }
       (@Cache.Reaches.step (Cache.init 1 2 2) [] (Cache.init 1 2 2) 5 false
         { blockSize := 1, cacheSize := 2, associativity := 2, numSets := 1,
           sets := [{ blocks := [{ tag := 5, valid := true }, { tag := 0, valid := false }],
                      lru := [0] }] }
         Cache.Reaches.init (by decide)) (by decide))
     5
     { blockSize := 1, cacheSize := 2, associativity := 2, numSets := 1,
       sets := [{ blocks := [{ tag := 5, valid := true }, { tag := 6, valid := true }],
                  lru := [1, 0] }] }
     (by decide)⟩

/-! ## LRU eviction -/

theorem SetInv.lru_full {assoc : Nat} {s : CacheSet} (hinv : SetInv assoc s)
    (hfull : ∀ b ∈ s.blocks, b.valid = true) : ¬ s.lru.length < assoc := by
  have hsub : List.range assoc ⊆ s.lru := by
    intro i hi
    rw [List.mem_range, ← hinv.len_blocks] at hi
    exact (hinv.mem_iff i).2 ⟨s.blocks[i], List.getElem?_eq_getElem hi,
      hfull _ (List.getElem_mem _)⟩
  have := (List.Nodup.subperm (List.nodup_range assoc) hsub).length_le
  rw [List.length_range] at this
  omega

/-- C3: LRU eviction.  In a state reached from a fresh cache by `trace`, if every block of
the set selected by the address is valid and none holds the tag of the address, then
`access` returns miss and replaces exactly one slot `e`: the new set holds the new tag in
slot `e` and every other slot is unchanged.  The replaced tag was accessed in `trace`, and
its most recent access is older than the most recent access of every other occupant of the
set.  An access to the evicted tag made immediately after returns miss. -/
theorem lru_eviction (blockSize cacheSize associativity : Nat)
    (hassoc : 1 ≤ associativity) (hsets : 1 ≤ cacheSize / blockSize / associativity)
    (hint : cacheSize < 2 ^ 31) (trace : List Int) (c : Cache)
    (hr : (Cache.init blockSize cacheSize associativity).Reaches trace c)
    (a : Int) (set : CacheSet) (hset : c.sets[c.setIdx a]? = some set)
    (hfull : ∀ b ∈ set.blocks, b.valid = true)
    (hnew : ∀ b ∈ set.blocks, b.tag ≠ c.tag a) :
    ∃ (e : Nat) (old : CacheBlock) (c' : Cache) (set' : CacheSet),
      set.blocks.length = associativity ∧
      set.blocks[e]? = some old ∧
      c.access a = some (false, c') ∧
      c'.sets[c.setIdx a]? = some set' ∧
      set'.blocks[e]? = some { tag := c.tag a, valid := true } ∧
      (∀ j, j ≠ e → set'.blocks[j]? = set.blocks[j]?) ∧
      c.age trace (c.setIdx a) old.tag < trace.length ∧
      (∀ (j : Nat) (b : CacheBlock), j ≠ e → set.blocks[j]? = some b →
        c.age trace (c.setIdx a) b.tag < c.age trace (c.setIdx a) old.tag) ∧
      (∀ a' : Int, c.setIdx a' = c.setIdx a → c.tag a' = old.tag →
        ∃ c'', c'.access a' = some (false, c'')) := by
  have h0 := Cache.init_WF blockSize cacheSize associativity hassoc hsets hint
  obtain ⟨hwf, hassoc', _, _⟩ := Cache.init_reaches_wf hassoc hsets hint hr
  have hcfg := hr.sameConfig
  have hinv : SetInv c.associativity set := hwf.sets_inv set (List.getElem?_mem hset)
  have ht : c.tag a ∉ set.tags := by
    intro h
    obtain ⟨i, b, hb, _, hbt⟩ := (hinv.mem_tags_iff _).1 h
    exact hnew b (List.getElem?_mem hb) hbt
  have hlen := hinv.lru_full hfull
  obtain ⟨e, rest, hl, he, hacc⟩ := access_evict_shape hinv hwf.assoc_pos ht hlen
  have hlt := Cache.setIdx_lt hwf a
  have hold : set.blocks[e]? = some set.blocks[e] := List.getElem?_eq_getElem he
  have hc : c.access a = some (false, { c with sets := (c.sets.set (c.setIdx a)
      { blocks := set.blocks.set e { tag := c.tag a, valid := true }, lru := rest ++ [e] }) }) :=
    (Cache.access_eq_some_iff c a _ _).2
      ⟨(Cache.index_range hwf a).1, set, _, hset, hacc, rfl⟩
  have htagsEq : c.tagsAt (c.setIdx a) = set.blocks[e].tag :: rest.map set.slotTag := by
    rw [Cache.tagsAt_of_getElem? hset]
    unfold CacheSet.tags
    rw [hl, List.map_cons, slotTag_of_getElem? set e _ hold]
  obtain ⟨hmem, hpw⟩ := recency_order h0 (Cache.init_tagsAt _ _ _) hr (c.setIdx a)
  rw [htagsEq] at hmem hpw
  have hage : ∀ t, c.age trace (c.setIdx a) t =
      (Cache.init blockSize cacheSize associativity).age trace (c.setIdx a) t :=
    fun t => Cache.age_congr hcfg trace _ t
  have hnd : (set.blocks[e].tag :: rest.map set.slotTag).Nodup := by
    rw [← htagsEq]; exact hwf.tagsAt_nodup _
  refine ⟨e, set.blocks[e], _,
    ({ blocks := set.blocks.set e { tag := c.tag a, valid := true }, lru := rest ++ [e] } :
      CacheSet),
    hassoc' ▸ hinv.len_blocks, hold, hc, ?_, ?_, ?_, ?_, ?_, ?_⟩
  · show (c.sets.set (c.setIdx a) _)[c.setIdx a]? = _
    rw [List.getElem?_set, if_pos rfl, if_pos hlt]
  · show (set.blocks.set e _)[e]? = _
    rw [List.getElem?_set, if_pos rfl, if_pos he]
  · intro j hj
    show (set.blocks.set e _)[j]? = _
    rw [List.getElem?_set, if_neg (fun h => hj h.symm)]
  · rw [hage, Cache.age_lt_length_iff]
    exact hmem _ (List.mem_cons_self _ _)
  · intro j b hj hb
    have hjl : j ∈ set.lru := (hinv.mem_iff j).2 ⟨b, hb, hfull b (List.getElem?_mem hb)⟩
    rw [hl, List.mem_cons] at hjl
    have hjr : j ∈ rest := hjl.resolve_left hj
    have hbm : b.tag ∈ rest.map set.slotTag :=
      List.mem_map.2 ⟨j, hjr, slotTag_of_getElem? set j b hb⟩
    rw [hage, hage]
    exact (List.pairwise_cons.1 hpw).1 _ hbm
  · intro a' hsa' hta'
    have hwf' := hwf.step hc
    have hcfg' := Cache.access_sameConfig hc
    obtain ⟨_, htags', _⟩ := Cache.access_tags hwf hc
    obtain ⟨c'', hc'', _⟩ := Cache.access_step hwf' a'
    refine ⟨c'', ?_⟩
    rw [hc'', hcfg'.setIdx_eq, hcfg'.tag_eq, hsa', hta', htags']
    have hlen' : ¬ (c.tagsAt (c.setIdx a)).length < c.associativity := by
      rw [Cache.tagsAt_of_getElem? hset]
      unfold CacheSet.tags
      rw [List.length_map]; exact hlen
    have ht' : c.tag a ∉ c.tagsAt (c.setIdx a) := by
      rw [Cache.tagsAt_of_getElem? hset]; exact ht
    have hnot : set.blocks[e].tag ∉
        (lruStep c.associativity (c.tagsAt (c.setIdx a)) (c.tag a)).2 := by
      unfold lruStep
      rw [if_neg ht', if_neg hlen', htagsEq, List.tail_cons, List.mem_append,
        List.mem_singleton]
      rintro (h | h)
      · exact (List.nodup_cons.1 hnd).1 h
      · exact hnew _ (List.getElem_mem _) h
    rw [decide_eq_false hnot]

theorem lru_eviction_witness :
    ∃ c : Cache, (Cache.init 1 2 2).Reaches ([] ++ [5] ++ [6]) c ∧
      ∃ set, c.sets[c.setIdx 7]? = some set ∧ (∀ b ∈ set.blocks, b.valid = true) ∧
        (∀ b ∈ set.blocks, b.tag ≠ c.tag 7) ∧
        ∃ (e : Nat) (old : CacheBlock) (c' : Cache) (set' : CacheSet),
          set.blocks.length = 2 ∧
          set.blocks[e]? = some old ∧
          c.access 7 = some (false, c') ∧
          c'.sets[c.setIdx 7]? = some set' ∧
          set'.blocks[e]? = some { tag := c.tag 7, valid := true } ∧
          (∀ j, j ≠ e → set'.blocks[j]? = set.blocks[j]?) ∧
          c.age ([] ++ [5] ++ [6]) (c.setIdx 7) old.tag < ([] ++ [(5 : Int)] ++ [6]).length ∧
          (∀ (j : Nat) (b : CacheBlock), j ≠ e → set.blocks[j]? = some b →
            c.age ([] ++ [5] ++ [6]) (c.setIdx 7) b.tag <
              c.age ([] ++ [5] ++ [6]) (c.setIdx 7) old.tag) ∧
          (∀ a' : Int, c.setIdx a' = c.setIdx 7 → c.tag a' = old.tag →
            ∃ c'', c'.access a' = some (false, c'')) :=
  ⟨{ blockSize := 1, cacheSize := 2, associativity := 2, numSets := 1,
         sets := [{ blocks := [{ tag := 5, valid := true }, { tag := 6, valid := true }],
                    lru := [0, 1] }] },
   (@Cache.Reaches.step (Cache.init 1 2 2) ([] ++ [5])
     { blockSize := 1, cacheSize := 2, associativity := 2, numSets := 1,
         sets := [{ blocks := [{ tag := 5, valid := true }, { tag := 0, valid := false }],
                    lru := [0] }] }
     6 false
     { blockSize := 1, cacheSize := 2, associativity := 2, numSets := 1,
         sets := [{ blocks := [{ tag := 5, valid := true }, { tag := 6, valid := true }],
                    lru := [0, 1] }] }
     (@Cache.Reaches.step (Cache.init 1 2 2) [] (Cache.init 1 2 2) 5 false
       { blockSize := 1, cacheSize := 2, associativity := 2, numSets := 1,
         sets := [{ blocks := [{ tag := 5, valid := true }, { tag := 0, valid := false }],
                    lru := [0] }] }
       Cache.Reaches.init (by decide)) (by decide)),
   { blocks := [{ tag := 5, valid := true }, { tag := 6, valid := true }], lru := [0, 1] },
   by decide, by decide, by decide,
   lru_eviction 1 2 2 (by decide) (by decide) (by decide) ([] ++ [5] ++ [6]) _
     (@Cache.Reaches.step (Cache.init 1 2 2) ([] ++ [5])
     { blockSize := 1, cacheSize := 2, associativity := 2, numSets := 1,
         sets := [{ blocks := [{ tag := 5, valid := true }, { tag := 0, valid := false }],
                    lru := [0] }] }
     6 false
     { blockSize := 1, cacheSize := 2, associativity := 2, numSets := 1,
         sets := [{ blocks := [{ tag := 5, valid := true }, { tag := 6, valid := true }],
                    lru := [0, 1] }] }
     (@Cache.Reaches.step (Cache.init 1 2 2) [] (Cache.init 1 2 2) 5 false
       { blockSize := 1, cacheSize := 2, associativity := 2, numSets := 1,
         sets := [{ blocks := [{ tag := 5, valid := true }, { tag := 0, valid := false }],
                    lru := [0] }] }
       Cache.Reaches.init (by decide)) (by decide))
     7 { blocks := [{ tag := 5, valid := true }, { tag := 6, valid := true }], lru := [0, 1] }
     (by decide) (by decide) (by decide)⟩

end CacheSim

namespace arch_models

/-! ## Memory words -/

theorem or_shiftLeft_eq_add (lo hi i : Nat) (h : lo < 2 ^ i) :
    lo ||| (hi <<< i) = lo + hi * 2 ^ i := by
  rw [Nat.or_comm, Nat.shiftLeft_eq, Nat.mul_comm hi, ← Nat.mul_add_lt_is_or h]
  omega

/-- The four little-endian bytes of a 32-bit word put together again give the word. -/
theorem word_of_bytes (v : Nat) (hv : v < 2 ^ 32) :
    ((v &&& 0xFF) ||| (((v >>> 8) &&& 0xFF) <<< 8) ||| (((v >>> 16) &&& 0xFF) <<< 16) |||
      (((v >>> 24) &&& 0xFF) <<< 24)) % 2 ^ 32 = v := by
  have hm : ∀ x : Nat, x &&& 0xFF = x % 2 ^ 8 := fun x => Nat.and_pow_two_sub_one_eq_mod x 8
  simp only [hm, Nat.shiftRight_eq_div_pow]
  have h0 : v % 2 ^ 8 < 2 ^ 8 := Nat.mod_lt _ (by norm_num)
  have h1 : v / 2 ^ 8 % 2 ^ 8 < 2 ^ 8 := Nat.mod_lt _ (by norm_num)
  have h2 : v / 2 ^ 16 % 2 ^ 8 < 2 ^ 8 := Nat.mod_lt _ (by norm_num)
  rw [or_shiftLeft_eq_add _ _ 8 h0, or_shiftLeft_eq_add _ _ 16 (by omega),
    or_shiftLeft_eq_add _ _ 24 (by omega)]
  omega

theorem storeByte_ok (s : ProcessorModel) (i b : Nat) (h : i < MEMORY_SIZE) :
    s.storeByte i b = .ok { s with memory := fun j => if j = i then b else s.memory j } := by
  unfold ProcessorModel.storeByte
  rw [if_pos h]

theorem loadByte_ok (s : ProcessorModel) (i : Nat) (h : i < MEMORY_SIZE) :
    s.loadByte i = .ok (s.memory i) := by
  unfold ProcessorModel.loadByte
  rw [if_pos h]

theorem write_memory_ok (s : ProcessorModel) (addr v : Nat) (h : addr + 3 < MEMORY_SIZE) :
    s.write_memory addr v = .ok { s with memory := (fun j =>
      if j = addr + 3 then (v >>> 24) &&& 0xFF
      else if j = addr + 2 then (v >>> 16) &&& 0xFF
      else if j = addr + 1 then (v >>> 8) &&& 0xFF
      else if j = addr then v &&& 0xFF
      else s.memory j) } := by
  unfold ProcessorModel.write_memory
  rw [if_neg (by unfold MEMORY_SIZE at *; omega)]
  rw [storeByte_ok s addr _ (by omega)]
  show (ProcessorModel.storeByte _ (addr + 1) _ >>= _) = _
  rw [storeByte_ok _ (addr + 1) _ (by omega)]
  show (ProcessorModel.storeByte _ (addr + 2) _ >>= _) = _
  rw [storeByte_ok _ (addr + 2) _ (by omega)]
  show ProcessorModel.storeByte _ (addr + 3) _ = _
  rw [storeByte_ok _ (addr + 3) _ h]

theorem read_memory_ok (s : ProcessorModel) (addr : Nat) (h : addr + 3 < MEMORY_SIZE) :
    s.read_memory addr = .ok ((s.memory addr ||| (s.memory (addr + 1) <<< 8) |||
      (s.memory (addr + 2) <<< 16) ||| (s.memory (addr + 3) <<< 24)) % 2 ^ 32) := by
  unfold ProcessorModel.read_memory
  rw [if_neg (by unfold MEMORY_SIZE at *; omega), loadByte_ok s addr (by omega),
    loadByte_ok s (addr + 1) (by omega), loadByte_ok s (addr + 2) (by omega),
    loadByte_ok s (addr + 3) h]
  rfl

theorem read_memory_little_endian (s : ProcessorModel) (addr : Nat)
    (h : addr + 3 < MEMORY_SIZE) (hb : ∀ j, addr ≤ j → j ≤ addr + 3 → s.memory j < 2 ^ 8) :
    s.read_memory addr = .ok (s.memory addr + s.memory (addr + 1) * 2 ^ 8 +
      s.memory (addr + 2) * 2 ^ 16 + s.memory (addr + 3) * 2 ^ 24) := by
  have h0 := hb addr (by omega) (by omega)
  have h1 := hb (addr + 1) (by omega) (by omega)
  have h2 := hb (addr + 2) (by omega) (by omega)
  have h3 := hb (addr + 3) (by omega) (by omega)
  rw [read_memory_ok s addr h, or_shiftLeft_eq_add _ _ 8 h0,
    or_shiftLeft_eq_add _ _ 16 (by omega), or_shiftLeft_eq_add _ _ 24 (by omega),
    Nat.mod_eq_of_lt (by omega)]

/-- C11: memory round trip.  For every state, every address with `addr + 3 < MEMORY_SIZE`
and every 32-bit value, `write_memory` returns without a fault, stores the four bytes of the
value in little-endian order (the least significant byte at `addr`, the most significant at
`addr + 3`), changes no other byte of the memory (all four positions are below
`MEMORY_SIZE`) and nothing else, and `read_memory` on the result returns the value written;
`read_memory` itself puts the bytes at `addr .. addr + 3` together in little-endian order.
For every address from 4093 on both methods throw `out_of_range`, which leaves the state as
it was. -/
theorem memory_round_trip (s : ProcessorModel) (addr v : Nat) (hv : v < 2 ^ 32) :
    (addr + 3 < MEMORY_SIZE →
      (∃ s', s.write_memory addr v = .ok s' ∧ s'.read_memory addr = .ok v ∧
        s'.memory addr = v % 2 ^ 8 ∧ s'.memory (addr + 1) = v / 2 ^ 8 % 2 ^ 8 ∧
        s'.memory (addr + 2) = v / 2 ^ 16 % 2 ^ 8 ∧ s'.memory (addr + 3) = v / 2 ^ 24 % 2 ^ 8 ∧
        (∀ j, ¬ (addr ≤ j ∧ j ≤ addr + 3) → s'.memory j = s.memory j) ∧
        s'.registers = s.registers ∧ s'.pc = s.pc ∧ s'.initialized = s.initialized ∧
        s'.cycle_count = s.cycle_count) ∧
      ((∀ j, addr ≤ j → j ≤ addr + 3 → s.memory j < 2 ^ 8) →
        s.read_memory addr = .ok (s.memory addr + s.memory (addr + 1) * 2 ^ 8 +
          s.memory (addr + 2) * 2 ^ 16 + s.memory (addr + 3) * 2 ^ 24))) ∧
      (4093 ≤ addr →
        s.write_memory addr v = .error .out_of_range ∧
        s.read_memory addr = .error .out_of_range) := by
  have hm : ∀ x : Nat, x &&& 0xFF = x % 2 ^ 8 := fun x => Nat.and_pow_two_sub_one_eq_mod x 8
  constructor
  · intro h
    refine ⟨⟨_, write_memory_ok s addr v h, ?_, ?_, ?_, ?_, ?_, ?_, rfl, rfl, rfl, rfl⟩,
      read_memory_little_endian s addr h⟩
    · rw [read_memory_ok _ addr h]
      simp only [show ¬ (addr = addr + 3) by omega, show ¬ (addr = addr + 2) by omega,
        show ¬ (addr = addr + 1) by omega, show ¬ (addr + 1 = addr + 3) by omega,
        show ¬ (addr + 1 = addr + 2) by omega, show ¬ (addr + 2 = addr + 3) by omega,
        if_true, if_false]
      rw [word_of_bytes v hv]
    · show (if addr = addr + 3 then _ else _) = _
      rw [if_neg (by omega), if_neg (by omega), if_neg (by omega), if_pos rfl, hm]
    · show (if addr + 1 = addr + 3 then _ else _) = _
      rw [if_neg (by omega), if_neg (by omega), if_pos rfl, hm, Nat.shiftRight_eq_div_pow]
    · show (if addr + 2 = addr + 3 then _ else _) = _
      rw [if_neg (by omega), if_pos rfl, hm, Nat.shiftRight_eq_div_pow]
    · show (if addr + 3 = addr + 3 then _ else _) = _
      rw [if_pos rfl, hm, Nat.shiftRight_eq_div_pow]
    · intro j hj
      show (if j = addr + 3 then _ else _) = _
      rw [if_neg (by omega), if_neg (by omega), if_neg (by omega), if_neg (by omega)]
  · intro h
    constructor
    · unfold ProcessorModel.write_memory
      rw [if_pos (by unfold MEMORY_SIZE; omega)]
    · unfold ProcessorModel.read_memory
      rw [if_pos (by unfold MEMORY_SIZE; omega)]

theorem memory_round_trip_witness :
    ((∃ s', ProcessorModel.new.write_memory 0x100 0xDEADBEEF = .ok s' ∧
        s'.read_memory 0x100 = .ok 0xDEADBEEF ∧
        s'.memory 0x100 = 0xEF ∧ s'.memory 0x101 = 0xBE ∧ s'.memory 0x102 = 0xAD ∧
        s'.memory 0x103 = 0xDE ∧
        (∀ j, ¬ (0x100 ≤ j ∧ j ≤ 0x100 + 3) → s'.memory j = ProcessorModel.new.memory j) ∧
        s'.registers = ProcessorModel.new.registers ∧ s'.pc = ProcessorModel.new.pc ∧
        s'.initialized = ProcessorModel.new.initialized ∧
        s'.cycle_count = ProcessorModel.new.cycle_count) ∧
      ((∀ j, 0x100 ≤ j → j ≤ 0x100 + 3 → ProcessorModel.new.memory j < 2 ^ 8) →
        ProcessorModel.new.read_memory 0x100 =
          .ok (ProcessorModel.new.memory 0x100 + ProcessorModel.new.memory (0x100 + 1) * 2 ^ 8 +
            ProcessorModel.new.memory (0x100 + 2) * 2 ^ 16 +
            ProcessorModel.new.memory (0x100 + 3) * 2 ^ 24))) ∧
      (ProcessorModel.new.write_memory 4093 0xDEADBEEF = .error .out_of_range ∧
        ProcessorModel.new.read_memory 4093 = .error .out_of_range) :=
  ⟨(memory_round_trip ProcessorModel.new 0x100 0xDEADBEEF (by decide)).1 (by decide),
    (memory_round_trip ProcessorModel.new 4093 0xDEADBEEF (by decide)).2 (by decide)⟩

/-! ## Registers and the ADD instruction -/

/-- C12, evaluated: the word `0x00221820` has opcode 0, source fields 1 and 2 and
destination field 3.  In the state of the example (R1 = 0x100, R2 = 0x200) executing it
leaves register 4 at 0 and writes 0x300 to register 3. -/
theorem add_word_writes_r3 :
    (0x00221820 >>> 26) &&& 0x3F = 0 ∧ (0x00221820 >>> 21) &&& 0x1F = 1 ∧
      (0x00221820 >>> 16) &&& 0x1F = 2 ∧ (0x00221820 >>> 11) &&& 0x1F = 3 ∧
      ∃ s1 s2 s3, ProcessorModel.new.initialise.write_register 1 0x100 = .ok s1 ∧
        s1.write_register 2 0x200 = .ok s2 ∧ s2.read_register 3 = .ok 0 ∧
        s2.execute_instruction 0x00221820 = .ok s3 ∧
        s3.read_register 4 = .ok 0 ∧ s3.read_register 3 = .ok 0x300 :=
  ⟨by decide, by decide, by decide, by decide, _, _, _, rfl, rfl, rfl, rfl, rfl, rfl⟩

theorem and_mask5_lt (x : Nat) : x &&& 0x1F < NUM_REGISTERS := by
  have : x &&& 0x1F = x % 2 ^ 5 := Nat.and_pow_two_sub_one_eq_mod x 5
  rw [this]
  exact Nat.mod_lt _ (by norm_num)

theorem read_register_ok (s : ProcessorModel) (r : Nat) (h : r < NUM_REGISTERS) :
    s.read_register r = .ok (if r = 0 then 0 else s.registers r) := by
  unfold ProcessorModel.read_register ProcessorModel.loadRegister
  rw [if_neg (by omega)]
  by_cases h0 : r = 0
  · rw [if_pos h0, if_pos h0]
  · rw [if_neg h0, if_neg h0, if_pos h]

theorem write_register_zero (s : ProcessorModel) (v : Nat) : s.write_register 0 v = .ok s := by
  unfold ProcessorModel.write_register
  rw [if_neg (by unfold NUM_REGISTERS; omega), if_pos rfl]

theorem write_register_keeps_zero {s s' : ProcessorModel} {r v : Nat}
    (h : s.write_register r v = .ok s') : s'.registers 0 = s.registers 0 := by
  unfold ProcessorModel.write_register ProcessorModel.storeRegister at h
  split_ifs at h with h1 h2 h3
  · cases h; rfl
  · cases h
    show (if 0 = r then v else s.registers 0) = s.registers 0
    rw [if_neg (fun h' => h2 h'.symm)]

theorem execute_instruction_keeps_zero {s s' : ProcessorModel} {instruction : Nat}
    (h : s.execute_instruction instruction = .ok s') : s'.registers 0 = s.registers 0 := by
  unfold ProcessorModel.execute_instruction at h
  by_cases hop : (instruction >>> 26) &&& 0x3F = 0x00
  · simp only [hop, if_true] at h
    rw [read_register_ok s _ (and_mask5_lt _), read_register_ok s _ (and_mask5_lt _)] at h
    exact write_register_keeps_zero h
  · simp only [hop, if_false] at h
    cases h; rfl

theorem write_memory_keeps_registers {s s' : ProcessorModel} {addr v : Nat}
    (h : s.write_memory addr v = .ok s') : s'.registers = s.registers := by
  by_cases ha : addr + 3 < MEMORY_SIZE
  · rw [write_memory_ok s addr v ha] at h
    cases h; rfl
  · unfold ProcessorModel.write_memory at h
    rw [if_pos (by unfold MEMORY_SIZE at *; omega)] at h
    cases h

theorem step_keeps_zero {s s' : ProcessorModel} (h : s.step = .ok s') :
    s'.registers 0 = s.registers 0 := by
  unfold ProcessorModel.step at h
  split_ifs at h
  cases hr : s.read_memory s.pc with
  | error e => rw [hr] at h; cases h
  | ok instruction =>
    rw [hr] at h
    cases he : s.execute_instruction instruction with
    | error e =>
      have : (Except.error e : Except Fault ProcessorModel) = .ok s' := by
        rw [← h]; show _ = (s.execute_instruction instruction >>= _); rw [he]; rfl
      cases this
    | ok s1 =>
      have : s' = { s1 with pc := (s1.pc + 4) % 2 ^ 32,
                            cycle_count := (s1.cycle_count + 1) % 2 ^ 64 } := by
        have h' : (s.execute_instruction instruction >>= fun s1 =>
          (pure { s1 with pc := (s1.pc + 4) % 2 ^ 32,
                          cycle_count := (s1.cycle_count + 1) % 2 ^ 64 } :
            Except Fault ProcessorModel)) = .ok s' := h
        rw [he] at h'
        cases h'; rfl
      rw [this]
      show s1.registers 0 = s.registers 0
      exact execute_instruction_keeps_zero he

theorem Reachable.register_zero {s : ProcessorModel} (hs : s.Reachable) : s.registers 0 = 0 := by
  induction hs with
  | new => rfl
  | initialise _ ih =>
    unfold ProcessorModel.initialise
    split_ifs
    · exact ih
    · rfl
  | reset _ _ => rfl
  | set_pc _ _ _ ih => exact ih
  | write_register _ _ _ _ _ h ih => rw [write_register_keeps_zero h]; exact ih
  | write_memory _ _ _ _ _ h ih => rw [write_memory_keeps_registers h]; exact ih
  | execute_instruction _ _ _ h ih => rw [execute_instruction_keeps_zero h]; exact ih
  | step _ h ih => rw [step_keeps_zero h]; exact ih

/-- C13: register 0 is hard-wired to zero.  In every state reachable by calls of
`initialize`, `reset`, `set_pc`, `write_register`, `write_memory`, `execute_instruction` and
`step`, `read_register(0)` returns 0 (and the array entry itself is 0); `write_register(0, v)`
returns the same state for every `v`; and an ADD instruction (opcode 0) with destination
field 0 returns the same state, so it changes no register. -/
theorem register_zero_hardwired (s : ProcessorModel) (hs : s.Reachable) :
    s.read_register 0 = .ok 0 ∧ s.registers 0 = 0 ∧
      (∀ v, s.write_register 0 v = .ok s) ∧
      (∀ instruction, (instruction >>> 26) &&& 0x3F = 0 → (instruction >>> 11) &&& 0x1F = 0 →
        s.execute_instruction instruction = .ok s) := by
  refine ⟨read_register_ok s 0 (by decide), Reachable.register_zero hs,
    write_register_zero s, ?_⟩
  intro instruction hop hrd
  unfold ProcessorModel.execute_instruction
  simp only [hop, if_true, hrd]
  rw [read_register_ok s _ (and_mask5_lt _), read_register_ok s _ (and_mask5_lt _)]
  exact write_register_zero s
    (((if (instruction >>> 21) &&& 0x1F = 0 then 0 else s.registers ((instruction >>> 21) &&& 0x1F)) +
      (if (instruction >>> 16) &&& 0x1F = 0 then 0
        else s.registers ((instruction >>> 16) &&& 0x1F))) % 2 ^ 32)

theorem register_zero_hardwired_witness :
    ProcessorModel.new.initialise.read_register 0 = .ok 0 ∧
      ProcessorModel.new.initialise.registers 0 = 0 ∧
      (∀ v, ProcessorModel.new.initialise.write_register 0 v =
        .ok ProcessorModel.new.initialise) ∧
      (∀ instruction, (instruction >>> 26) &&& 0x3F = 0 → (instruction >>> 11) &&& 0x1F = 0 →
        ProcessorModel.new.initialise.execute_instruction instruction =
          .ok ProcessorModel.new.initialise) :=
  register_zero_hardwired ProcessorModel.new.initialise
    (ProcessorModel.Reachable.initialise ProcessorModel.Reachable.new)

end arch_models

namespace CacheSim

/-! ## Slot occupancy -/

theorem Cache.access_set {c c' : Cache} {a : Int} {r : Bool} (h : c.access a = some (r, c')) :
    ∃ set set', c.sets[c.setIdx a]? = some set ∧
      set.access c.associativity (c.tag a) = some (r, set') ∧
      c'.sets[c.setIdx a]? = some set' := by
  obtain ⟨_, set, set', hset, hacc, rfl⟩ := (Cache.access_eq_some_iff c a r c').1 h
  refine ⟨set, set', hset, hacc, ?_⟩
  have hlt : c.setIdx a < c.sets.length := (List.getElem?_eq_some_iff.1 hset).1
  show (c.sets.set (c.setIdx a) set')[c.setIdx a]? = some set'
  rw [List.getElem?_set, if_pos rfl, if_pos hlt]

/-- The three possible outcomes of the set-level access under the invariant. -/
theorem CacheSet.access_cases {assoc : Nat} {s s' : CacheSet} (hinv : SetInv assoc s)
    (hpos : 0 < assoc) {t : Int} {r : Bool} (h : s.access assoc t = some (r, s')) :
    (r = true ∧ t ∈ s.tags ∧ s'.blocks = s.blocks) ∨
      (r = false ∧ t ∉ s.tags ∧ s.lru.length < assoc ∧
        s' = { blocks := s.blocks.set s.lru.length { tag := t, valid := true }
               lru := s.lru ++ [s.lru.length] }) ∨
      (r = false ∧ t ∉ s.tags ∧ ¬ s.lru.length < assoc ∧
        ∃ e rest, s.lru = e :: rest ∧ e < s.blocks.length ∧
          s' = { blocks := s.blocks.set e { tag := t, valid := true }, lru := rest ++ [e] }) := by
  by_cases ht : t ∈ s.tags
  · obtain ⟨i, b, _, _, _, _, hacc⟩ := access_hit_shape hinv ht
    rw [hacc] at h
    simp only [Option.some.injEq, Prod.mk.injEq] at h
    exact Or.inl ⟨h.1.symm, ht, by rw [← h.2]⟩
  · by_cases hlen : s.lru.length < assoc
    · rw [access_fill_shape hinv ht hlen] at h
      simp only [Option.some.injEq, Prod.mk.injEq] at h
      exact Or.inr (Or.inl ⟨h.1.symm, ht, hlen, h.2.symm⟩)
    · obtain ⟨e, rest, hl, he, hacc⟩ := access_evict_shape hinv hpos ht hlen
      rw [hacc] at h
      simp only [Option.some.injEq, Prod.mk.injEq] at h
      exact Or.inr (Or.inr ⟨h.1.symm, ht, hlen, e, rest, hl, he, h.2.symm⟩)

theorem SetInv.lru_perm_range {assoc : Nat} {s : CacheSet} (hinv : SetInv assoc s) :
    s.lru.Perm (List.range s.lru.length) := by
  have hsub : s.lru ⊆ List.range s.lru.length :=
    fun i hi => List.mem_range.2 (hinv.lt_len i hi)
  exact (List.Nodup.subperm hinv.nodup hsub).perm_of_length_le (by simp)

theorem SetInv.valid_iff_lt {assoc : Nat} {s : CacheSet} (hinv : SetInv assoc s) (i : Nat) :
    (∃ b, s.blocks[i]? = some b ∧ b.valid = true) ↔ i < s.lru.length := by
  rw [← hinv.mem_iff i, hinv.lru_perm_range.mem_iff, List.mem_range]

/-- C14: ascending fill.  In every reachable state and for every set, the valid slots are
exactly the slots below the length of the recency list, and the recency list is a
permutation of those slot indices.  A miss in a set whose recency list is shorter than
`associativity` writes the slot whose index is that length, which is invalid while all
slots below it are valid; and whenever an access changes a valid block, the recency list
of its set has `associativity` entries, that is, the set is full. -/
theorem ascending_fill (blockSize cacheSize associativity : Nat)
    (hassoc : 1 ≤ associativity) (hsets : 1 ≤ cacheSize / blockSize / associativity)
    (hint : cacheSize < 2 ^ 31) (trace : List Int) (c : Cache)
    (hr : (Cache.init blockSize cacheSize associativity).Reaches trace c)
    (s : Nat) (set : CacheSet) (hset : c.sets[s]? = some set) :
    (∀ i, (∃ b, set.blocks[i]? = some b ∧ b.valid = true) ↔ i < set.lru.length) ∧
      set.lru.Perm (List.range set.lru.length) ∧
      (∀ a c', c.setIdx a = s → c.access a = some (false, c') →
        set.lru.length < associativity →
        (∃ b, set.blocks[set.lru.length]? = some b ∧ b.valid = false) ∧
        c'.sets[s]? = some { blocks := set.blocks.set set.lru.length
                                         { tag := c.tag a, valid := true }
                             lru := set.lru ++ [set.lru.length] }) ∧
      (∀ (a : Int) (r : Bool) (c' : Cache) (set' : CacheSet) (j : Nat) (b : CacheBlock),
        c.setIdx a = s → c.access a = some (r, c') →
        c'.sets[s]? = some set' → set.blocks[j]? = some b → b.valid = true →
        set'.blocks[j]? ≠ some b → set.lru.length = associativity) := by
  obtain ⟨hwf, hassoc', _, _⟩ := Cache.init_reaches_wf hassoc hsets hint hr
  have hinv : SetInv c.associativity set := hwf.sets_inv set (List.getElem?_mem hset)
  refine ⟨hinv.valid_iff_lt, hinv.lru_perm_range, ?_, ?_⟩
  · intro a c' hsa hacc hlen
    obtain ⟨set0, set', hset0, hsacc, hset'⟩ := Cache.access_set hacc
    rw [hsa, hset] at hset0
    cases hset0
    rw [hsa] at hset'
    constructor
    · have hlt : set.lru.length < set.blocks.length := by
        rw [hinv.len_blocks, hassoc']; exact hlen
      refine ⟨set.blocks[set.lru.length], List.getElem?_eq_getElem hlt, ?_⟩
      by_contra hv
      have hv' : set.blocks[set.lru.length].valid = true := by simpa using hv
      have := (hinv.valid_iff_lt set.lru.length).1 ⟨_, List.getElem?_eq_getElem hlt, hv'⟩
      omega
    · rcases CacheSet.access_cases hinv hwf.assoc_pos hsacc with h | h | h
      · exact absurd h.1 (by simp)
      · rw [hset', h.2.2.2]
      · exact absurd (hassoc' ▸ hlen) h.2.2.1
  · intro a r c' set' j b hsa hacc hset' hb hv hne
    obtain ⟨set0, set1, hset0, hsacc, hset1⟩ := Cache.access_set hacc
    rw [hsa, hset] at hset0
    cases hset0
    rw [hsa, hset'] at hset1
    cases hset1
    have hjlt : j < set.lru.length := (hinv.valid_iff_lt j).1 ⟨b, hb, hv⟩
    have hle := hinv.lru_length_le
    rcases CacheSet.access_cases hinv hwf.assoc_pos hsacc with h | h | h
    · rw [h.2.2] at hne; exact absurd hb hne
    · exfalso
      apply hne
      rw [h.2.2.2]
      show (set.blocks.set set.lru.length _)[j]? = some b
      rw [List.getElem?_set, if_neg (by omega)]; exact hb
    · rw [← hassoc']; omega

theorem ascending_fill_witness :
    ∃ (c : Cache) (set : CacheSet), (Cache.init 1 2 2).Reaches ([] ++ [5]) c ∧
      c.sets[0]? = some set ∧
      (∀ i, (∃ b, set.blocks[i]? = some b ∧ b.valid = true) ↔ i < set.lru.length) ∧
      set.lru.Perm (List.range set.lru.length) ∧
      (∀ a c', c.setIdx a = 0 → c.access a = some (false, c') →
        set.lru.length < 2 →
        (∃ b, set.blocks[set.lru.length]? = some b ∧ b.valid = false) ∧
        c'.sets[0]? = some { blocks := set.blocks.set set.lru.length
                                         { tag := c.tag a, valid := true }
                             lru := set.lru ++ [set.lru.length] }) ∧
      (∀ (a : Int) (r : Bool) (c' : Cache) (set' : CacheSet) (j : Nat) (b : CacheBlock),
        c.setIdx a = 0 → c.access a = some (r, c') →
        c'.sets[0]? = some set' → set.blocks[j]? = some b → b.valid = true →
        set'.blocks[j]? ≠ some b → set.lru.length = 2) :=
  ⟨{ blockSize := 1, cacheSize := 2, associativity := 2, numSets := 1,
     sets := [{ blocks := [{ tag := 5, valid := true }, { tag := 0, valid := false }],
                lru := [0] }] },
   { blocks := [{ tag := 5, valid := true }, { tag := 0, valid := false }], lru := [0] },
   (@Cache.Reaches.step (Cache.init 1 2 2) [] (Cache.init 1 2 2) 5 false _
     Cache.Reaches.init (by decide)),
   by decide,
   ascending_fill 1 2 2 (by decide) (by decide) (by decide) ([] ++ [5]) _
     (@Cache.Reaches.step (Cache.init 1 2 2) [] (Cache.init 1 2 2) 5 false _
       Cache.Reaches.init (by decide))
     0 _ (by decide)⟩

/-! ## Block lifecycle -/

theorem Cache.block?_of_set {c : Cache} {s : Nat} {set : CacheSet}
    (h : c.sets[s]? = some set) (j : Nat) : c.block? s j = set.blocks[j]? := by
  unfold Cache.block?
  rw [h]; rfl

theorem Cache.block?_congr {c c' : Cache} {s : Nat} (h : c'.sets[s]? = c.sets[s]?)
    (j : Nat) : c'.block? s j = c.block? s j := by
  unfold Cache.block?
  rw [h]

theorem Cache.init_block? (blockSize cacheSize associativity s j : Nat) (b : CacheBlock)
    (h : (Cache.init blockSize cacheSize associativity).block? s j = some b) :
    b.valid = false ∧ b.tag = 0 := by
  unfold Cache.block? at h
  cases hs : (Cache.init blockSize cacheSize associativity).sets[s]? with
  | none => rw [hs] at h; cases h
  | some set =>
    rw [hs] at h
    have hmem := List.getElem?_mem hs
    simp only [Cache.init] at hmem
    rw [List.eq_of_mem_replicate hmem] at h
    have hb := List.getElem?_mem (show (CacheSet.init associativity).blocks[j]? = some b from h)
    simp only [CacheSet.init] at hb
    rw [List.eq_of_mem_replicate hb]
    exact ⟨rfl, rfl⟩

theorem getElem?_set_valid (blocks : List CacheBlock) (k j : Nat) (t : Int) (b : CacheBlock)
    (hb : blocks[j]? = some b) (hv : b.valid = true) :
    ∃ b', (blocks.set k { tag := t, valid := true })[j]? = some b' ∧ b'.valid = true := by
  rw [List.getElem?_set]
  by_cases hkj : k = j
  · have hj : j < blocks.length := (List.getElem?_eq_some_iff.1 hb).1
    rw [if_pos hkj, if_pos (hkj ▸ hj)]
    exact ⟨_, rfl, rfl⟩
  · rw [if_neg hkj]
    exact ⟨b, hb, hv⟩

/-- C16: block lifecycle.  Right after construction every block is invalid with tag 0.  In
every reachable state an access returns, every block that was valid before is valid after,
all blocks except at most one (one slot of one set) are unchanged, and after a hit all
blocks are unchanged. -/
theorem block_lifecycle (blockSize cacheSize associativity : Nat)
    (hassoc : 1 ≤ associativity) (hsets : 1 ≤ cacheSize / blockSize / associativity)
    (hint : cacheSize < 2 ^ 31) (trace : List Int) (c : Cache)
    (hr : (Cache.init blockSize cacheSize associativity).Reaches trace c) (a : Int) :
    (∀ (s j : Nat) (b : CacheBlock),
        (Cache.init blockSize cacheSize associativity).block? s j = some b →
        b.valid = false ∧ b.tag = 0) ∧
      ∃ r c', c.access a = some (r, c') ∧
        (∀ (s j : Nat) (b : CacheBlock), c.block? s j = some b → b.valid = true →
          ∃ b', c'.block? s j = some b' ∧ b'.valid = true) ∧
        (∃ s0 j0, ∀ s j, (s ≠ s0 ∨ j ≠ j0) → c'.block? s j = c.block? s j) ∧
        (r = true → ∀ s j, c'.block? s j = c.block? s j) := by
  obtain ⟨hwf, _, _, _⟩ := Cache.init_reaches_wf hassoc hsets hint hr
  refine ⟨Cache.init_block? blockSize cacheSize associativity, ?_⟩
  obtain ⟨c', hacc, _, _, _, hframe⟩ := Cache.access_step hwf a
  obtain ⟨set, set', hset, hsacc, hset'⟩ := Cache.access_set hacc
  have hinv : SetInv c.associativity set := hwf.sets_inv set (List.getElem?_mem hset)
  have hother : ∀ s j, s ≠ c.setIdx a → c'.block? s j = c.block? s j :=
    fun s j hs => Cache.block?_congr (hframe s hs) j
  refine ⟨_, c', hacc, ?_, ?_, ?_⟩
  · intro s j b hb hv
    by_cases hs : s = c.setIdx a
    · subst hs
      rw [Cache.block?_of_set hset] at hb
      rw [Cache.block?_of_set hset']
      rcases CacheSet.access_cases hinv hwf.assoc_pos hsacc with h | h | h
      · rw [h.2.2]; exact ⟨b, hb, hv⟩
      · rw [h.2.2.2]; exact getElem?_set_valid _ _ _ _ _ hb hv
      · obtain ⟨e, rest, _, _, hs'⟩ := h.2.2.2
        rw [hs']; exact getElem?_set_valid _ _ _ _ _ hb hv
    · rw [hother s j hs]; exact ⟨b, hb, hv⟩
  · have key : ∀ k : Nat, set'.blocks = set.blocks.set k { tag := c.tag a, valid := true } →
        ∀ s j, (s ≠ c.setIdx a ∨ j ≠ k) → c'.block? s j = c.block? s j := by
      intro k hk s j hsj
      by_cases hs : s = c.setIdx a
      · subst hs
        rw [Cache.block?_of_set hset, Cache.block?_of_set hset', hk, List.getElem?_set,
          if_neg (fun h => hsj.elim (fun h' => h' rfl) (fun h' => h' h.symm))]
      · exact hother s j hs
    rcases CacheSet.access_cases hinv hwf.assoc_pos hsacc with h | h | h
    · refine ⟨c.setIdx a, 0, fun s j _ => ?_⟩
      by_cases hs : s = c.setIdx a
      · subst hs
        rw [Cache.block?_of_set hset, Cache.block?_of_set hset', h.2.2]
      · exact hother s j hs
    · exact ⟨c.setIdx a, set.lru.length, key _ (by rw [h.2.2.2])⟩
    · obtain ⟨e, rest, _, _, hs'⟩ := h.2.2.2
      exact ⟨c.setIdx a, e, key _ (by rw [hs'])⟩
  · intro hres s j
    by_cases hs : s = c.setIdx a
    · subst hs
      rw [Cache.block?_of_set hset, Cache.block?_of_set hset']
      rcases CacheSet.access_cases hinv hwf.assoc_pos hsacc with h | h | h
      · rw [h.2.2]
      · rw [h.1] at hres; cases hres
      · rw [h.1] at hres; cases hres
    · exact hother s j hs

theorem block_lifecycle_witness :
    ∃ c : Cache, (Cache.init 1 2 2).Reaches ([] ++ [5]) c ∧
      (∀ (s j : Nat) (b : CacheBlock), (Cache.init 1 2 2).block? s j = some b →
        b.valid = false ∧ b.tag = 0) ∧
      ∃ r c', c.access 7 = some (r, c') ∧
        (∀ (s j : Nat) (b : CacheBlock), c.block? s j = some b → b.valid = true →
          ∃ b', c'.block? s j = some b' ∧ b'.valid = true) ∧
        (∃ s0 j0, ∀ s j, (s ≠ s0 ∨ j ≠ j0) → c'.block? s j = c.block? s j) ∧
        (r = true → ∀ s j, c'.block? s j = c.block? s j) :=
  ⟨{ blockSize := 1, cacheSize := 2, associativity := 2, numSets := 1,
     sets := [{ blocks := [{ tag := 5, valid := true }, { tag := 0, valid := false }],
                lru := [0] }] },
   (@Cache.Reaches.step (Cache.init 1 2 2) [] (Cache.init 1 2 2) 5 false _
     Cache.Reaches.init (by decide)),
   block_lifecycle 1 2 2 (by decide) (by decide) (by decide) ([] ++ [5]) _
     (@Cache.Reaches.step (Cache.init 1 2 2) [] (Cache.init 1 2 2) 5 false _
       Cache.Reaches.init (by decide))
     7⟩

/-! ## Unique tags -/

/-- C18: no duplicate tags.  In every reachable state no two valid blocks of a set hold the
same tag; hence the slot found by the ascending scan is the only valid slot with the
searched tag. -/
theorem no_duplicate_tags (blockSize cacheSize associativity : Nat)
    (hassoc : 1 ≤ associativity) (hsets : 1 ≤ cacheSize / blockSize / associativity)
    (hint : cacheSize < 2 ^ 31) (trace : List Int) (c : Cache)
    (hr : (Cache.init blockSize cacheSize associativity).Reaches trace c)
    (set : CacheSet) (hset : set ∈ c.sets) :
    (∀ (i j : Nat) (bi bj : CacheBlock), set.blocks[i]? = some bi → set.blocks[j]? = some bj →
        bi.valid = true → bj.valid = true → bi.tag = bj.tag → i = j) ∧
      (∀ (t : Int) (i : Nat), scanFrom set.blocks t 0 associativity = some (some i) →
        ∀ (j : Nat) (b : CacheBlock), set.blocks[j]? = some b → b.valid = true → b.tag = t →
          j = i) := by
  obtain ⟨hwf, _, _, _⟩ := Cache.init_reaches_wf hassoc hsets hint hr
  have hinv := hwf.sets_inv set hset
  refine ⟨hinv.tags_inj, ?_⟩
  intro t i hscan j b hb hv ht
  obtain ⟨_, _, bi, hbi, hvi, hti⟩ := scanFrom_found set.blocks t associativity 0 i hscan
  exact hinv.tags_inj j i b bi hb hbi hv hvi (ht.trans hti.symm)

theorem no_duplicate_tags_witness :
    ∃ (c : Cache) (set : CacheSet), (Cache.init 1 2 2).Reaches ([] ++ [5] ++ [6]) c ∧
      set ∈ c.sets ∧
      (set.blocks.map CacheBlock.valid = [true, true] ∧
        scanFrom set.blocks 6 0 2 = some (some 1)) ∧
      (∀ (i j : Nat) (bi bj : CacheBlock), set.blocks[i]? = some bi →
        set.blocks[j]? = some bj → bi.valid = true → bj.valid = true → bi.tag = bj.tag →
        i = j) ∧
      (∀ (t : Int) (i : Nat), scanFrom set.blocks t 0 2 = some (some i) →
        ∀ (j : Nat) (b : CacheBlock), set.blocks[j]? = some b → b.valid = true → b.tag = t →
          j = i) :=
  ⟨{ blockSize := 1, cacheSize := 2, associativity := 2, numSets := 1,
     sets := [{ blocks := [{ tag := 5, valid := true }, { tag := 6, valid := true }],
                lru := [0, 1] }] },
   { blocks := [{ tag := 5, valid := true }, { tag := 6, valid := true }], lru := [0, 1] },
   (@Cache.Reaches.step (Cache.init 1 2 2) ([] ++ [5])
     { blockSize := 1, cacheSize := 2, associativity := 2, numSets := 1,
       sets := [{ blocks := [{ tag := 5, valid := true }, { tag := 0, valid := false }],
                  lru := [0] }] }
     6 false
     { blockSize := 1, cacheSize := 2, associativity := 2, numSets := 1,
       sets := [{ blocks := [{ tag := 5, valid := true }, { tag := 6, valid := true }],
                  lru := [0, 1] }] }
     (@Cache.Reaches.step (Cache.init 1 2 2) [] (Cache.init 1 2 2) 5 false
       { blockSize := 1, cacheSize := 2, associativity := 2, numSets := 1,
         sets := [{ blocks := [{ tag := 5, valid := true }, { tag := 0, valid := false }],
                    lru := [0] }] }
       Cache.Reaches.init (by decide)) (by decide)),
   by decide,
   by decide,
   no_duplicate_tags 1 2 2 (by decide) (by decide) (by decide) ([] ++ [5] ++ [6])
     { blockSize := 1, cacheSize := 2, associativity := 2, numSets := 1,
       sets := [{ blocks := [{ tag := 5, valid := true }, { tag := 6, valid := true }],
                  lru := [0, 1] }] }
     (@Cache.Reaches.step (Cache.init 1 2 2) ([] ++ [5])
       { blockSize := 1, cacheSize := 2, associativity := 2, numSets := 1,
         sets := [{ blocks := [{ tag := 5, valid := true }, { tag := 0, valid := false }],
                    lru := [0] }] }
       6 false
       { blockSize := 1, cacheSize := 2, associativity := 2, numSets := 1,
         sets := [{ blocks := [{ tag := 5, valid := true }, { tag := 6, valid := true }],
                    lru := [0, 1] }] }
       (@Cache.Reaches.step (Cache.init 1 2 2) [] (Cache.init 1 2 2) 5 false
         { blockSize := 1, cacheSize := 2, associativity := 2, numSets := 1,
           sets := [{ blocks := [{ tag := 5, valid := true }, { tag := 0, valid := false }],
                      lru := [0] }] }
         Cache.Reaches.init (by decide)) (by decide))
     { blocks := [{ tag := 5, valid := true }, { tag := 6, valid := true }], lru := [0, 1] }
     (by decide)⟩

/-! ## Sets beyond the index mask -/

theorem Cache.setIdx_lt_two_pow {c : Cache} (hwf : c.WF) (a : Int) :
    c.setIdx a < 2 ^ c.indexBits := by
  unfold Cache.setIdx
  rw [Cache.index_eq_emod hwf]
  have hp : (0 : Int) < 2 ^ c.indexBits := by positivity
  have h1 := Int.emod_lt_of_pos (a >>> c.blockOffsetBits) hp
  have h0 := Int.emod_nonneg (a >>> c.blockOffsetBits) (ne_of_gt hp)
  have : (((a >>> c.blockOffsetBits) % 2 ^ c.indexBits).toNat : Int) < ((2 ^ c.indexBits : Nat) : Int) := by
    rw [Int.toNat_of_nonneg h0]; push_cast; exact h1
  exact_mod_cast this

theorem Cache.Reaches.untouched {c0 c : Cache} {pre : List Int} (h0 : c0.WF)
    (hr : c0.Reaches pre c) (j : Nat) (hj : 2 ^ c0.indexBits ≤ j) :
    c.sets[j]? = c0.sets[j]? := by
  induction hr with
  | init => rfl
  | step hr' hacc ih =>
    rename_i tr c1 a r c2
    have hwf := hr'.wf h0
    have hcfg := hr'.sameConfig
    have hlt := Cache.setIdx_lt_two_pow hwf a
    have hib : c1.indexBits = c0.indexBits := by
      unfold Cache.indexBits; rw [hcfg.numSets_eq]
    rw [hib] at hlt
    rw [Cache.access_frame hacc j (by omega)]
    exact ih

/-- C15: mask and set count.  When numSets is not a power of two, `2 ^ ⌊log₂ numSets⌋` is
strictly below numSets, the index computed by `access` is below `2 ^ ⌊log₂ numSets⌋` for
every address, and in every reachable state every set at a position from
`2 ^ ⌊log₂ numSets⌋` on is still in its initial state: all blocks invalid, empty recency
list. -/
theorem mask_mismatch (blockSize cacheSize associativity : Nat)
    (hassoc : 1 ≤ associativity) (hsets : 1 ≤ cacheSize / blockSize / associativity)
    (hint : cacheSize < 2 ^ 31)
    (hnp : ∀ k, cacheSize / blockSize / associativity ≠ 2 ^ k)
    (trace : List Int) (c : Cache)
    (hr : (Cache.init blockSize cacheSize associativity).Reaches trace c) :
    c.indexBits = floorLog2 (cacheSize / blockSize / associativity) ∧
      2 ^ c.indexBits < cacheSize / blockSize / associativity ∧
      (∀ a, 0 ≤ c.index a ∧ c.index a < 2 ^ c.indexBits) ∧
      ∀ j, 2 ^ c.indexBits ≤ j → j < cacheSize / blockSize / associativity →
        c.sets[j]? = some (CacheSet.init associativity) := by
  have h0 := Cache.init_WF blockSize cacheSize associativity hassoc hsets hint
  obtain ⟨hwf, _, _, hns⟩ := Cache.init_reaches_wf hassoc hsets hint hr
  have hib : c.indexBits = floorLog2 (cacheSize / blockSize / associativity) := by
    unfold Cache.indexBits; rw [hns]
  have hle := two_pow_floorLog2_le _ hsets
  refine ⟨hib, ?_, ?_, ?_⟩
  · rw [hib]
    exact lt_of_le_of_ne hle (fun h => hnp _ h.symm)
  · intro a
    rw [Cache.index_eq_emod hwf]
    have hp : (0 : Int) < 2 ^ c.indexBits := by positivity
    exact ⟨Int.emod_nonneg _ (ne_of_gt hp), Int.emod_lt_of_pos _ hp⟩
  · intro j hj hjn
    have hib0 : (Cache.init blockSize cacheSize associativity).indexBits = c.indexBits := by
      rw [hib]; rfl
    rw [hr.untouched h0 j (by rw [hib0]; exact hj)]
    show (List.replicate _ _)[j]? = _
    rw [List.getElem?_replicate, if_pos hjn]

theorem three_ne_two_pow (k : Nat) : 768 / 64 / 4 ≠ 2 ^ k := by
  have h3 : (768 / 64 / 4 : Nat) = 3 := by decide
  rw [h3]
  intro h
  have hk : k < 2 := by
    by_contra hk
    have : 2 ^ 2 ≤ 2 ^ k := Nat.pow_le_pow_right (by norm_num) (by omega)
    omega
  interval_cases k <;> omega

theorem mask_mismatch_witness :
    ((Cache.init 64 768 4).indexBits = floorLog2 (768 / 64 / 4) ∧
      2 ^ (Cache.init 64 768 4).indexBits < 768 / 64 / 4 ∧
      (∀ a, 0 ≤ (Cache.init 64 768 4).index a ∧
        (Cache.init 64 768 4).index a < 2 ^ (Cache.init 64 768 4).indexBits) ∧
      ∀ j, 2 ^ (Cache.init 64 768 4).indexBits ≤ j → j < 768 / 64 / 4 →
        (Cache.init 64 768 4).sets[j]? = some (CacheSet.init 4)) ∧
      ∃ c : Cache, (Cache.init 64 768 4).Reaches ([] ++ [-1]) c ∧
        c.sets.map CacheSet.lru = [[], [0], []] ∧
        c.indexBits = floorLog2 (768 / 64 / 4) ∧
        2 ^ c.indexBits < 768 / 64 / 4 ∧
        (∀ a, 0 ≤ c.index a ∧ c.index a < 2 ^ c.indexBits) ∧
        ∀ j, 2 ^ c.indexBits ≤ j → j < 768 / 64 / 4 →
          c.sets[j]? = some (CacheSet.init 4) :=
  ⟨mask_mismatch 64 768 4 (by decide) (by decide) (by decide) three_ne_two_pow
     [] (Cache.init 64 768 4) Cache.Reaches.init,
   { blockSize := 64, cacheSize := 768, associativity := 4, numSets := 3,
       sets := [CacheSet.init 4,
                { blocks := [{ tag := -1, valid := true }, CacheBlock.init, CacheBlock.init,
                             CacheBlock.init],
                  lru := [0] },
                CacheSet.init 4] },
   @Cache.Reaches.step (Cache.init 64 768 4) [] (Cache.init 64 768 4) (-1) false _
     Cache.Reaches.init (by decide),
   by decide,
   mask_mismatch 64 768 4 (by decide) (by decide) (by decide) three_ne_two_pow
     ([] ++ [-1])
     { blockSize := 64, cacheSize := 768, associativity := 4, numSets := 3,
       sets := [CacheSet.init 4,
                { blocks := [{ tag := -1, valid := true }, CacheBlock.init, CacheBlock.init,
                             CacheBlock.init],
                  lru := [0] },
                CacheSet.init 4] }
     (@Cache.Reaches.step (Cache.init 64 768 4) [] (Cache.init 64 768 4) (-1) false _
       Cache.Reaches.init (by decide))⟩

/-! ## Block granularity -/

theorem floorLog2_two_pow (k : Nat) : floorLog2 (2 ^ k) = k := by
  rw [floorLog2_eq_log]; exact Nat.log_pow (by norm_num) k

theorem shiftRight_ofBits32 (A b : Nat) (hA : A < 2 ^ 32) (hb : b ≤ 32) :
    ofBits32 A >>> b =
      if A < 2 ^ 31 then ((A / 2 ^ b : Nat) : Int) else ((A / 2 ^ b : Nat) : Int) - 2 ^ (32 - b) := by
  by_cases h : A < 2 ^ 31
  · rw [if_pos h, ofBits32_of_lt h, shiftRight_natCast, Nat.shiftRight_eq_div_pow]
  · rw [if_neg h, ofBits32_of_ge (by omega) hA, shiftRight_sub_two_pow A b hb,
      Nat.shiftRight_eq_div_pow]

/-- Two 32-bit patterns have the same arithmetic shift by `b ≤ 31` exactly when their
unsigned quotients by `2 ^ b` agree. -/
theorem shiftRight_ofBits32_inj (A B b : Nat) (hA : A < 2 ^ 32) (hB : B < 2 ^ 32)
    (hb : b ≤ 31) : ofBits32 A >>> b = ofBits32 B >>> b ↔ A / 2 ^ b = B / 2 ^ b := by
  have hp : 0 < 2 ^ b := Nat.two_pow_pos b
  have h31 : (2 : Nat) ^ 31 = 2 ^ (31 - b) * 2 ^ b := by
    rw [← pow_add]; congr 1; omega
  have h32 : (2 : Nat) ^ 32 = 2 ^ (32 - b) * 2 ^ b := by
    rw [← pow_add]; congr 1; omega
  have hlo : ∀ X, X < 2 ^ 31 → X / 2 ^ b < 2 ^ (31 - b) := by
    intro X hX
    rw [Nat.div_lt_iff_lt_mul hp, ← h31]; exact hX
  have hhi : ∀ X, 2 ^ 31 ≤ X → 2 ^ (31 - b) ≤ X / 2 ^ b := by
    intro X hX
    rw [Nat.le_div_iff_mul_le hp, ← h31]; exact hX
  have htop : ∀ X, X < 2 ^ 32 → X / 2 ^ b < 2 ^ (32 - b) := by
    intro X hX
    rw [Nat.div_lt_iff_lt_mul hp, ← h32]; exact hX
  have hcast : ∀ X, X < 2 ^ 32 → ((X / 2 ^ b : Nat) : Int) < 2 ^ (32 - b) := by
    intro X hX
    exact_mod_cast htop X hX
  rw [shiftRight_ofBits32 A b hA (by omega), shiftRight_ofBits32 B b hB (by omega)]
  by_cases ha : A < 2 ^ 31 <;> by_cases hb' : B < 2 ^ 31
  · rw [if_pos ha, if_pos hb']
    exact Nat.cast_inj
  · rw [if_pos ha, if_neg hb']
    have h1 := hlo A ha
    have h2 := hhi B (by omega)
    have h3 := hcast B hB
    have h0 : (0 : Int) ≤ ((A / 2 ^ b : Nat) : Int) := Int.natCast_nonneg _
    constructor
    · intro h; exfalso; linarith
    · intro h; rw [h] at h1; exact absurd h1 (not_lt.2 h2)
  · rw [if_neg ha, if_pos hb']
    have h1 := hlo B hb'
    have h2 := hhi A (by omega)
    have h3 := hcast A hA
    have h0 : (0 : Int) ≤ ((B / 2 ^ b : Nat) : Int) := Int.natCast_nonneg _
    constructor
    · intro h; exfalso; linarith
    · intro h; rw [← h] at h1; exact absurd h1 (not_lt.2 h2)
  · rw [if_neg ha, if_neg hb']
    constructor
    · intro h
      have : ((A / 2 ^ b : Nat) : Int) = ((B / 2 ^ b : Nat) : Int) := by linarith
      exact_mod_cast this
    · intro h; rw [h]

theorem Cache.access_eq_of_key {c : Cache} {x y : Int} (hi : c.index x = c.index y)
    (ht : c.tag x = c.tag y) : c.access x = c.access y := by
  unfold Cache.access
  rw [hi, ht]

theorem Cache.access_again_hits {c : Cache} (hwf : c.WF) (a : Int) :
    ∃ r c1 c2, c.access a = some (r, c1) ∧ c1.WF ∧ SameConfig c c1 ∧
      c1.access a = some (true, c2) := by
  obtain ⟨c1, h1, hwf1, hcfg, htags, _⟩ := Cache.access_step hwf a
  obtain ⟨c2, h2, _⟩ := Cache.access_step hwf1 a
  refine ⟨_, c1, c2, h1, hwf1, hcfg, ?_⟩
  rw [h2, hcfg.tag_eq, hcfg.setIdx_eq, htags]
  simp [mem_lruStep_snd]

/-- C19: block granularity.  With a power-of-two blockSize, two unsigned 32-bit addresses
get the same index and the same tag exactly when their quotients by blockSize agree.  For
two such addresses, in every reachable state `access` behaves identically on both
(same result, same new state), and an access to one made right after an access to the
other returns hit. -/
theorem block_granularity (blockSize cacheSize associativity k : Nat)
    (hpow : blockSize = 2 ^ k)
    (hassoc : 1 ≤ associativity) (hsets : 1 ≤ cacheSize / blockSize / associativity)
    (hint : cacheSize < 2 ^ 31) (trace : List Int) (c : Cache)
    (hr : (Cache.init blockSize cacheSize associativity).Reaches trace c)
    (A B : Nat) (hA : A < 2 ^ 32) (hB : B < 2 ^ 32) :
    ((c.index (ofBits32 A) = c.index (ofBits32 B) ∧ c.tag (ofBits32 A) = c.tag (ofBits32 B)) ↔
        A / blockSize = B / blockSize) ∧
      (A / blockSize = B / blockSize →
        c.access (ofBits32 B) = c.access (ofBits32 A) ∧
        ∃ r c1 c2, c.access (ofBits32 A) = some (r, c1) ∧
          c1.access (ofBits32 B) = some (true, c2)) := by
  obtain ⟨hwf, _, hbs, _⟩ := Cache.init_reaches_wf hassoc hsets hint hr
  have hbits := hwf.bits_le
  have hbo : c.blockOffsetBits = k := by
    unfold Cache.blockOffsetBits
    rw [hbs, hpow, floorLog2_two_pow]
  rw [hbo] at hbits
  have hp : (0 : Int) < 2 ^ c.indexBits := by positivity
  have hidx : ∀ x : Int, c.index x = (x >>> k) % 2 ^ c.indexBits := by
    intro x; rw [Cache.index_eq_emod hwf, hbo]
  have htag : ∀ x : Int, c.tag x = (x >>> k) / 2 ^ c.indexBits := by
    intro x
    unfold Cache.tag
    rw [hbo, Int.shiftRight_add, Int.shiftRight_eq_div_pow (x >>> k)]
    norm_cast
  have hkey : (c.index (ofBits32 A) = c.index (ofBits32 B) ∧
      c.tag (ofBits32 A) = c.tag (ofBits32 B)) ↔ A / blockSize = B / blockSize := by
    rw [hidx, hidx, htag, htag, hpow, ← shiftRight_ofBits32_inj A B k hA hB (by omega)]
    constructor
    · rintro ⟨h1, h2⟩
      rw [← Int.ediv_add_emod (ofBits32 A >>> k) (2 ^ c.indexBits),
        ← Int.ediv_add_emod (ofBits32 B >>> k) (2 ^ c.indexBits), h1, h2]
    · intro h; rw [h]; exact ⟨rfl, rfl⟩
  refine ⟨hkey, ?_⟩
  intro hAB
  obtain ⟨hi, ht⟩ := hkey.2 hAB
  refine ⟨Cache.access_eq_of_key hi.symm ht.symm, ?_⟩
  obtain ⟨r, c1, c2, h1, _, hcfg, h2⟩ := Cache.access_again_hits hwf (ofBits32 A)
  refine ⟨r, c1, c2, h1, ?_⟩
  rw [← h2]
  apply Cache.access_eq_of_key
  · rw [hcfg.index_eq, hcfg.index_eq]; exact hi.symm
  · rw [hcfg.tag_eq, hcfg.tag_eq]; exact ht.symm

theorem block_granularity_witness :
    (((Cache.init 64 1024 4).index (ofBits32 0x1040) =
          (Cache.init 64 1024 4).index (ofBits32 0x107F) ∧
        (Cache.init 64 1024 4).tag (ofBits32 0x1040) =
          (Cache.init 64 1024 4).tag (ofBits32 0x107F)) ↔
        0x1040 / 64 = 0x107F / 64) ∧
      (0x1040 / 64 = 0x107F / 64 →
        (Cache.init 64 1024 4).access (ofBits32 0x107F) =
          (Cache.init 64 1024 4).access (ofBits32 0x1040) ∧
        ∃ r c1 c2, (Cache.init 64 1024 4).access (ofBits32 0x1040) = some (r, c1) ∧
          c1.access (ofBits32 0x107F) = some (true, c2)) :=
  block_granularity 64 1024 4 6 (by decide) (by decide) (by decide) (by decide) []
    (Cache.init 64 1024 4) Cache.Reaches.init 0x1040 0x107F (by decide) (by decide)

/-! ## Equivalence with the reference LRU model -/

theorem mem_takeWhile_ne_iff {α : Type} [DecidableEq α] (R : List α) (k y : α) :
    y ∈ R.takeWhile (fun z => decide (z ≠ k)) ↔
      R.findIdx (fun z => decide (z = y)) < R.findIdx (fun z => decide (z = k)) := by
  induction R with
  | nil => simp
  | cons z R ih =>
    rw [List.takeWhile_cons, List.findIdx_cons, List.findIdx_cons]
    by_cases hzk : z = k
    · simp [hzk]
    · by_cases hzy : z = y
      · subst hzy
        simp [hzk]
      · have hyz : ¬ y = z := fun h => hzy h.symm
        simp only [ne_eq, hzk, not_false_eq_true, decide_True, if_true, List.mem_cons, hyz,
          false_or, hzy, decide_False, cond_false, ih]
        omega

theorem findIdx_eq_inj {α : Type} [DecidableEq α] (R : List α) (x y : α) (hx : x ∈ R)
    (h : R.findIdx (fun z => decide (z = x)) = R.findIdx (fun z => decide (z = y))) :
    x = y := by
  have hlt : R.findIdx (fun z => decide (z = x)) < R.length :=
    List.findIdx_lt_length.2 ⟨x, hx, by simp⟩
  have h1 := @List.findIdx_getElem _ (fun z => decide (z = x)) R hlt
  have hlt' : R.findIdx (fun z => decide (z = y)) < R.length := h ▸ hlt
  have h2 := @List.findIdx_getElem _ (fun z => decide (z = y)) R hlt'
  simp only [decide_eq_true_eq] at h1 h2
  rw [← h1, ← h2]
  congr 1

theorem Cache.age_le_length (c : Cache) (pre : List Int) (s : Nat) (t : Int) :
    c.age pre s t ≤ pre.length := by
  unfold Cache.age
  have := @List.findIdx_le_length _ (fun k => decide (k = (s, t))) ((pre.map c.key).reverse)
  simpa using this

theorem Cache.age_inj (c : Cache) (pre : List Int) (s : Nat) (t t' : Int)
    (ht : (s, t) ∈ pre.map c.key) (h : c.age pre s t = c.age pre s t') : t = t' := by
  unfold Cache.age at h
  have := findIdx_eq_inj _ (s, t) (s, t') (List.mem_reverse.2 ht) h
  exact (Prod.mk.injEq _ _ _ _ ▸ this).2

theorem closed_step (L L' : List Int) (t0 : Int) (ageOld ageNew : Int → Nat)
    (inOld inNew : Int → Prop) (hnew0 : ageNew t0 = 0)
    (hnew : ∀ x, x ≠ t0 → ageNew x = ageOld x + 1)
    (hin : ∀ x, inNew x → x ≠ t0 → inOld x) (ht0 : t0 ∈ L')
    (hsub : ∀ x ∈ L', x ≠ t0 → x ∈ L)
    (hkeep : ∀ t ∈ L', t ≠ t0 → ∀ x ∈ L, x ≠ t0 → ageOld x < ageOld t → x ∈ L')
    (ihC : ∀ t ∈ L, ∀ t', inOld t' → ageOld t' < ageOld t → t' ∈ L) :
    ∀ t ∈ L', ∀ t', inNew t' → ageNew t' < ageNew t → t' ∈ L' := by
  intro t ht t' hin' hlt
  by_cases ht' : t' = t0
  · rw [ht']; exact ht0
  · have htt : t ≠ t0 := by
      intro h
      rw [h, hnew0] at hlt
      omega
    rw [hnew t' ht', hnew t htt] at hlt
    have h1 : t' ∈ L := ihC t (hsub t ht htt) t' (hin t' hin' ht') (by omega)
    exact hkeep t ht htt t' h1 ht' (by omega)

/-- The tag list of a set is closed under "more recent": a tag accessed more recently than
a member is a member, and while the list is shorter than `associativity` it holds every
tag accessed so far. -/
theorem recency_closed {c0 : Cache} (h0 : c0.WF) (hinit : ∀ s, c0.tagsAt s = [])
    {pre : List Int} {c : Cache} (hr : c0.Reaches pre c) (s : Nat) :
    (∀ t ∈ c.tagsAt s, ∀ t', (s, t') ∈ pre.map c0.key →
        c0.age pre s t' < c0.age pre s t → t' ∈ c.tagsAt s) ∧
      ((c.tagsAt s).length < c0.associativity →
        ∀ t', (s, t') ∈ pre.map c0.key → t' ∈ c.tagsAt s) := by
  induction hr with
  | init =>
    rw [hinit s]
    exact ⟨fun t ht => absurd ht (List.not_mem_nil t), fun _ t' ht' => by simp at ht'⟩
  | step hr' hacc ih =>
    rename_i tr c1 a r c2
    have hwf := hr'.wf h0
    have hcfg := hr'.sameConfig
    obtain ⟨_, htags, hframe⟩ := Cache.access_tags hwf hacc
    rw [hcfg.setIdx_eq, hcfg.tag_eq, hcfg.associativity_eq] at htags
    rw [hcfg.setIdx_eq] at hframe
    obtain ⟨hmem, hpw⟩ := recency_order h0 hinit hr' s
    obtain ⟨ihC, ihF⟩ := ih
    have hkeys : ∀ t', (s, t') ∈ (tr ++ [a]).map c0.key →
        (s, t') ∈ tr.map c0.key ∨ c0.key a = (s, t') := by
      intro t' h
      rw [List.map_append, List.mem_append, List.map_singleton, List.mem_singleton] at h
      exact h.imp id Eq.symm
    by_cases hsa : c0.setIdx a = s
    · rw [hsa] at htags
      have hkey : c0.key a = (s, c0.tag a) := by unfold Cache.key; rw [hsa]
      have hnew0 : c0.age (tr ++ [a]) s (c0.tag a) = 0 := Cache.age_snoc_eq c0 tr a s _ hkey
      have hnew : ∀ x, x ≠ c0.tag a → c0.age (tr ++ [a]) s x = c0.age tr s x + 1 := by
        intro x hx
        apply Cache.age_snoc_ne
        rw [hkey]
        intro h
        simp only [Prod.mk.injEq, true_and] at h
        exact hx h.symm
      have hin : ∀ x, (s, x) ∈ (tr ++ [a]).map c0.key → x ≠ c0.tag a →
          (s, x) ∈ tr.map c0.key := by
        intro x h hx
        rcases hkeys x h with h' | h'
        · exact h'
        · rw [hkey] at h'
          simp only [Prod.mk.injEq, true_and] at h'
          exact absurd h'.symm hx
      have ht0 := mem_lruStep_snd c0.associativity (c1.tagsAt s) (c0.tag a)
      have hL : (c1.tagsAt s).length ≤ c0.associativity := by
        rw [← hcfg.associativity_eq]
        unfold Cache.tagsAt
        cases hs : c1.sets[s]? with
        | none => simp
        | some set =>
          have := (hwf.sets_inv set (List.getElem?_mem hs)).lru_length_le
          simpa [CacheSet.tags] using this
      rw [htags]
      by_cases ht : c0.tag a ∈ c1.tagsAt s
      · have hL' : (lruStep c0.associativity (c1.tagsAt s) (c0.tag a)).2 =
            (c1.tagsAt s).erase (c0.tag a) ++ [c0.tag a] := by
          unfold lruStep; rw [if_pos ht]
        rw [hL'] at ht0 ⊢
        have hk : ∀ x ∈ c1.tagsAt s, x ≠ c0.tag a →
            x ∈ (c1.tagsAt s).erase (c0.tag a) ++ [c0.tag a] :=
          fun x hx hne => List.mem_append_left _ ((List.mem_erase_of_ne hne).2 hx)
        constructor
        · refine closed_step (c1.tagsAt s) _ (c0.tag a) (c0.age tr s) (c0.age (tr ++ [a]) s)
            (fun x => (s, x) ∈ tr.map c0.key) (fun x => (s, x) ∈ (tr ++ [a]).map c0.key)
            hnew0 hnew hin ht0 ?_ (fun _ _ _ x hx hne _ => hk x hx hne) ihC
          intro x hx hne
          rcases List.mem_append.1 hx with h | h
          · exact List.mem_of_mem_erase h
          · exact absurd (List.mem_singleton.1 h) hne
        · intro hlen t' ht'
          by_cases hne : t' = c0.tag a
          · rw [hne]; exact ht0
          · have hlen' : (c1.tagsAt s).length < c0.associativity := by
              rw [List.length_append, List.length_erase_of_mem ht, List.length_singleton] at hlen
              have := List.length_pos_of_mem ht
              omega
            exact hk t' (ihF hlen' t' (hin t' ht' hne)) hne
      · by_cases hlen0 : (c1.tagsAt s).length < c0.associativity
        · have hL' : (lruStep c0.associativity (c1.tagsAt s) (c0.tag a)).2 =
              c1.tagsAt s ++ [c0.tag a] := by
            unfold lruStep; rw [if_neg ht, if_pos hlen0]
          rw [hL'] at ht0 ⊢
          constructor
          · refine closed_step (c1.tagsAt s) _ (c0.tag a) (c0.age tr s) (c0.age (tr ++ [a]) s)
              (fun x => (s, x) ∈ tr.map c0.key) (fun x => (s, x) ∈ (tr ++ [a]).map c0.key)
              hnew0 hnew hin ht0 ?_ (fun _ _ _ x hx _ _ => List.mem_append_left _ hx) ihC
            intro x hx hne
            rcases List.mem_append.1 hx with h | h
            · exact h
            · exact absurd (List.mem_singleton.1 h) hne
          · intro _ t' ht'
            by_cases hne : t' = c0.tag a
            · rw [hne]; exact ht0
            · exact List.mem_append_left _ (ihF hlen0 t' (hin t' ht' hne))
        · have hL' : (lruStep c0.associativity (c1.tagsAt s) (c0.tag a)).2 =
              (c1.tagsAt s).tail ++ [c0.tag a] := by
            unfold lruStep; rw [if_neg ht, if_neg hlen0]
          rw [hL'] at ht0 ⊢
          cases hLs : c1.tagsAt s with
          | nil =>
            rw [hLs] at hlen0
            simp only [List.length_nil, not_lt, Nat.le_zero_eq] at hlen0
            have := h0.assoc_pos
            omega
          | cons h tl =>
            rw [hLs] at hpw ihC hL hlen0 ht0
            rw [List.tail_cons] at ht0 ⊢
            have hhead := (List.pairwise_cons.1 hpw).1
            constructor
            · refine closed_step (h :: tl) _ (c0.tag a) (c0.age tr s) (c0.age (tr ++ [a]) s)
                (fun x => (s, x) ∈ tr.map c0.key) (fun x => (s, x) ∈ (tr ++ [a]).map c0.key)
                hnew0 hnew hin ht0 ?_ ?_ ihC
              · intro x hx hne
                rcases List.mem_append.1 hx with h' | h'
                · exact List.mem_cons_of_mem _ h'
                · exact absurd (List.mem_singleton.1 h') hne
              · intro t ht' htne x hx _ hlt
                have htl : t ∈ tl := by
                  rcases List.mem_append.1 ht' with h' | h'
                  · exact h'
                  · exact absurd (List.mem_singleton.1 h') htne
                rcases List.mem_cons.1 hx with h' | h'
                · have := hhead t htl
                  rw [h'] at hlt
                  omega
                · exact List.mem_append_left _ h'
            · intro hlen
              rw [List.length_append, List.length_singleton] at hlen
              rw [List.length_cons] at hlen0
              omega
    · rw [hframe s (fun h => hsa h.symm)]
      have hne : ∀ x, c0.key a ≠ (s, x) := by
        intro x h
        unfold Cache.key at h
        simp only [Prod.mk.injEq] at h
        exact hsa h.1
      have hold : ∀ t', (s, t') ∈ (tr ++ [a]).map c0.key → (s, t') ∈ tr.map c0.key :=
        fun t' h => (hkeys t' h).resolve_right (hne t')
      constructor
      · intro t ht t' ht' hlt
        rw [Cache.age_snoc_ne c0 tr a s t' (hne t'), Cache.age_snoc_ne c0 tr a s t (hne t)] at hlt
        exact ihC t ht t' (hold t' ht') (by omega)
      · intro hlen t' ht'
        exact ihF hlen t' (hold t' ht')

theorem Cache.mem_distinctOthers_iff (c : Cache) (pre : List Int) (a : Int) (x : Int) :
    x ∈ (((((pre.map c.key).reverse.takeWhile (fun k => decide (k ≠ c.key a))).filter
        (fun k => decide (k.1 = (c.key a).1 ∧ k.2 ≠ (c.key a).2))).map Prod.snd).dedup) ↔
      c.age pre (c.setIdx a) x < c.age pre (c.setIdx a) (c.tag a) := by
  have hk : c.key a = (c.setIdx a, c.tag a) := rfl
  rw [List.mem_dedup, List.mem_map]
  unfold Cache.age
  rw [← hk, ← mem_takeWhile_ne_iff]
  constructor
  · rintro ⟨k', hk', rfl⟩
    rw [List.mem_filter] at hk'
    obtain ⟨h1, h2⟩ := hk'
    simp only [decide_eq_true_eq] at h2
    have : (c.setIdx a, k'.2) = k' := by
      rw [hk] at h2
      exact Prod.ext h2.1.symm rfl
    rw [this]; exact h1
  · intro h
    refine ⟨(c.setIdx a, x), ?_, rfl⟩
    rw [List.mem_filter]
    refine ⟨h, ?_⟩
    have hne := List.mem_takeWhile_imp h
    simp only [ne_eq, decide_eq_true_eq, decide_not, Bool.not_eq_true', decide_eq_false_iff_not]
      at hne
    simp only [decide_eq_true_eq]
    refine ⟨by rw [hk], ?_⟩
    rw [hk]
    intro hx
    apply hne
    rw [hk]
    exact Prod.ext rfl hx

/-- In a reached state the tag of an address is held by its set exactly when the reference
LRU model says hit. -/
theorem mem_tagsAt_iff_reference {c0 : Cache} (h0 : c0.WF) (hinit : ∀ s, c0.tagsAt s = [])
    {pre : List Int} {c : Cache} (hr : c0.Reaches pre c) (a : Int) :
    c0.tag a ∈ c.tagsAt (c0.setIdx a) ↔ c0.referenceHit pre a = true := by
  have hwf := hr.wf h0
  have hcfg := hr.sameConfig
  obtain ⟨hmem, _⟩ := recency_order h0 hinit hr (c0.setIdx a)
  obtain ⟨hC, hF⟩ := recency_closed h0 hinit hr (c0.setIdx a)
  have hnd := hwf.tagsAt_nodup (c0.setIdx a)
  have hG := Cache.mem_distinctOthers_iff c0 pre a
  have hk : c0.key a = (c0.setIdx a, c0.tag a) := rfl
  unfold Cache.referenceHit Cache.distinctOthersSince
  rw [Bool.and_eq_true, decide_eq_true_eq, decide_eq_true_eq]
  constructor
  · intro ht
    refine ⟨by rw [hk]; exact hmem _ ht, ?_⟩
    have hsub : ∀ x ∈ (((((pre.map c0.key).reverse.takeWhile
        (fun k => decide (k ≠ c0.key a))).filter
        (fun k => decide (k.1 = (c0.key a).1 ∧ k.2 ≠ (c0.key a).2))).map Prod.snd).dedup),
        x ∈ (c.tagsAt (c0.setIdx a)).erase (c0.tag a) := by
      intro x hx
      have hlt := (hG x).1 hx
      have hxk : (c0.setIdx a, x) ∈ pre.map c0.key := by
        rw [← Cache.age_lt_length_iff]
        exact lt_of_lt_of_le hlt (Cache.age_le_length _ _ _ _)
      have hxne : x ≠ c0.tag a := by
        intro h; rw [h] at hlt; exact lt_irrefl _ hlt
      exact (List.mem_erase_of_ne hxne).2 (hC _ ht x hxk hlt)
    have hle := (List.Nodup.subperm (List.nodup_dedup _) hsub).length_le
    rw [List.length_erase_of_mem ht] at hle
    have hpos := List.length_pos_of_mem ht
    have hL : (c.tagsAt (c0.setIdx a)).length ≤ c0.associativity := by
      rw [← hcfg.associativity_eq]
      unfold Cache.tagsAt
      cases hs : c.sets[c0.setIdx a]? with
      | none => simp
      | some set =>
        have := (hwf.sets_inv set (List.getElem?_mem hs)).lru_length_le
        simpa [CacheSet.tags] using this
    omega
  · rintro ⟨hkey, hcount⟩
    by_contra ht
    rw [hk] at hkey
    have hfull : ¬ (c.tagsAt (c0.setIdx a)).length < c0.associativity :=
      fun h => ht (hF h _ hkey)
    have hsub : ∀ t ∈ c.tagsAt (c0.setIdx a),
        t ∈ (((((pre.map c0.key).reverse.takeWhile
        (fun k => decide (k ≠ c0.key a))).filter
        (fun k => decide (k.1 = (c0.key a).1 ∧ k.2 ≠ (c0.key a).2))).map Prod.snd).dedup) := by
      intro t htL
      rw [hG t]
      have hne : t ≠ c0.tag a := fun h => ht (h ▸ htL)
      have h1 : ¬ c0.age pre (c0.setIdx a) (c0.tag a) < c0.age pre (c0.setIdx a) t :=
        fun h => ht (hC t htL _ hkey h)
      have h2 : c0.age pre (c0.setIdx a) t ≠ c0.age pre (c0.setIdx a) (c0.tag a) :=
        fun h => hne (Cache.age_inj c0 pre _ t _ (hmem t htL) h)
      omega
    have hle := (List.Nodup.subperm hnd hsub).length_le
    omega

/-- C17: equivalence with the reference LRU model.  Starting from a freshly constructed
cache, for every access sequence the run returns, and each access returns hit exactly when
some earlier access had the same (set, tag) pair and the number of distinct other tags of
that set accessed since the most recent such access is below `associativity`. -/
theorem reference_lru_equivalence (blockSize cacheSize associativity : Nat)
    (hassoc : 1 ≤ associativity) (hsets : 1 ≤ cacheSize / blockSize / associativity)
    (hint : cacheSize < 2 ^ 31) (trace : List Int) :
    ∃ rs c, (Cache.init blockSize cacheSize associativity).run trace = some (rs, c) ∧
      rs.length = trace.length ∧
      ∀ pre a suf, trace = pre ++ a :: suf →
        rs[pre.length]? =
          some ((Cache.init blockSize cacheSize associativity).referenceHit pre a) := by
  have h0 := Cache.init_WF blockSize cacheSize associativity hassoc hsets hint
  obtain ⟨rs, c, hrun, _, _, hlen⟩ := Cache.run_total h0 trace
  refine ⟨rs, c, hrun, hlen, ?_⟩
  intro pre a suf htrace
  rw [htrace] at hrun
  obtain ⟨rs1, c1, rs2, h1, h2, hrs, hl1⟩ := Cache.run_append_inv hrun
  obtain ⟨r, c2, rs3, h3, _, hrs2⟩ := Cache.run_cons_inv h2
  have hr1 : (Cache.init blockSize cacheSize associativity).Reaches pre c1 := by
    have := Cache.Reaches.run Cache.Reaches.init h1
    rwa [List.nil_append] at this
  have hwf1 := hr1.wf h0
  have hcfg := hr1.sameConfig
  obtain ⟨hr, _, _⟩ := Cache.access_tags hwf1 h3
  rw [hcfg.setIdx_eq, hcfg.tag_eq] at hr
  rw [hrs, hrs2, List.getElem?_append_right (by omega), hl1, Nat.sub_self]
  simp only [List.getElem?_cons_zero, Option.some.injEq]
  rw [hr]
  have hiff := mem_tagsAt_iff_reference h0 (Cache.init_tagsAt _ _ _) hr1 a
  by_cases hm : (Cache.init blockSize cacheSize associativity).tag a ∈
      c1.tagsAt ((Cache.init blockSize cacheSize associativity).setIdx a)
  · rw [decide_eq_true hm, hiff.1 hm]
  · rw [decide_eq_false hm]
    cases hb : (Cache.init blockSize cacheSize associativity).referenceHit pre a with
    | false => rfl
    | true => exact absurd (hiff.2 hb) hm

theorem reference_lru_equivalence_witness :
    ∃ rs c, (Cache.init 1 2 2).run [5, 6, 5, 7, 6, 5] = some (rs, c) ∧
      rs.length = [(5 : Int), 6, 5, 7, 6, 5].length ∧
      ∀ pre a suf, [(5 : Int), 6, 5, 7, 6, 5] = pre ++ a :: suf →
        rs[pre.length]? = some ((Cache.init 1 2 2).referenceHit pre a) :=
  reference_lru_equivalence 1 2 2 (by decide) (by decide) (by decide) [5, 6, 5, 7, 6, 5]

end CacheSim
